import Mathlib

/-!
Shallow embedding of the CDA exchange simulator's order-book core
(package `orderbook`, file with `OrderBook`, `Submit.process`,
`Cancel.process`, `matchMarket`, `matchLimit`, `matchAtPrice`,
`addToBook`, `findBestBidNoLock`, `findBestAskNoLock`) and of the
trend-follower agent (`agent.TrendFollowerAgent.act`).

Modelling conventions:
* Go `float64` prices and quantities are modelled as `ℚ`.  The only
  float-specific constant the core uses is `math.MaxFloat64`, the seed of
  the min-scan in `findBestAskNoLock`; it is modelled by its exact value
  `2^1024 - 2^971`.  Every finite `float64` is `≤` this bound.
* The Go maps `bids`/`asks : map[float64]*list.List` are modelled as
  association lists `List (ℚ × List Order)` with pairwise distinct keys;
  a price level is a FIFO queue with the front at the head.  Map
  iteration order is irrelevant to the code (it only takes key extrema),
  so the list order of the association list is immaterial.
* The Go map `orders : map[string]*list.Element` (order id → queue node)
  is modelled as an association list from id to the (side, price) of the
  node, which is all `Cancel.process` reads from the element.  Removing
  the element from its level list is modelled as removing the first
  order with that id from the queue; in the Go program resting ids are
  unique (uuid-generated), so this is the same element.
* The single-writer command loop applies `Submit.process` and
  `Cancel.process` one at a time; the embedding makes each a pure state
  transformer on `OrderBook`.  The mutable aggressor quantity
  `o.Quantity` is threaded explicitly.  `o.Time` is written but never
  read by the matching core and is omitted.
* The `for o.Quantity > 0` loops of `matchMarket`/`matchLimit` are
  modelled with explicit fuel `opposite.length + 1`: every iteration
  that continues with positive remaining quantity has emptied and
  deleted one price level, so this fuel is never exhausted on states
  whose best-price caches are consistent (which the invariant theorems
  below establish for all reachable states).
-/

namespace CDA

inductive Side where
  | buy
  | sell
deriving DecidableEq, Repr

inductive OrderType where
  | limit
  | market
deriving DecidableEq, Repr

/-- `order.Order` (fields used by the matching core). -/
structure Order where
  id : String
  side : Side
  typ : OrderType
  price : ℚ
  quantity : ℚ
  agentID : String
deriving DecidableEq, Repr

/-- `orderbook.Trade`. -/
structure Trade where
  price : ℚ
  quantity : ℚ
  buyerID : String
  sellerID : String
  buyerOrderID : String
  sellerOrderID : String
deriving DecidableEq, Repr

/-- A price level: price key and FIFO queue (front at head). -/
abbrev BookSide := List (ℚ × List Order)

/-- The order-id index: id ↦ (side, price) of the resting order's node. -/
abbrev OrderIndex := List (String × Side × ℚ)

/-- `orderbook.OrderBook` (the mutable fields of the single writer). -/
structure OrderBook where
  bids : BookSide
  asks : BookSide
  orders : OrderIndex
  lastPrice : ℚ
  bestBid : ℚ
  bestAsk : ℚ
deriving DecidableEq, Repr

/-- `orderbook.New()`: the fresh book. -/
def OrderBook.empty : OrderBook :=
  { bids := [], asks := [], orders := [], lastPrice := 0, bestBid := 0, bestAsk := 0 }

/-- Map read `m[p]` on a side. -/
def lookupLevel : BookSide → ℚ → Option (List Order)
  | [], _ => none
  | e :: m, p => if e.1 = p then some e.2 else lookupLevel m p

/-- Key-membership test on a side. -/
def containsKey : BookSide → ℚ → Bool
  | [], _ => false
  | e :: m, p => if e.1 = p then true else containsKey m p

/-- Replacement of the entry at an existing key. -/
def replaceLevel : BookSide → ℚ → List Order → BookSide
  | [], _, _ => []
  | e :: m, p, ℓ => if e.1 = p then (p, ℓ) :: m else e :: replaceLevel m p ℓ

/-- Map write `m[p] = ℓ` (overwrites the entry if the key is present). -/
def setLevel (m : BookSide) (p : ℚ) (ℓ : List Order) : BookSide :=
  if containsKey m p then replaceLevel m p ℓ else (p, ℓ) :: m

/-- Map delete `delete(m, p)`. -/
def eraseLevel : BookSide → ℚ → BookSide
  | [], _ => []
  | e :: m, p => if e.1 = p then eraseLevel m p else e :: eraseLevel m p

/-- Index read `ob.orders[id]`. -/
def lookupIdx : OrderIndex → String → Option (Side × ℚ)
  | [], _ => none
  | e :: idx, id => if e.1 = id then some e.2 else lookupIdx idx id

/-- Index delete `delete(ob.orders, id)`. -/
def eraseIdx : OrderIndex → String → OrderIndex
  | [], _ => []
  | e :: idx, id => if e.1 = id then eraseIdx idx id else e :: eraseIdx idx id

/-- Index write `ob.orders[id] = v` (map semantics: overwrites). -/
def insertIdx (idx : OrderIndex) (id : String) (v : Side × ℚ) : OrderIndex :=
  (id, v) :: eraseIdx idx id

/-- Deletion of several ids from the index, one per loop iteration (the
`delete(ob.orders, front.ID)` calls of one `matchAtPrice`). -/
def eraseIds (idx : OrderIndex) (ids : List String) : OrderIndex :=
  ids.foldl eraseIdx idx

/-- `math.MaxFloat64`, exactly: `(2 - 2^-52) · 2^1023`. -/
def maxFloat64 : ℚ := 2 ^ 1024 - 2 ^ 971

/-- `findBestBidNoLock`: 0 when empty, else a max-scan seeded with 0. -/
def findBestBidNoLock (bids : BookSide) : ℚ :=
  if bids = [] then 0
  else bids.foldl (fun m e => if e.1 > m then e.1 else m) 0

/-- `findBestAskNoLock`: 0 when empty, else a min-scan seeded with
`math.MaxFloat64`. -/
def findBestAskNoLock (asks : BookSide) : ℚ :=
  if asks = [] then 0
  else asks.foldl (fun m e => if e.1 < m then e.1 else m) maxFloat64

/-- Construction of the `Trade` record in `matchAtPrice`. -/
def mkTrade (o front : Order) (price fill : ℚ) : Trade :=
  if o.side = Side.buy then
    { price := price
      quantity := fill
      buyerID := o.agentID
      sellerID := front.agentID
      buyerOrderID := o.id
      sellerOrderID := front.id }
  else
    { price := price
      quantity := fill
      buyerID := front.agentID
      sellerID := o.agentID
      buyerOrderID := front.id
      sellerOrderID := o.id }

/-- The inner `for o.Quantity > 0 && l.Len() > 0` loop of `matchAtPrice`,
acting on the FIFO queue of one price level.  Returns the emitted trades,
the aggressor's remaining quantity, the remaining queue and the ids of
the fully-filled resting orders (each is also deleted from `ob.orders`).
In the branch where the front order keeps positive quantity, the fill
equals the whole aggressor quantity, so the remaining quantity is 0 and
the Go loop exits; the equation returns directly. -/
def matchQueue (o : Order) (price : ℚ) : ℚ → List Order →
    List Trade × ℚ × List Order × List String
  | q, [] => ([], q, [], [])
  | q, front :: rest =>
    if q > 0 then
      let fill := min q front.quantity
      let q' := q - fill
      let t := mkTrade o front price fill
      if front.quantity - fill ≤ 0 then
        let r := matchQueue o price q' rest
        (t :: r.1, r.2.1, r.2.2.1, front.id :: r.2.2.2)
      else
        ([t], q', { front with quantity := front.quantity - fill } :: rest, [])
    else ([], q, front :: rest, [])

/-- `matchAtPrice`: match aggressor `o` (remaining quantity `q`) against
the opposite-side queue at `price`; delete the level if it empties and
recompute the cached best price if the deleted level was the cached one. -/
def matchAtPrice (ob : OrderBook) (o : Order) (q : ℚ) (price : ℚ) :
    List Trade × ℚ × OrderBook :=
  let opposite := if o.side = Side.buy then ob.asks else ob.bids
  match lookupLevel opposite price with
  | none => ([], q, ob)
  | some ℓ =>
    if ℓ = [] then ([], q, ob)
    else
      let r := matchQueue o price q ℓ
      let idx := eraseIds ob.orders r.2.2.2
      if r.2.2.1 = [] then
        let m := eraseLevel opposite price
        if o.side = Side.buy then
          let ob₁ : OrderBook := { ob with asks := m, orders := idx }
          (r.1, r.2.1,
            if price = ob.bestAsk then
              { ob₁ with bestAsk := findBestAskNoLock m } else ob₁)
        else
          let ob₁ : OrderBook := { ob with bids := m, orders := idx }
          (r.1, r.2.1,
            if price = ob.bestBid then
              { ob₁ with bestBid := findBestBidNoLock m } else ob₁)
      else
        if o.side = Side.buy then
          (r.1, r.2.1, { ob with asks := setLevel opposite price r.2.2.1, orders := idx })
        else
          (r.1, r.2.1, { ob with bids := setLevel opposite price r.2.2.1, orders := idx })

/-- `getBestOppositeNoLock`. -/
def getBestOpposite (ob : OrderBook) (side : Side) : ℚ :=
  if side = Side.buy then ob.bestAsk else ob.bestBid

/-- The shared `for o.Quantity > 0` loop of `matchMarket` (with
`isLimit = false`) and `matchLimit` (with `isLimit = true`), with
explicit fuel (see the module comment on termination). -/
def matchLoop (isLimit : Bool) (o : Order) :
    Nat → OrderBook → ℚ → List Trade × ℚ × OrderBook
  | 0, ob, q => ([], q, ob)
  | fuel + 1, ob, q =>
    if q > 0 then
      let oppPrice := getBestOpposite ob o.side
      if oppPrice = 0 then ([], q, ob)
      else if isLimit ∧ ((o.side = Side.buy ∧ oppPrice > o.price) ∨
          (o.side = Side.sell ∧ oppPrice < o.price)) then
        ([], q, ob)
      else
        let r := matchAtPrice ob o q oppPrice
        let r' := matchLoop isLimit o fuel r.2.2 r.2.1
        (r.1 ++ r'.1, r'.2.1, r'.2.2)
    else ([], q, ob)

/-- `matchMarket`. -/
def matchMarket (ob : OrderBook) (o : Order) : List Trade × ℚ × OrderBook :=
  matchLoop false o ((if o.side = Side.buy then ob.asks else ob.bids).length + 1) ob o.quantity

/-- `matchLimit`. -/
def matchLimit (ob : OrderBook) (o : Order) : List Trade × ℚ × OrderBook :=
  matchLoop true o ((if o.side = Side.buy then ob.asks else ob.bids).length + 1) ob o.quantity

/-- The matching phase of `Submit.process`: dispatch on the order type. -/
def matchPhase (ob : OrderBook) (o : Order) : List Trade × ℚ × OrderBook :=
  if o.typ = OrderType.market then matchMarket ob o else matchLimit ob o

/-- `addToBook`: append the resting order at the back of its price-level
queue (creating the level if absent), index it, and update the cached
best price of its side. -/
def addToBook (ob : OrderBook) (o : Order) : OrderBook :=
  let m := if o.side = Side.buy then ob.bids else ob.asks
  let ℓ := (lookupLevel m o.price).getD []
  let m' := setLevel m o.price (ℓ ++ [o])
  let idx := insertIdx ob.orders o.id (o.side, o.price)
  if o.side = Side.buy then
    { ob with
      bids := m'
      orders := idx
      bestBid := if ob.bestBid < o.price ∨ ob.bestBid = 0 then o.price else ob.bestBid }
  else
    { ob with
      asks := m'
      orders := idx
      bestAsk := if ob.bestAsk = 0 ∨ ob.bestAsk > o.price then o.price else ob.bestAsk }

/-- `Submit.process`: validate, match, rest a positive limit remainder,
record the last trade price.  Returns the emitted trades and the new
book. -/
def submitProcess (ob : OrderBook) (o : Order) : List Trade × OrderBook :=
  if o.quantity ≤ 0 ∨ (o.typ = OrderType.limit ∧ o.price ≤ 0) then ([], ob)
  else
    let r := matchPhase ob o
    let ob₁ := if r.2.1 > 0 ∧ o.typ = OrderType.limit then
        addToBook r.2.2 { o with quantity := r.2.1 } else r.2.2
    match r.1.getLast? with
    | some t => (r.1, { ob₁ with lastPrice := t.price })
    | none => (r.1, ob₁)

/-- Removal of the queue node holding the order with the given id (the
`l.Remove(elem)` of `Cancel.process`; resting ids are unique, so the
first occurrence is the indexed element). -/
def removeById : List Order → String → List Order
  | [], _ => []
  | o :: rest, id => if o.id = id then rest else o :: removeById rest id

/-- `Cancel.process`: look the id up in the index; remove the node from
its level queue; delete the level if it empties, recomputing the cached
best price of that side if the deleted level was the cached one.
Returns the reported boolean and the new book. -/
def cancelProcess (ob : OrderBook) (id : String) : Bool × OrderBook :=
  match lookupIdx ob.orders id with
  | none => (false, ob)
  | some (side, price) =>
    let m := if side = Side.buy then ob.bids else ob.asks
    match lookupLevel m price with
    | none =>
      (true, { ob with orders := eraseIdx ob.orders id })
    | some ℓ =>
      let ℓ' := removeById ℓ id
      let idx := eraseIdx ob.orders id
      if ℓ' = [] then
        let m' := eraseLevel m price
        if side = Side.buy then
          let ob₁ : OrderBook := { ob with bids := m', orders := idx }
          (true, if price = ob.bestBid then
            { ob₁ with bestBid := findBestBidNoLock m' } else ob₁)
        else
          let ob₁ : OrderBook := { ob with asks := m', orders := idx }
          (true, if price = ob.bestAsk then
            { ob₁ with bestAsk := findBestAskNoLock m' } else ob₁)
      else
        if side = Side.buy then
          (true, { ob with bids := setLevel m price ℓ', orders := idx })
        else
          (true, { ob with asks := setLevel m price ℓ', orders := idx })

/-- A command accepted by the single-writer loop. -/
inductive Cmd where
  | submit (o : Order)
  | cancel (id : String)
deriving DecidableEq, Repr

/-- One command applied to the book (the state effect; return values of
`Submit`/`Cancel` are recovered from `submitProcess`/`cancelProcess`). -/
def stepCmd (ob : OrderBook) : Cmd → OrderBook
  | Cmd.submit o => (submitProcess ob o).2
  | Cmd.cancel id => (cancelProcess ob id).2

/-- The book after a sequence of commands starting from the fresh book. -/
def runCmds (cmds : List Cmd) : OrderBook :=
  cmds.foldl stepCmd OrderBook.empty

/-! Spec-side notions used to state the claims. -/

/-- The price keys of a book side. -/
def keys (m : BookSide) : List ℚ := m.map (·.1)

/-- Maximum of a list of rationals, `0` for the empty list. -/
def maxOf : List ℚ → ℚ
  | [] => 0
  | k :: ks => ks.foldl max k

/-- Minimum of a list of rationals, `0` for the empty list. -/
def minOf : List ℚ → ℚ
  | [] => 0
  | k :: ks => ks.foldl min k

/-- `v` is the maximum price key of `m`, with `0` standing for an empty
side. -/
def IsMaxKeyCache (m : BookSide) (v : ℚ) : Prop :=
  (m = [] → v = 0) ∧ (m ≠ [] → v ∈ keys m ∧ ∀ k ∈ keys m, k ≤ v)

/-- `v` is the minimum price key of `m`, with `0` standing for an empty
side. -/
def IsMinKeyCache (m : BookSide) (v : ℚ) : Prop :=
  (m = [] → v = 0) ∧ (m ≠ [] → v ∈ keys m ∧ ∀ k ∈ keys m, v ≤ k)

/-- The book side holding orders of side `s`. -/
def bookSideOf (ob : OrderBook) (s : Side) : BookSide :=
  if s = Side.buy then ob.bids else ob.asks

/-- The book side an aggressor of side `s` matches against. -/
def oppositeOf (ob : OrderBook) (s : Side) : BookSide :=
  if s = Side.buy then ob.asks else ob.bids

/-- The order rests somewhere in the given book side. -/
def RestsIn (m : BookSide) (r : Order) : Prop :=
  ∃ e ∈ m, r ∈ e.2

/-- Ids of the orders resting in one book side. -/
def levelIds (m : BookSide) : List String :=
  m.flatMap fun e => e.2.map (·.id)

/-- Ids of all orders resting in the book. -/
def restingIds (ob : OrderBook) : List String :=
  levelIds ob.bids ++ levelIds ob.asks

/-- Keys of the order index. -/
def idxKeys (idx : OrderIndex) : List String := idx.map (·.1)

/-- The id of the resting (passive) counterparty recorded in a trade
whose aggressor has side `s`. -/
def passiveOrderId (s : Side) (t : Trade) : String :=
  if s = Side.buy then t.sellerOrderID else t.buyerOrderID

/-- The FIFO queue at price `p` on side `s` (empty if the level is
absent). -/
def queueAt (ob : OrderBook) (s : Side) (p : ℚ) : List Order :=
  (lookupLevel (bookSideOf ob s) p).getD []

/-- Well-formedness of one book side: distinct price keys; every level
has a positive price representable as a finite float, is non-empty, and
each resting order is stored at its own price, on its own side, with
positive remaining quantity. -/
def SideOK (s : Side) (m : BookSide) : Prop :=
  (keys m).Nodup ∧
  ∀ e ∈ m, 0 < e.1 ∧ e.1 ≤ maxFloat64 ∧ e.2 ≠ [] ∧
    ∀ o ∈ e.2, o.price = e.1 ∧ o.side = s ∧ 0 < o.quantity

/-- Book invariant: both sides well formed and the cached best prices
equal the key extrema (0 for an empty side). -/
def InvBook (ob : OrderBook) : Prop :=
  SideOK Side.buy ob.bids ∧ SideOK Side.sell ob.asks ∧
  ob.bestBid = maxOf (keys ob.bids) ∧ ob.bestAsk = minOf (keys ob.asks)

/-- Index invariant: resting ids are distinct, every index entry points
to a level containing an order with that id, and every resting order is
indexed under its id, side and price. -/
def InvIdx (ob : OrderBook) : Prop :=
  (restingIds ob).Nodup ∧
  (∀ e ∈ ob.orders, ∃ ℓ, lookupLevel (bookSideOf ob e.2.1) e.2.2 = some ℓ ∧
    ∃ r ∈ ℓ, r.id = e.1) ∧
  (∀ s p ℓ, lookupLevel (bookSideOf ob s) p = some ℓ →
    ∀ r ∈ ℓ, (r.id, s, p) ∈ ob.orders)

/-- Price bound a command must satisfy so that its (float64 in the Go
program) price is finite; vacuous for cancels and trivially true for
every finite float input. -/
def cmdPriceOK : Cmd → Prop
  | Cmd.submit o => o.price ≤ maxFloat64
  | Cmd.cancel _ => True

instance : DecidablePred cmdPriceOK := fun c => by
  cases c <;> simp only [cmdPriceOK] <;> infer_instance

/-- Ids of the orders submitted by a command sequence. -/
def submittedIds (cmds : List Cmd) : List String :=
  cmds.flatMap fun c => match c with
    | Cmd.submit o => [o.id]
    | Cmd.cancel _ => []

/-- All resting ids stem from earlier submits. -/
def StateOK (ob : OrderBook) (used : List String) : Prop :=
  InvBook ob ∧ InvIdx ob ∧ ∀ id ∈ restingIds ob, id ∈ used

/-! The trend-follower agent (`agent.TrendFollowerAgent`). -/

/-- Agent state read and written by `TrendFollowerAgent.act` (`cash`,
`shares`, the EMA `MA` and the smoothing weight `Alpha`). -/
structure TrendFollower where
  cash : ℚ
  shares : ℚ
  ma : ℚ
  alpha : ℚ
deriving DecidableEq, Repr

/-- `TrendFollowerAgent.act`: substitute 100 for a zero last price,
update the EMA, choose the side by comparing the observed price with the
updated EMA, size the order by the random draw `rnd ∈ [0,1)` clamped by
inventory/cash, and return the submitted Market order's side and
quantity (`none` when the constraint checks abort the action).  The
uuid, stock symbol and agent id fields play no role here. -/
def trendFollowerAct (a : TrendFollower) (lastPrice : ℚ) (rnd : ℚ) :
    Option (Side × ℚ) × TrendFollower :=
  let last := if lastPrice = 0 then 100 else lastPrice
  let ma := a.alpha * last + (1 - a.alpha) * a.ma
  let a' := { a with ma := ma }
  let isBuy := last > ma
  let side := if isBuy then Side.buy else Side.sell
  if ¬isBuy ∧ a.shares < 1 then (none, a')
  else
    let qty₀ := 1 + (⌊rnd * 5⌋ : ℚ)
    let qty₁ := if ¬isBuy ∧ qty₀ > a.shares then a.shares else qty₀
    if isBuy ∧ qty₁ * last > a.cash then
      let qty₂ := (⌊a.cash / last⌋ : ℚ)
      if qty₂ < 1 then (none, a') else (some (side, qty₂), a')
    else (some (side, qty₁), a')

/-! Helper lemmas: fold extrema. -/

theorem foldl_max_out (l : List ℚ) : ∀ a b : ℚ, l.foldl max (max a b) = max a (l.foldl max b) := by
  induction l with
  | nil => intro a b; rfl
  | cons c cs ih =>
    intro a b
    simp only [List.foldl_cons]
    rw [max_assoc, ih]

theorem foldl_min_out (l : List ℚ) : ∀ a b : ℚ, l.foldl min (min a b) = min a (l.foldl min b) := by
  induction l with
  | nil => intro a b; rfl
  | cons c cs ih =>
    intro a b
    simp only [List.foldl_cons]
    rw [min_assoc, ih]

theorem foldl_max_eq (l : List ℚ) (a : ℚ) (h : l ≠ []) : l.foldl max a = max a (maxOf l) := by
  cases l with
  | nil => exact absurd rfl h
  | cons k ks => simp only [List.foldl_cons, maxOf, ← foldl_max_out]

theorem foldl_min_eq (l : List ℚ) (a : ℚ) (h : l ≠ []) : l.foldl min a = min a (minOf l) := by
  cases l with
  | nil => exact absurd rfl h
  | cons k ks => simp only [List.foldl_cons, minOf, ← foldl_min_out]

theorem maxOf_cons (k : ℚ) (ks : List ℚ) (h : ks ≠ []) : maxOf (k :: ks) = max k (maxOf ks) := by
  simpa only [maxOf] using foldl_max_eq ks k h

theorem minOf_cons (k : ℚ) (ks : List ℚ) (h : ks ≠ []) : minOf (k :: ks) = min k (minOf ks) := by
  simpa only [minOf] using foldl_min_eq ks k h

theorem maxOf_mem : ∀ {l : List ℚ}, l ≠ [] → maxOf l ∈ l := by
  intro l
  induction l with
  | nil => intro h; exact absurd rfl h
  | cons k ks ih =>
    intro _
    by_cases hks : ks = []
    · subst hks; simp [maxOf]
    · rw [maxOf_cons k ks hks]
      rcases le_total (maxOf ks) k with h | h
      · rw [max_eq_left h]; exact List.mem_cons_self k ks
      · rw [max_eq_right h]; exact List.mem_cons_of_mem k (ih hks)

theorem minOf_mem : ∀ {l : List ℚ}, l ≠ [] → minOf l ∈ l := by
  intro l
  induction l with
  | nil => intro h; exact absurd rfl h
  | cons k ks ih =>
    intro _
    by_cases hks : ks = []
    · subst hks; simp [minOf]
    · rw [minOf_cons k ks hks]
      rcases le_total k (minOf ks) with h | h
      · rw [min_eq_left h]; exact List.mem_cons_self k ks
      · rw [min_eq_right h]; exact List.mem_cons_of_mem k (ih hks)

theorem le_maxOf : ∀ {l : List ℚ} {x : ℚ}, x ∈ l → x ≤ maxOf l := by
  intro l
  induction l with
  | nil => intro x h; cases h
  | cons k ks ih =>
    intro x hx
    by_cases hks : ks = []
    · subst hks; rcases List.mem_singleton.mp hx with rfl; simp [maxOf]
    · rw [maxOf_cons k ks hks]
      rcases List.mem_cons.mp hx with rfl | hx'
      · exact le_max_left _ _
      · exact le_trans (ih hx') (le_max_right _ _)

theorem minOf_le : ∀ {l : List ℚ} {x : ℚ}, x ∈ l → minOf l ≤ x := by
  intro l
  induction l with
  | nil => intro x h; cases h
  | cons k ks ih =>
    intro x hx
    by_cases hks : ks = []
    · subst hks; rcases List.mem_singleton.mp hx with rfl; simp [minOf]
    · rw [minOf_cons k ks hks]
      rcases List.mem_cons.mp hx with rfl | hx'
      · exact min_le_left _ _
      · exact le_trans (min_le_right _ _) (ih hx')

theorem maxOf_unique {l : List ℚ} {v : ℚ} (h1 : v ∈ l) (h2 : ∀ x ∈ l, x ≤ v) : maxOf l = v :=
  le_antisymm (h2 _ (maxOf_mem (List.ne_nil_of_mem h1))) (le_maxOf h1)

theorem minOf_unique {l : List ℚ} {v : ℚ} (h1 : v ∈ l) (h2 : ∀ x ∈ l, v ≤ x) : minOf l = v :=
  le_antisymm (minOf_le h1) (h2 _ (minOf_mem (List.ne_nil_of_mem h1)))

theorem maxOf_pos {l : List ℚ} (h : l ≠ []) (hpos : ∀ x ∈ l, 0 < x) : 0 < maxOf l :=
  hpos _ (maxOf_mem h)

theorem minOf_pos {l : List ℚ} (h : l ≠ []) (hpos : ∀ x ∈ l, 0 < x) : 0 < minOf l :=
  hpos _ (minOf_mem h)

theorem maxOf_filter_ne {l : List ℚ} {p : ℚ} (hp : p ∈ l) (hne : p ≠ maxOf l) :
    maxOf (l.filter fun k => decide (k ≠ p)) = maxOf l := by
  have hl : l ≠ [] := List.ne_nil_of_mem hp
  have hv : maxOf l ∈ l.filter fun k => decide (k ≠ p) :=
    List.mem_filter.mpr ⟨maxOf_mem hl, by simpa using fun h => hne h.symm⟩
  exact maxOf_unique hv fun x hx => le_maxOf (List.mem_of_mem_filter hx)

theorem minOf_filter_ne {l : List ℚ} {p : ℚ} (hp : p ∈ l) (hne : p ≠ minOf l) :
    minOf (l.filter fun k => decide (k ≠ p)) = minOf l := by
  have hl : l ≠ [] := List.ne_nil_of_mem hp
  have hv : minOf l ∈ l.filter fun k => decide (k ≠ p) :=
    List.mem_filter.mpr ⟨minOf_mem hl, by simpa using fun h => hne h.symm⟩
  exact minOf_unique hv fun x hx => minOf_le (List.mem_of_mem_filter hx)

theorem findBestBid_eq (m : BookSide) (h : ∀ k ∈ keys m, 0 ≤ k) :
    findBestBidNoLock m = maxOf (keys m) := by
  by_cases hm : m = []
  · subst hm; rfl
  · have hfold : ∀ (mm : BookSide) (a : ℚ),
        mm.foldl (fun x e => if e.1 > x then e.1 else x) a = (keys mm).foldl max a := by
      intro mm
      induction mm with
      | nil => intro a; rfl
      | cons e es ih =>
        intro a
        simp only [List.foldl_cons, keys, List.map_cons]
        rw [show (if e.1 > a then e.1 else a) = max a e.1 by
          rcases lt_or_ge a e.1 with hlt | hge
          · rw [if_pos hlt, max_eq_right hlt.le]
          · rw [if_neg (not_lt.mpr hge), max_eq_left hge]]
        exact ih (max a e.1)
    have hk : keys m ≠ [] := by
      intro hh
      simp only [keys] at hh
      exact hm (List.map_eq_nil_iff.mp hh)
    rw [findBestBidNoLock, if_neg hm, hfold, foldl_max_eq _ _ hk,
      max_eq_right (h _ (maxOf_mem hk))]

theorem findBestAsk_eq (m : BookSide) (h : ∀ k ∈ keys m, k ≤ maxFloat64) :
    findBestAskNoLock m = minOf (keys m) := by
  by_cases hm : m = []
  · subst hm; rfl
  · have hfold : ∀ (mm : BookSide) (a : ℚ),
        mm.foldl (fun x e => if e.1 < x then e.1 else x) a = (keys mm).foldl min a := by
      intro mm
      induction mm with
      | nil => intro a; rfl
      | cons e es ih =>
        intro a
        simp only [List.foldl_cons, keys, List.map_cons]
        rw [show (if e.1 < a then e.1 else a) = min a e.1 by
          rcases lt_or_ge e.1 a with hlt | hge
          · rw [if_pos hlt, min_eq_right hlt.le]
          · rw [if_neg (not_lt.mpr hge), min_eq_left hge]]
        exact ih (min a e.1)
    have hk : keys m ≠ [] := by
      intro hh
      simp only [keys] at hh
      exact hm (List.map_eq_nil_iff.mp hh)
    rw [findBestAskNoLock, if_neg hm, hfold, foldl_min_eq _ _ hk,
      min_eq_right (h _ (minOf_mem hk))]

/-! Helper lemmas: the price-level association lists. -/

theorem lookupLevel_cons (e : ℚ × List Order) (m : BookSide) (p : ℚ) :
    lookupLevel (e :: m) p = if e.1 = p then some e.2 else lookupLevel m p := rfl

theorem eraseLevel_cons (e : ℚ × List Order) (m : BookSide) (p : ℚ) :
    eraseLevel (e :: m) p = if e.1 = p then eraseLevel m p else e :: eraseLevel m p := rfl

theorem lookupLevel_mem {m : BookSide} {p : ℚ} {ℓ : List Order}
    (h : lookupLevel m p = some ℓ) : (p, ℓ) ∈ m := by
  induction m with
  | nil => cases h
  | cons e es ih =>
    rw [lookupLevel_cons] at h
    by_cases hep : e.1 = p
    · rw [if_pos hep] at h
      have h2 : e.2 = ℓ := by injection h
      have h3 : (p, ℓ) = e := by rw [← hep, ← h2]
      rw [h3]
      exact List.mem_cons_self e es
    · rw [if_neg hep] at h
      exact List.mem_cons_of_mem _ (ih h)

theorem mem_keys_of_lookupLevel {m : BookSide} {p : ℚ} {ℓ : List Order}
    (h : lookupLevel m p = some ℓ) : p ∈ keys m :=
  List.mem_map.mpr ⟨(p, ℓ), lookupLevel_mem h, rfl⟩

theorem lookupLevel_eq_none {m : BookSide} {p : ℚ} :
    lookupLevel m p = none ↔ p ∉ keys m := by
  induction m with
  | nil => simp [lookupLevel, keys]
  | cons e es ih =>
    rw [lookupLevel_cons]
    by_cases hep : e.1 = p
    · simp [if_pos hep, keys, hep]
    · simp only [if_neg hep, ih, keys, List.map_cons, List.mem_cons]
      constructor
      · intro h hh
        rcases hh with hh | hh
        · exact hep hh.symm
        · exact h hh
      · intro h hh
        exact h (Or.inr hh)

theorem lookupLevel_isSome {m : BookSide} {p : ℚ} :
    (lookupLevel m p).isSome ↔ p ∈ keys m := by
  rcases h : lookupLevel m p with _ | ℓ
  · simpa using lookupLevel_eq_none.mp h
  · simpa using mem_keys_of_lookupLevel h

theorem containsKey_iff {m : BookSide} {p : ℚ} :
    containsKey m p = true ↔ p ∈ keys m := by
  induction m with
  | nil => simp [containsKey, keys]
  | cons e es ih =>
    rw [containsKey]
    by_cases hep : e.1 = p
    · simp [if_pos hep, keys, hep]
    · rw [if_neg hep, ih]
      simp only [keys, List.map_cons, List.mem_cons]
      constructor
      · exact fun h => Or.inr h
      · intro h
        rcases h with hh | hh
        · exact absurd hh.symm hep
        · exact hh

theorem keys_replaceLevel (m : BookSide) (p : ℚ) (ℓ : List Order) :
    keys (replaceLevel m p ℓ) = keys m := by
  induction m with
  | nil => rfl
  | cons e es ih =>
    rw [replaceLevel]
    by_cases hep : e.1 = p
    · rw [if_pos hep]
      simp [keys, hep]
    · rw [if_neg hep]
      simp only [keys, List.map_cons] at ih ⊢
      rw [ih]

theorem keys_setLevel_mem {m : BookSide} {p : ℚ} (ℓ : List Order) (h : p ∈ keys m) :
    keys (setLevel m p ℓ) = keys m := by
  rw [setLevel, if_pos (containsKey_iff.mpr h)]
  exact keys_replaceLevel m p ℓ

theorem keys_setLevel_not_mem {m : BookSide} {p : ℚ} (ℓ : List Order) (h : p ∉ keys m) :
    keys (setLevel m p ℓ) = p :: keys m := by
  rw [setLevel, if_neg (fun hh => h (containsKey_iff.mp hh))]
  rfl

theorem mem_replaceLevel {m : BookSide} {p : ℚ} {ℓ : List Order} {x : ℚ × List Order}
    (hx : x ∈ replaceLevel m p ℓ) : x = (p, ℓ) ∨ x ∈ m := by
  induction m with
  | nil => cases hx
  | cons e es ih =>
    rw [replaceLevel] at hx
    by_cases hep : e.1 = p
    · rw [if_pos hep] at hx
      rcases List.mem_cons.mp hx with rfl | hxm
      · exact Or.inl rfl
      · exact Or.inr (List.mem_cons_of_mem _ hxm)
    · rw [if_neg hep] at hx
      rcases List.mem_cons.mp hx with rfl | hxm
      · exact Or.inr (List.mem_cons_self _ _)
      · rcases ih hxm with h | h
        · exact Or.inl h
        · exact Or.inr (List.mem_cons_of_mem _ h)

theorem mem_setLevel {m : BookSide} {p : ℚ} {ℓ : List Order} {x : ℚ × List Order}
    (hx : x ∈ setLevel m p ℓ) : x = (p, ℓ) ∨ x ∈ m := by
  rw [setLevel] at hx
  by_cases hc : containsKey m p
  · rw [if_pos hc] at hx
    exact mem_replaceLevel hx
  · rw [if_neg hc] at hx
    rcases List.mem_cons.mp hx with rfl | hxm
    · exact Or.inl rfl
    · exact Or.inr hxm

theorem lookupLevel_replaceLevel_self (m : BookSide) (p : ℚ) (ℓ : List Order)
    (h : p ∈ keys m) : lookupLevel (replaceLevel m p ℓ) p = some ℓ := by
  induction m with
  | nil => cases h
  | cons e es ih =>
    rw [replaceLevel]
    by_cases hep : e.1 = p
    · rw [if_pos hep, lookupLevel_cons, if_pos rfl]
    · rw [if_neg hep, lookupLevel_cons, if_neg hep]
      apply ih
      rcases List.mem_cons.mp h with hh | hh
      · exact absurd hh.symm hep
      · exact hh

theorem lookupLevel_setLevel_self (m : BookSide) (p : ℚ) (ℓ : List Order) :
    lookupLevel (setLevel m p ℓ) p = some ℓ := by
  rw [setLevel]
  by_cases hc : containsKey m p
  · rw [if_pos hc]
    exact lookupLevel_replaceLevel_self m p ℓ (containsKey_iff.mp hc)
  · rw [if_neg hc, lookupLevel_cons, if_pos rfl]

theorem lookupLevel_replaceLevel_ne (m : BookSide) (p q : ℚ) (ℓ : List Order) (h : q ≠ p) :
    lookupLevel (replaceLevel m p ℓ) q = lookupLevel m q := by
  induction m with
  | nil => rfl
  | cons e es ih =>
    rw [replaceLevel]
    by_cases hep : e.1 = p
    · have heq : ¬e.1 = q := fun hh => h (hh ▸ hep)
      rw [if_pos hep, lookupLevel_cons, lookupLevel_cons, if_neg heq,
        if_neg (show ¬((p, ℓ) : ℚ × List Order).1 = q from fun hh => h hh.symm)]
    · rw [if_neg hep, lookupLevel_cons, lookupLevel_cons]
      by_cases heq : e.1 = q
      · rw [if_pos heq, if_pos heq]
      · rw [if_neg heq, if_neg heq]
        exact ih

theorem lookupLevel_setLevel_ne (m : BookSide) (p q : ℚ) (ℓ : List Order) (h : q ≠ p) :
    lookupLevel (setLevel m p ℓ) q = lookupLevel m q := by
  rw [setLevel]
  by_cases hc : containsKey m p
  · rw [if_pos hc]
    exact lookupLevel_replaceLevel_ne m p q ℓ h
  · rw [if_neg hc, lookupLevel_cons, if_neg (fun hh => h hh.symm)]

theorem mem_eraseLevel {m : BookSide} {p : ℚ} {x : ℚ × List Order} :
    x ∈ eraseLevel m p ↔ x ∈ m ∧ x.1 ≠ p := by
  induction m with
  | nil => simp [eraseLevel]
  | cons e es ih =>
    rw [eraseLevel_cons]
    by_cases hep : e.1 = p
    · rw [if_pos hep, ih]
      constructor
      · intro h
        exact ⟨List.mem_cons_of_mem _ h.1, h.2⟩
      · intro h
        rcases List.mem_cons.mp h.1 with rfl | hh
        · exact absurd hep h.2
        · exact ⟨hh, h.2⟩
    · rw [if_neg hep]
      constructor
      · intro h
        rcases List.mem_cons.mp h with rfl | hh
        · exact ⟨List.mem_cons_self _ _, hep⟩
        · obtain ⟨h1, h2⟩ := ih.mp hh
          exact ⟨List.mem_cons_of_mem _ h1, h2⟩
      · intro h
        rcases List.mem_cons.mp h.1 with rfl | hh
        · exact List.mem_cons_self _ _
        · exact List.mem_cons_of_mem _ (ih.mpr ⟨hh, h.2⟩)

theorem keys_eraseLevel (m : BookSide) (p : ℚ) :
    keys (eraseLevel m p) = (keys m).filter fun k => decide (k ≠ p) := by
  induction m with
  | nil => rfl
  | cons e es ih =>
    rw [eraseLevel_cons]
    by_cases hep : e.1 = p
    · rw [if_pos hep, ih]
      simp [keys, List.filter_cons, hep]
    · rw [if_neg hep]
      simp only [keys, List.map_cons, List.filter_cons]
      rw [show (decide (e.1 ≠ p)) = true by simpa using hep]
      simpa [keys] using ih

theorem lookupLevel_eraseLevel_self (m : BookSide) (p : ℚ) :
    lookupLevel (eraseLevel m p) p = none := by
  apply lookupLevel_eq_none.mpr
  rw [keys_eraseLevel]
  intro h
  exact absurd (List.of_mem_filter h) (by simp)

theorem lookupLevel_eraseLevel_ne (m : BookSide) (p q : ℚ) (h : q ≠ p) :
    lookupLevel (eraseLevel m p) q = lookupLevel m q := by
  induction m with
  | nil => rfl
  | cons e es ih =>
    rw [eraseLevel_cons, lookupLevel_cons]
    by_cases hep : e.1 = p
    · have heq : ¬e.1 = q := fun hh => h (hh ▸ hep)
      rw [if_pos hep, if_neg heq, ih]
    · rw [if_neg hep, lookupLevel_cons, ih]

theorem eraseLevel_not_mem (m : BookSide) (p : ℚ) (h : p ∉ keys m) : eraseLevel m p = m := by
  induction m with
  | nil => rfl
  | cons e es ih =>
    have hep : ¬e.1 = p := fun hh => h (List.mem_map.mpr ⟨e, List.mem_cons_self _ _, hh⟩)
    rw [eraseLevel_cons, if_neg hep,
      ih (fun hh => h (by
        simp only [keys, List.map_cons, List.mem_cons]
        simp only [keys] at hh
        exact Or.inr hh))]

theorem nodup_keys_setLevel {m : BookSide} {p : ℚ} (ℓ : List Order)
    (h : (keys m).Nodup) : (keys (setLevel m p ℓ)).Nodup := by
  by_cases hp : p ∈ keys m
  · rwa [keys_setLevel_mem ℓ hp]
  · rw [keys_setLevel_not_mem ℓ hp]
    exact List.Nodup.cons hp h

theorem nodup_keys_eraseLevel {m : BookSide} {p : ℚ} (h : (keys m).Nodup) :
    (keys (eraseLevel m p)).Nodup := by
  rw [keys_eraseLevel]
  exact h.filter _

/-! Helper lemmas: the inner matching loop over one FIFO queue. -/

theorem matchQueue_rem_props (o : Order) (price : ℚ) (s : Side) (p : ℚ) :
    ∀ (q : ℚ) (ℓ : List Order),
      (∀ r ∈ ℓ, r.price = p ∧ r.side = s ∧ 0 < r.quantity) →
      ∀ r ∈ (matchQueue o price q ℓ).2.2.1, r.price = p ∧ r.side = s ∧ 0 < r.quantity := by
  intro q ℓ
  induction ℓ generalizing q with
  | nil => intro _ r hr; cases hr
  | cons front rest ih =>
    intro hℓ r hr
    by_cases hq : q > 0
    · by_cases hfull : front.quantity - min q front.quantity ≤ 0
      · rw [matchQueue, if_pos hq, if_pos hfull] at hr
        exact ih _ (fun x hx => hℓ x (List.mem_cons_of_mem _ hx)) r hr
      · rw [matchQueue, if_pos hq, if_neg hfull] at hr
        rcases List.mem_cons.mp hr with rfl | hr'
        · obtain ⟨h1, h2, _⟩ := hℓ front (List.mem_cons_self _ _)
          refine ⟨h1, h2, ?_⟩
          show 0 < front.quantity - min q front.quantity
          exact lt_of_not_ge fun hh => hfull (by linarith)
        · exact hℓ r (List.mem_cons_of_mem _ hr')
    · rw [matchQueue, if_neg hq] at hr
      exact hℓ r hr

theorem matchQueue_rem_of_pos (o : Order) (price : ℚ) :
    ∀ (q : ℚ) (ℓ : List Order),
      0 < (matchQueue o price q ℓ).2.1 → (matchQueue o price q ℓ).2.2.1 = [] := by
  intro q ℓ
  induction ℓ generalizing q with
  | nil => intro _; rfl
  | cons front rest ih =>
    intro hpos
    by_cases hq : q > 0
    · by_cases hfull : front.quantity - min q front.quantity ≤ 0
      · rw [matchQueue, if_pos hq, if_pos hfull] at hpos ⊢
        exact ih _ hpos
      · rw [matchQueue, if_pos hq, if_neg hfull] at hpos
        have hpos' : 0 < q - min q front.quantity := hpos
        rcases le_total q front.quantity with hle | hle
        · rw [min_eq_left hle] at hpos'
          linarith
        · rw [min_eq_right hle] at hfull
          exact absurd (by linarith) hfull
    · rw [matchQueue, if_neg hq] at hpos
      exact absurd hpos hq

theorem matchQueue_residual_nonneg (o : Order) (price : ℚ) :
    ∀ (q : ℚ) (ℓ : List Order), 0 ≤ q → 0 ≤ (matchQueue o price q ℓ).2.1 := by
  intro q ℓ
  induction ℓ generalizing q with
  | nil => intro h; exact h
  | cons front rest ih =>
    intro hq0
    by_cases hq : q > 0
    · by_cases hfull : front.quantity - min q front.quantity ≤ 0
      · rw [matchQueue, if_pos hq, if_pos hfull]
        exact ih _ (by have := min_le_left q front.quantity; linarith)
      · rw [matchQueue, if_pos hq, if_neg hfull]
        show 0 ≤ q - min q front.quantity
        have := min_le_left q front.quantity
        linarith
    · rw [matchQueue, if_neg hq]
      exact hq0

/-! Helper lemmas: side well-formedness under the level operations. -/

theorem SideOK_keys_pos {s : Side} {m : BookSide} (h : SideOK s m) :
    ∀ k ∈ keys m, 0 < k := by
  intro k hk
  obtain ⟨e, he, rfl⟩ := List.mem_map.mp hk
  exact (h.2 e he).1

theorem SideOK_keys_le {s : Side} {m : BookSide} (h : SideOK s m) :
    ∀ k ∈ keys m, k ≤ maxFloat64 := by
  intro k hk
  obtain ⟨e, he, rfl⟩ := List.mem_map.mp hk
  exact (h.2 e he).2.1

theorem SideOK_set {s : Side} {m : BookSide} {p : ℚ} {ℓ' : List Order}
    (h : SideOK s m) (hp : p ∈ keys m) (hnil : ℓ' ≠ [])
    (hmem : ∀ r ∈ ℓ', r.price = p ∧ r.side = s ∧ 0 < r.quantity) :
    SideOK s (setLevel m p ℓ') := by
  constructor
  · rw [keys_setLevel_mem ℓ' hp]
    exact h.1
  · intro e he
    rcases mem_setLevel he with rfl | hem
    · obtain ⟨x, hx, hxp⟩ := List.mem_map.mp hp
      obtain ⟨h1, h2, _, _⟩ := h.2 x hx
      exact ⟨hxp ▸ h1, hxp ▸ h2, hnil, hmem⟩
    · exact h.2 e hem

theorem SideOK_erase {s : Side} {m : BookSide} {p : ℚ} (h : SideOK s m) :
    SideOK s (eraseLevel m p) := by
  constructor
  · exact nodup_keys_eraseLevel h.1
  · intro e he
    exact h.2 e (mem_eraseLevel.mp he).1

theorem maxKey_erase_ne {m : BookSide} {p : ℚ} (hp : p ∈ keys m)
    (hne : p ≠ maxOf (keys m)) : maxOf (keys (eraseLevel m p)) = maxOf (keys m) := by
  rw [keys_eraseLevel]
  exact maxOf_filter_ne hp hne

theorem minKey_erase_ne {m : BookSide} {p : ℚ} (hp : p ∈ keys m)
    (hne : p ≠ minOf (keys m)) : minOf (keys (eraseLevel m p)) = minOf (keys m) := by
  rw [keys_eraseLevel]
  exact minOf_filter_ne hp hne

/-! Preservation of the book invariant by each mutation. -/

theorem matchAtPrice_inv (ob : OrderBook) (o : Order) (q price : ℚ) (h : InvBook ob) :
    InvBook (matchAtPrice ob o q price).2.2 := by
  obtain ⟨hbids, hasks, hbb, hba⟩ := h
  by_cases hside : o.side = Side.buy
  · rcases hl : lookupLevel ob.asks price with _ | ℓ
    · simp only [matchAtPrice, hside, reduceIte, hl]
      exact ⟨hbids, hasks, hbb, hba⟩
    · have hpk : price ∈ keys ob.asks := mem_keys_of_lookupLevel hl
      have hlprops : ∀ r ∈ ℓ, r.price = price ∧ r.side = Side.sell ∧ 0 < r.quantity :=
        (hasks.2 _ (lookupLevel_mem hl)).2.2.2
      by_cases hnil : ℓ = []
      · simp [matchAtPrice, hside, hl, hnil]
        exact ⟨hbids, hasks, hbb, hba⟩
      · have hrem := matchQueue_rem_props o price Side.sell price q ℓ hlprops
        by_cases hre : (matchQueue o price q ℓ).2.2.1 = []
        · by_cases hbest : price = ob.bestAsk
          · subst hbest
            simp [matchAtPrice, hside, hl, hnil, hre]
            refine ⟨hbids, SideOK_erase hasks, hbb, ?_⟩
            exact findBestAsk_eq _ (SideOK_keys_le (SideOK_erase hasks))
          · simp [matchAtPrice, hside, hl, hnil, hre, hbest]
            refine ⟨hbids, SideOK_erase hasks, hbb, ?_⟩
            rw [hba]
            exact (minKey_erase_ne hpk (fun hh => hbest (hh.trans hba.symm))).symm
        · simp [matchAtPrice, hside, hl, hnil, hre]
          refine ⟨hbids, SideOK_set hasks hpk hre hrem, hbb, ?_⟩
          rw [hba, keys_setLevel_mem _ hpk]
  · rcases hl : lookupLevel ob.bids price with _ | ℓ
    · simp only [matchAtPrice, hside, reduceIte, hl]
      exact ⟨hbids, hasks, hbb, hba⟩
    · have hpk : price ∈ keys ob.bids := mem_keys_of_lookupLevel hl
      have hlprops : ∀ r ∈ ℓ, r.price = price ∧ r.side = Side.buy ∧ 0 < r.quantity :=
        (hbids.2 _ (lookupLevel_mem hl)).2.2.2
      by_cases hnil : ℓ = []
      · simp [matchAtPrice, hside, hl, hnil]
        exact ⟨hbids, hasks, hbb, hba⟩
      · have hrem := matchQueue_rem_props o price Side.buy price q ℓ hlprops
        by_cases hre : (matchQueue o price q ℓ).2.2.1 = []
        · by_cases hbest : price = ob.bestBid
          · subst hbest
            simp [matchAtPrice, hside, hl, hnil, hre]
            refine ⟨SideOK_erase hbids, hasks, ?_, hba⟩
            exact findBestBid_eq _
              (fun k hk => le_of_lt (SideOK_keys_pos (SideOK_erase hbids) k hk))
          · simp [matchAtPrice, hside, hl, hnil, hre, hbest]
            refine ⟨SideOK_erase hbids, hasks, ?_, hba⟩
            rw [hbb]
            exact (maxKey_erase_ne hpk (fun hh => hbest (hh.trans hbb.symm))).symm
        · simp [matchAtPrice, hside, hl, hnil, hre]
          refine ⟨SideOK_set hbids hpk hre hrem, hasks, ?_, hba⟩
          rw [hbb, keys_setLevel_mem _ hpk]

theorem matchLoop_inv (isLimit : Bool) (o : Order) :
    ∀ (fuel : Nat) (ob : OrderBook) (q : ℚ), InvBook ob →
      InvBook (matchLoop isLimit o fuel ob q).2.2 := by
  intro fuel
  induction fuel with
  | zero => intro ob q h; exact h
  | succ n ih =>
    intro ob q h
    rw [matchLoop]
    by_cases hq : q > 0
    · rw [if_pos hq]
      by_cases hopp : getBestOpposite ob o.side = 0
      · rw [if_pos hopp]; exact h
      · rw [if_neg hopp]
        by_cases hcond : isLimit = true ∧ ((o.side = Side.buy ∧ getBestOpposite ob o.side > o.price) ∨
            (o.side = Side.sell ∧ getBestOpposite ob o.side < o.price))
        · rw [if_pos hcond]; exact h
        · rw [if_neg hcond]
          exact ih _ _ (matchAtPrice_inv _ _ _ _ h)
    · rw [if_neg hq]; exact h

theorem keys_nil_iff {m : BookSide} : keys m = [] ↔ m = [] := by
  simp [keys]

theorem SideOK_set_new {s : Side} {m : BookSide} {p : ℚ} {ℓ' : List Order}
    (h : SideOK s m) (hpk : p ∉ keys m) (h0 : 0 < p) (hf : p ≤ maxFloat64)
    (hnil : ℓ' ≠ []) (hmem : ∀ r ∈ ℓ', r.price = p ∧ r.side = s ∧ 0 < r.quantity) :
    SideOK s (setLevel m p ℓ') := by
  constructor
  · rw [keys_setLevel_not_mem ℓ' hpk]
    exact List.Nodup.cons hpk h.1
  · intro e he
    rcases mem_setLevel he with rfl | hem
    · exact ⟨h0, hf, hnil, hmem⟩
    · exact h.2 e hem

theorem addToBook_inv (ob : OrderBook) (o : Order) (h : InvBook ob)
    (hp : 0 < o.price) (hpf : o.price ≤ maxFloat64) (hq : 0 < o.quantity) :
    InvBook (addToBook ob o) := by
  obtain ⟨hbids, hasks, hbb, hba⟩ := h
  by_cases hside : o.side = Side.buy
  · simp only [addToBook, hside, reduceIte]
    by_cases hpk : o.price ∈ keys ob.bids
    · rcases hlk : lookupLevel ob.bids o.price with _ | ℓ₀
      · exact absurd (lookupLevel_eq_none.mp hlk) (by simpa using hpk)
      · have hm : ob.bids ≠ [] := by
          intro hh
          rw [hh] at hpk
          cases hpk
        have hkeys : keys ob.bids ≠ [] := fun hh => hm (keys_nil_iff.mp hh)
        have hMpos : 0 < maxOf (keys ob.bids) :=
          maxOf_pos hkeys (SideOK_keys_pos hbids)
        have hle : o.price ≤ maxOf (keys ob.bids) := le_maxOf hpk
        refine ⟨?_, hasks, ?_, hba⟩
        · simp only [hlk, Option.getD_some]
          apply SideOK_set hbids hpk (by simp)
          intro r hr
          rcases List.mem_append.mp hr with hr' | hr'
          · exact (hbids.2 _ (lookupLevel_mem hlk)).2.2.2 r hr'
          · rcases List.mem_singleton.mp hr' with rfl
            exact ⟨rfl, hside, hq⟩
        · simp only [hlk, Option.getD_some]
          rw [keys_setLevel_mem _ hpk, hbb,
            if_neg (by push_neg; exact ⟨hle, by linarith⟩)]
    · have hlk : lookupLevel ob.bids o.price = none := lookupLevel_eq_none.mpr hpk
      refine ⟨?_, hasks, ?_, hba⟩
      · simp only [hlk, Option.getD_none, List.nil_append]
        apply SideOK_set_new hbids hpk hp hpf (by simp)
        intro r hr
        rcases List.mem_singleton.mp hr with rfl
        exact ⟨rfl, hside, hq⟩
      · simp only [hlk, Option.getD_none, List.nil_append]
        rw [keys_setLevel_not_mem _ hpk, hbb]
        by_cases hm : ob.bids = []
        · rw [hm]
          simp [keys, maxOf]
        · have hkeys : keys ob.bids ≠ [] := fun hh => hm (keys_nil_iff.mp hh)
          have hMpos : 0 < maxOf (keys ob.bids) :=
            maxOf_pos hkeys (SideOK_keys_pos hbids)
          rw [maxOf_cons _ _ hkeys]
          by_cases hlt : maxOf (keys ob.bids) < o.price
          · rw [if_pos (Or.inl hlt), max_eq_left hlt.le]
          · rw [if_neg (by push_neg; exact ⟨not_lt.mp hlt, by linarith⟩),
              max_eq_right (not_lt.mp hlt)]
  · simp only [addToBook, hside, reduceIte]
    by_cases hpk : o.price ∈ keys ob.asks
    · rcases hlk : lookupLevel ob.asks o.price with _ | ℓ₀
      · exact absurd (lookupLevel_eq_none.mp hlk) (by simpa using hpk)
      · have hm : ob.asks ≠ [] := by
          intro hh
          rw [hh] at hpk
          cases hpk
        have hkeys : keys ob.asks ≠ [] := fun hh => hm (keys_nil_iff.mp hh)
        have hMpos : 0 < minOf (keys ob.asks) :=
          minOf_pos hkeys (SideOK_keys_pos hasks)
        have hle : minOf (keys ob.asks) ≤ o.price := minOf_le hpk
        have hsides : o.side = Side.sell := by
          cases hs : o.side
          · exact absurd hs hside
          · rfl
        refine ⟨hbids, ?_, hbb, ?_⟩
        · simp only [hlk, Option.getD_some]
          apply SideOK_set hasks hpk (by simp)
          intro r hr
          rcases List.mem_append.mp hr with hr' | hr'
          · exact (hasks.2 _ (lookupLevel_mem hlk)).2.2.2 r hr'
          · rcases List.mem_singleton.mp hr' with rfl
            exact ⟨rfl, hsides, hq⟩
        · simp only [hlk, Option.getD_some]
          rw [keys_setLevel_mem _ hpk, hba,
            if_neg (by push_neg; exact ⟨by linarith, hle⟩)]
    · have hlk : lookupLevel ob.asks o.price = none := lookupLevel_eq_none.mpr hpk
      have hsides : o.side = Side.sell := by
        cases hs : o.side
        · exact absurd hs hside
        · rfl
      refine ⟨hbids, ?_, hbb, ?_⟩
      · simp only [hlk, Option.getD_none, List.nil_append]
        apply SideOK_set_new hasks hpk hp hpf (by simp)
        intro r hr
        rcases List.mem_singleton.mp hr with rfl
        exact ⟨rfl, hsides, hq⟩
      · simp only [hlk, Option.getD_none, List.nil_append]
        rw [keys_setLevel_not_mem _ hpk, hba]
        by_cases hm : ob.asks = []
        · rw [hm]
          simp [keys, minOf]
        · have hkeys : keys ob.asks ≠ [] := fun hh => hm (keys_nil_iff.mp hh)
          have hMpos : 0 < minOf (keys ob.asks) :=
            minOf_pos hkeys (SideOK_keys_pos hasks)
          rw [minOf_cons _ _ hkeys]
          by_cases hgt : minOf (keys ob.asks) > o.price
          · rw [if_pos (Or.inr hgt), min_eq_left hgt.le]
          · rw [if_neg (by push_neg; exact ⟨by linarith, not_lt.mp hgt⟩),
              min_eq_right (not_lt.mp hgt)]

theorem removeById_sub {ℓ : List Order} {id : String} :
    ∀ r ∈ removeById ℓ id, r ∈ ℓ := by
  induction ℓ with
  | nil => intro r hr; cases hr
  | cons x xs ih =>
    intro r hr
    rw [removeById] at hr
    by_cases hx : x.id = id
    · rw [if_pos hx] at hr
      exact List.mem_cons_of_mem _ hr
    · rw [if_neg hx] at hr
      rcases List.mem_cons.mp hr with rfl | hr'
      · exact List.mem_cons_self _ _
      · exact List.mem_cons_of_mem _ (ih r hr')

theorem cancelProcess_inv (ob : OrderBook) (id : String) (h : InvBook ob) :
    InvBook (cancelProcess ob id).2 := by
  obtain ⟨hbids, hasks, hbb, hba⟩ := h
  rcases hix : lookupIdx ob.orders id with _ | sp
  · simp [cancelProcess, hix]
    exact ⟨hbids, hasks, hbb, hba⟩
  · obtain ⟨s, p⟩ := sp
    cases s with
    | buy =>
      rcases hl : lookupLevel ob.bids p with _ | ℓ
      · simp [cancelProcess, hix, hl]
        exact ⟨hbids, hasks, hbb, hba⟩
      · have hpk : p ∈ keys ob.bids := mem_keys_of_lookupLevel hl
        have hlprops := (hbids.2 _ (lookupLevel_mem hl)).2.2.2
        by_cases hre : removeById ℓ id = []
        · by_cases hbest : p = ob.bestBid
          · subst hbest
            simp [cancelProcess, hix, hl, hre]
            refine ⟨SideOK_erase hbids, hasks, ?_, hba⟩
            exact findBestBid_eq _
              (fun k hk => le_of_lt (SideOK_keys_pos (SideOK_erase hbids) k hk))
          · simp [cancelProcess, hix, hl, hre, hbest]
            refine ⟨SideOK_erase hbids, hasks, ?_, hba⟩
            rw [hbb]
            exact (maxKey_erase_ne hpk (fun hh => hbest (hh.trans hbb.symm))).symm
        · simp [cancelProcess, hix, hl, hre]
          refine ⟨?_, hasks, ?_, hba⟩
          · exact SideOK_set hbids hpk hre (fun r hr => hlprops r (removeById_sub r hr))
          · rw [hbb, keys_setLevel_mem _ hpk]
    | sell =>
      rcases hl : lookupLevel ob.asks p with _ | ℓ
      · simp [cancelProcess, hix, hl]
        exact ⟨hbids, hasks, hbb, hba⟩
      · have hpk : p ∈ keys ob.asks := mem_keys_of_lookupLevel hl
        have hlprops := (hasks.2 _ (lookupLevel_mem hl)).2.2.2
        by_cases hre : removeById ℓ id = []
        · by_cases hbest : p = ob.bestAsk
          · subst hbest
            simp [cancelProcess, hix, hl, hre]
            refine ⟨hbids, SideOK_erase hasks, hbb, ?_⟩
            exact findBestAsk_eq _ (SideOK_keys_le (SideOK_erase hasks))
          · simp [cancelProcess, hix, hl, hre, hbest]
            refine ⟨hbids, SideOK_erase hasks, hbb, ?_⟩
            rw [hba]
            exact (minKey_erase_ne hpk (fun hh => hbest (hh.trans hba.symm))).symm
        · simp [cancelProcess, hix, hl, hre]
          refine ⟨hbids, ?_, hbb, ?_⟩
          · exact SideOK_set hasks hpk hre (fun r hr => hlprops r (removeById_sub r hr))
          · rw [hba, keys_setLevel_mem _ hpk]

theorem matchPhase_inv (ob : OrderBook) (o : Order) (h : InvBook ob) :
    InvBook (matchPhase ob o).2.2 := by
  rw [matchPhase]
  by_cases ht : o.typ = OrderType.market
  · rw [if_pos ht, matchMarket]
    exact matchLoop_inv _ _ _ _ _ h
  · rw [if_neg ht, matchLimit]
    exact matchLoop_inv _ _ _ _ _ h

theorem submitProcess_inv (ob : OrderBook) (o : Order) (h : InvBook ob)
    (hpf : o.price ≤ maxFloat64) : InvBook (submitProcess ob o).2 := by
  rw [submitProcess]
  by_cases hval : o.quantity ≤ 0 ∨ (o.typ = OrderType.limit ∧ o.price ≤ 0)
  · rw [if_pos hval]
    exact h
  · rw [if_neg hval]
    push_neg at hval
    have hmp := matchPhase_inv ob o h
    have hob₁ : InvBook (if (matchPhase ob o).2.1 > 0 ∧ o.typ = OrderType.limit then
        addToBook (matchPhase ob o).2.2 { o with quantity := (matchPhase ob o).2.1 }
        else (matchPhase ob o).2.2) := by
      by_cases hrest : (matchPhase ob o).2.1 > 0 ∧ o.typ = OrderType.limit
      · rw [if_pos hrest]
        exact addToBook_inv _ _ hmp (hval.2 hrest.2) hpf hrest.1
      · rw [if_neg hrest]
        exact hmp
    rcases hlast : (matchPhase ob o).1.getLast? with _ | t <;>
      simp only [hlast] <;> exact hob₁

theorem stepCmd_inv (ob : OrderBook) (c : Cmd) (h : InvBook ob) (hc : cmdPriceOK c) :
    InvBook (stepCmd ob c) := by
  cases c with
  | submit o => exact submitProcess_inv ob o h hc
  | cancel id => exact cancelProcess_inv ob id h

theorem foldl_stepCmd_inv (cmds : List Cmd) :
    ∀ ob : OrderBook, InvBook ob → (∀ c ∈ cmds, cmdPriceOK c) →
      InvBook (cmds.foldl stepCmd ob) := by
  induction cmds with
  | nil => intro ob h _; exact h
  | cons c cs ih =>
    intro ob h hc
    rw [List.foldl_cons]
    exact ih _ (stepCmd_inv ob c h (hc c (List.mem_cons_self _ _)))
      (fun x hx => hc x (List.mem_cons_of_mem _ hx))

theorem InvBook_empty : InvBook OrderBook.empty := by
  refine ⟨⟨List.nodup_nil, ?_⟩, ⟨List.nodup_nil, ?_⟩, rfl, rfl⟩ <;>
    intro e he <;> cases he

theorem runCmds_inv (cmds : List Cmd) (h : ∀ c ∈ cmds, cmdPriceOK c) :
    InvBook (runCmds cmds) :=
  foldl_stepCmd_inv cmds OrderBook.empty InvBook_empty h

/-- C1: after any sequence of Submit and Cancel commands starting from
the fresh book (every submitted price being a finite float, i.e.
`≤ maxFloat64`), the cached `bestBid` is the maximum price key of the
bids map (0 when empty) and the cached `bestAsk` is the minimum price
key of the asks map (0 when empty). -/
theorem best_caches_are_key_extrema (cmds : List Cmd)
    (h : ∀ c ∈ cmds, cmdPriceOK c) :
    IsMaxKeyCache (runCmds cmds).bids (runCmds cmds).bestBid ∧
    IsMinKeyCache (runCmds cmds).asks (runCmds cmds).bestAsk := by
  obtain ⟨hbids, hasks, hbb, hba⟩ := runCmds_inv cmds h
  constructor
  · constructor
    · intro hnil
      rw [hbb, hnil]
      rfl
    · intro hnil
      have hkeys : keys (runCmds cmds).bids ≠ [] := fun hh => hnil (keys_nil_iff.mp hh)
      rw [hbb]
      exact ⟨maxOf_mem hkeys, fun k hk => le_maxOf hk⟩
  · constructor
    · intro hnil
      rw [hba, hnil]
      rfl
    · intro hnil
      have hkeys : keys (runCmds cmds).asks ≠ [] := fun hh => hnil (keys_nil_iff.mp hh)
      rw [hba]
      exact ⟨minOf_mem hkeys, fun k hk => minOf_le hk⟩

/-- Witness for C1 at a concrete command sequence: a resting sell at
100, a resting buy at 99, a partially matching buy at 101 and a cancel. -/
theorem best_caches_are_key_extrema_witness :
    IsMaxKeyCache
      (runCmds [Cmd.submit ⟨"1", Side.sell, OrderType.limit, 100, 10, "a"⟩,
        Cmd.submit ⟨"2", Side.buy, OrderType.limit, 99, 5, "b"⟩,
        Cmd.submit ⟨"3", Side.buy, OrderType.limit, 101, 4, "c"⟩,
        Cmd.cancel "2"]).bids
      (runCmds [Cmd.submit ⟨"1", Side.sell, OrderType.limit, 100, 10, "a"⟩,
        Cmd.submit ⟨"2", Side.buy, OrderType.limit, 99, 5, "b"⟩,
        Cmd.submit ⟨"3", Side.buy, OrderType.limit, 101, 4, "c"⟩,
        Cmd.cancel "2"]).bestBid ∧
    IsMinKeyCache
      (runCmds [Cmd.submit ⟨"1", Side.sell, OrderType.limit, 100, 10, "a"⟩,
        Cmd.submit ⟨"2", Side.buy, OrderType.limit, 99, 5, "b"⟩,
        Cmd.submit ⟨"3", Side.buy, OrderType.limit, 101, 4, "c"⟩,
        Cmd.cancel "2"]).asks
      (runCmds [Cmd.submit ⟨"1", Side.sell, OrderType.limit, 100, 10, "a"⟩,
        Cmd.submit ⟨"2", Side.buy, OrderType.limit, 99, 5, "b"⟩,
        Cmd.submit ⟨"3", Side.buy, OrderType.limit, 101, 4, "c"⟩,
        Cmd.cancel "2"]).bestAsk :=
  best_caches_are_key_extrema _ (by
    intro c hc
    fin_cases hc <;> simp [cmdPriceOK, maxFloat64] <;> norm_num)

/-- C5: an order with non-positive quantity, or a Limit order with
non-positive price, is rejected: `Submit.process` returns the empty
trade list and leaves the whole book state unchanged (so nothing rests,
no trade is emitted, and lastPrice and both best caches are intact). -/
theorem invalid_submit_rejected (ob : OrderBook) (o : Order)
    (h : o.quantity ≤ 0 ∨ (o.typ = OrderType.limit ∧ o.price ≤ 0)) :
    submitProcess ob o = ([], ob) := by
  rw [submitProcess, if_pos h]

/-- Witness for C5: submitting a zero-quantity limit order to the fresh
book returns no trades and the unchanged book. -/
theorem invalid_submit_rejected_witness :
    submitProcess OrderBook.empty ⟨"x", Side.buy, OrderType.limit, 100, 0, "a"⟩ =
      ([], OrderBook.empty) :=
  invalid_submit_rejected _ _ (Or.inl (by norm_num))

/-! Small decidable facts used when evaluating concrete scenarios. -/

theorem sell_eq_buy_iff : (Side.sell = Side.buy) ↔ False := by decide

theorem buy_eq_sell_iff : (Side.buy = Side.sell) ↔ False := by decide

theorem limit_eq_market_iff : (OrderType.limit = OrderType.market) ↔ False := by decide

theorem market_eq_limit_iff : (OrderType.market = OrderType.limit) ↔ False := by decide

/-! Price bounds of trades emitted for a limit aggressor (C7). -/

theorem matchQueue_trades_price (o : Order) (price : ℚ) :
    ∀ (q : ℚ) (ℓ : List Order), ∀ t ∈ (matchQueue o price q ℓ).1, t.price = price := by
  intro q ℓ
  induction ℓ generalizing q with
  | nil => intro t ht; cases ht
  | cons front rest ih =>
    intro t ht
    by_cases hq : q > 0
    · by_cases hfull : front.quantity - min q front.quantity ≤ 0
      · rw [matchQueue, if_pos hq, if_pos hfull] at ht
        rcases List.mem_cons.mp ht with rfl | ht'
        · rw [mkTrade]
          by_cases hside : o.side = Side.buy
          · rw [if_pos hside]
          · rw [if_neg hside]
        · exact ih _ t ht'
      · rw [matchQueue, if_pos hq, if_neg hfull] at ht
        rcases List.mem_singleton.mp ht with rfl
        rw [mkTrade]
        by_cases hside : o.side = Side.buy
        · rw [if_pos hside]
        · rw [if_neg hside]
    · rw [matchQueue, if_neg hq] at ht
      cases ht

theorem matchAtPrice_trades_price (ob : OrderBook) (o : Order) (q price : ℚ) :
    ∀ t ∈ (matchAtPrice ob o q price).1, t.price = price := by
  intro t ht
  by_cases hside : o.side = Side.buy
  · rcases hl : lookupLevel ob.asks price with _ | ℓ
    · simp [matchAtPrice, hside, hl] at ht
    · by_cases hnil : ℓ = []
      · simp [matchAtPrice, hside, hl, hnil] at ht
      · by_cases hre : (matchQueue o price q ℓ).2.2.1 = []
        · by_cases hbest : price = ob.bestAsk
          · subst hbest
            simp [matchAtPrice, hside, hl, hnil, hre] at ht
            exact matchQueue_trades_price o ob.bestAsk q ℓ t ht
          · simp [matchAtPrice, hside, hl, hnil, hre, hbest] at ht
            exact matchQueue_trades_price o price q ℓ t ht
        · simp [matchAtPrice, hside, hl, hnil, hre] at ht
          exact matchQueue_trades_price o price q ℓ t ht
  · rcases hl : lookupLevel ob.bids price with _ | ℓ
    · simp [matchAtPrice, hside, hl] at ht
    · by_cases hnil : ℓ = []
      · simp [matchAtPrice, hside, hl, hnil] at ht
      · by_cases hre : (matchQueue o price q ℓ).2.2.1 = []
        · by_cases hbest : price = ob.bestBid
          · subst hbest
            simp [matchAtPrice, hside, hl, hnil, hre] at ht
            exact matchQueue_trades_price o ob.bestBid q ℓ t ht
          · simp [matchAtPrice, hside, hl, hnil, hre, hbest] at ht
            exact matchQueue_trades_price o price q ℓ t ht
        · simp [matchAtPrice, hside, hl, hnil, hre] at ht
          exact matchQueue_trades_price o price q ℓ t ht

theorem matchLoop_limit_trades_bound (o : Order) :
    ∀ (fuel : Nat) (ob : OrderBook) (q : ℚ), ∀ t ∈ (matchLoop true o fuel ob q).1,
      (o.side = Side.buy → t.price ≤ o.price) ∧ (o.side = Side.sell → o.price ≤ t.price) := by
  intro fuel
  induction fuel with
  | zero => intro ob q t ht; cases ht
  | succ n ih =>
    intro ob q t ht
    rw [matchLoop] at ht
    by_cases hq : q > 0
    · rw [if_pos hq] at ht
      by_cases hopp : getBestOpposite ob o.side = 0
      · rw [if_pos hopp] at ht; cases ht
      · rw [if_neg hopp] at ht
        by_cases hcond : (true = true) ∧ ((o.side = Side.buy ∧ getBestOpposite ob o.side > o.price) ∨
            (o.side = Side.sell ∧ getBestOpposite ob o.side < o.price))
        · rw [if_pos hcond] at ht; cases ht
        · rw [if_neg hcond] at ht
          rcases List.mem_append.mp ht with ht' | ht'
          · have hp := matchAtPrice_trades_price ob o q (getBestOpposite ob o.side) t ht'
            push_neg at hcond
            obtain ⟨h1, h2⟩ := hcond rfl
            constructor
            · intro hbuy
              rw [hp]
              exact h1 hbuy
            · intro hsell
              rw [hp]
              exact h2 hsell
          · exact ih _ _ t ht'
    · rw [if_neg hq] at ht; cases ht

theorem submitProcess_fst (ob : OrderBook) (o : Order) :
    (submitProcess ob o).1 =
      if o.quantity ≤ 0 ∨ (o.typ = OrderType.limit ∧ o.price ≤ 0) then []
      else (matchPhase ob o).1 := by
  rw [submitProcess]
  by_cases hval : o.quantity ≤ 0 ∨ (o.typ = OrderType.limit ∧ o.price ≤ 0)
  · rw [if_pos hval, if_pos hval]
  · rw [if_neg hval, if_neg hval]
    rcases hlast : (matchPhase ob o).1.getLast? with _ | t <;> simp only [hlast]

/-- C7 counterexample: the claim direction is inverted for the code.  A
sell rests at 100; a Buy limit at 101 crosses and trades at the resting
price 100, which is strictly below the aggressor's limit price 101, not
at-or-above it. -/
theorem limit_trade_price_counterexample :
    ∃ t ∈ (submitProcess
      (stepCmd OrderBook.empty (Cmd.submit ⟨"1", Side.sell, OrderType.limit, 100, 10, "a"⟩))
      ⟨"2", Side.buy, OrderType.limit, 101, 5, "b"⟩).1,
      ¬((101 : ℚ) ≤ t.price) := by
  have hcomp : (submitProcess
      (stepCmd OrderBook.empty (Cmd.submit ⟨"1", Side.sell, OrderType.limit, 100, 10, "a"⟩))
      ⟨"2", Side.buy, OrderType.limit, 101, 5, "b"⟩).1 =
      [⟨100, 5, "b", "a", "2", "1"⟩] := by
    norm_num [stepCmd, submitProcess, matchPhase, matchMarket, matchLimit, matchLoop,
      getBestOpposite, matchAtPrice, matchQueue, mkTrade, addToBook, setLevel, containsKey,
      replaceLevel, eraseLevel, lookupLevel, lookupIdx, insertIdx, eraseIdx, eraseIds,
      OrderBook.empty, min_def, sell_eq_buy_iff, buy_eq_sell_iff, limit_eq_market_iff,
      market_eq_limit_iff, String.reduceEq]
  refine ⟨⟨100, 5, "b", "a", "2", "1"⟩, ?_, by norm_num⟩
  rw [hcomp]
  exact List.mem_singleton.mpr rfl

/-- C7 (amended): for every trade emitted for a Limit aggressor, a Buy
aggressor with limit price `p` trades at prices `≤ p` and a Sell
aggressor trades at prices `≥ p` (the trade happens at the resting
level's price, which the crossing check keeps inside the limit). -/
theorem limit_trade_price_within_limit (ob : OrderBook) (o : Order)
    (ht : o.typ = OrderType.limit) :
    ∀ t ∈ (submitProcess ob o).1,
      (o.side = Side.buy → t.price ≤ o.price) ∧
      (o.side = Side.sell → o.price ≤ t.price) := by
  intro t htr
  rw [submitProcess_fst] at htr
  by_cases hval : o.quantity ≤ 0 ∨ (o.typ = OrderType.limit ∧ o.price ≤ 0)
  · rw [if_pos hval] at htr
    cases htr
  · rw [if_neg hval] at htr
    rw [matchPhase, if_neg (by rw [ht]; intro hh; cases hh), matchLimit] at htr
    exact matchLoop_limit_trades_bound o _ ob o.quantity t htr

/-- Witness for C7 (amended): the S1 scenario; the single trade at 100
is within the Buy aggressor's limit 101. -/
theorem limit_trade_price_within_limit_witness :
    ((⟨"2", Side.buy, OrderType.limit, 101, 5, "b"⟩ : Order).side = Side.buy →
      (⟨100, 5, "b", "a", "2", "1"⟩ : Trade).price ≤
        (⟨"2", Side.buy, OrderType.limit, 101, 5, "b"⟩ : Order).price) ∧
    ((⟨"2", Side.buy, OrderType.limit, 101, 5, "b"⟩ : Order).side = Side.sell →
      (⟨"2", Side.buy, OrderType.limit, 101, 5, "b"⟩ : Order).price ≤
        (⟨100, 5, "b", "a", "2", "1"⟩ : Trade).price) :=
  limit_trade_price_within_limit
    (stepCmd OrderBook.empty (Cmd.submit ⟨"1", Side.sell, OrderType.limit, 100, 10, "a"⟩))
    ⟨"2", Side.buy, OrderType.limit, 101, 5, "b"⟩ rfl
    ⟨100, 5, "b", "a", "2", "1"⟩
    (by
      norm_num [runCmds, stepCmd, submitProcess, matchPhase, matchMarket, matchLimit,
        matchLoop, getBestOpposite, matchAtPrice, matchQueue, mkTrade, addToBook, setLevel,
        containsKey, replaceLevel, eraseLevel, lookupLevel, lookupIdx, insertIdx, eraseIdx,
        eraseIds, findBestBidNoLock, findBestAskNoLock, maxFloat64,
        OrderBook.empty, min_def, sell_eq_buy_iff, buy_eq_sell_iff,
        limit_eq_market_iff, market_eq_limit_iff, String.reduceEq] <;> decide)

/-- C9 counterexample: when the observed price equals the updated EMA,
the code takes the else-branch (`isBuy := last > MA`) and submits a
Market Sell; the claim says no order is submitted.  Concretely, with
EMA 100, any α, last price 100: the updated EMA is again 100 and a
Market Sell of quantity 1 is submitted. -/
theorem trend_follower_equal_counterexample :
    (trendFollowerAct ⟨100000, 100, 100, 1/2⟩ 100 0).2.ma = 100 ∧
    (trendFollowerAct ⟨100000, 100, 100, 1/2⟩ 100 0).1 = some (Side.sell, 1) := by
  constructor <;>
    norm_num [trendFollowerAct, Int.floor_zero]

/-- C9 (amended): at each Trend Follower action with observed price `p`
(100 substituted when the last price is zero), after updating the EMA to
`M = α·p + (1−α)·M₀` the agent submits a Market Buy if `p > M` and a
Market Sell if `p ≤ M` — including the case `p = M` — provided the
inventory and cash constraints hold (at least one share, and cash
covering five shares at `p`, the maximum order size). -/
theorem trend_follower_act_amended (a : TrendFollower) (lastPrice rnd p : ℚ)
    (hp : p = if lastPrice = 0 then 100 else lastPrice)
    (hr0 : 0 ≤ rnd) (hr1 : rnd < 1) (hsh : 1 ≤ a.shares)
    (hppos : 0 < p) (hcash : 5 * p ≤ a.cash) :
    (trendFollowerAct a lastPrice rnd).2.ma = a.alpha * p + (1 - a.alpha) * a.ma ∧
    (p > a.alpha * p + (1 - a.alpha) * a.ma →
      ∃ qq, (trendFollowerAct a lastPrice rnd).1 = some (Side.buy, qq)) ∧
    (p ≤ a.alpha * p + (1 - a.alpha) * a.ma →
      ∃ qq, (trendFollowerAct a lastPrice rnd).1 = some (Side.sell, qq)) := by
  have hfl4 : (⌊rnd * 5⌋ : ℚ) ≤ 4 := by
    have h5 : rnd * 5 < 5 := by linarith
    have : ⌊rnd * 5⌋ < (5 : ℤ) := Int.floor_lt.mpr (by exact_mod_cast h5)
    have : ⌊rnd * 5⌋ ≤ (4 : ℤ) := by omega
    exact_mod_cast this
  have hfl0 : (0 : ℚ) ≤ (⌊rnd * 5⌋ : ℚ) := by
    have : (0 : ℤ) ≤ ⌊rnd * 5⌋ := Int.floor_nonneg.mpr (by positivity)
    exact_mod_cast this
  refine ⟨?_, ?_, ?_⟩
  · simp only [trendFollowerAct]
    rw [← hp]
    split_ifs <;> rfl
  · intro hgt
    simp only [trendFollowerAct]
    rw [← hp]
    rw [if_neg (fun hh => hh.1 hgt)]
    rw [show (if ¬p > a.alpha * p + (1 - a.alpha) * a.ma ∧
        1 + (⌊rnd * 5⌋ : ℚ) > a.shares then a.shares else 1 + (⌊rnd * 5⌋ : ℚ)) =
        1 + (⌊rnd * 5⌋ : ℚ) from if_neg (fun hh => hh.1 hgt)]
    rw [if_neg (show ¬(p > a.alpha * p + (1 - a.alpha) * a.ma ∧
        (1 + (⌊rnd * 5⌋ : ℚ)) * p > a.cash) from ?_)]
    · exact ⟨1 + (⌊rnd * 5⌋ : ℚ), by rw [if_pos hgt]⟩
    · rintro ⟨_, hgt2⟩
      have h1 : (1 + (⌊rnd * 5⌋ : ℚ)) * p ≤ 5 * p := by nlinarith
      linarith
  · intro hle
    have hnotgt : ¬(p > a.alpha * p + (1 - a.alpha) * a.ma) := not_lt.mpr hle
    simp only [trendFollowerAct]
    rw [← hp]
    rw [if_neg (fun hh => absurd hh.2 (not_lt.mpr hsh))]
    rw [if_neg (fun hh => hnotgt hh.1)]
    exact ⟨_, by rw [if_neg hnotgt]⟩

/-- Witness for C9 (amended) at a concrete input: EMA 100, α = 1/2,
price 110; the updated EMA is 105 < 110, so a Market Buy is submitted. -/
theorem trend_follower_act_amended_witness :
    (trendFollowerAct ⟨100000, 100, 100, 1/2⟩ 110 0).2.ma =
      (⟨100000, 100, 100, 1/2⟩ : TrendFollower).alpha * 110 +
        (1 - (⟨100000, 100, 100, 1/2⟩ : TrendFollower).alpha) *
          (⟨100000, 100, 100, 1/2⟩ : TrendFollower).ma ∧
    ((110 : ℚ) > (⟨100000, 100, 100, 1/2⟩ : TrendFollower).alpha * 110 +
        (1 - (⟨100000, 100, 100, 1/2⟩ : TrendFollower).alpha) *
          (⟨100000, 100, 100, 1/2⟩ : TrendFollower).ma →
      ∃ qq, (trendFollowerAct ⟨100000, 100, 100, 1/2⟩ 110 0).1 = some (Side.buy, qq)) ∧
    ((110 : ℚ) ≤ (⟨100000, 100, 100, 1/2⟩ : TrendFollower).alpha * 110 +
        (1 - (⟨100000, 100, 100, 1/2⟩ : TrendFollower).alpha) *
          (⟨100000, 100, 100, 1/2⟩ : TrendFollower).ma →
      ∃ qq, (trendFollowerAct ⟨100000, 100, 100, 1/2⟩ 110 0).1 = some (Side.sell, qq)) :=
  trend_follower_act_amended ⟨100000, 100, 100, 1/2⟩ 110 0 110 (by norm_num)
    (by norm_num) (by norm_num) (by norm_num) (by norm_num) (by norm_num)

/-! The passive side of each emitted trade (C2). -/

theorem passive_mkTrade (o front : Order) (price fill : ℚ) :
    passiveOrderId o.side (mkTrade o front price fill) = front.id := by
  by_cases h : o.side = Side.buy
  · simp [mkTrade, passiveOrderId, h]
  · simp [mkTrade, passiveOrderId, h]

theorem matchQueue_trades_passive (o : Order) (price : ℚ) :
    ∀ (q : ℚ) (ℓ : List Order), ∀ t ∈ (matchQueue o price q ℓ).1,
      ∃ r ∈ ℓ, passiveOrderId o.side t = r.id := by
  intro q ℓ
  induction ℓ generalizing q with
  | nil => intro t ht; cases ht
  | cons front rest ih =>
    intro t ht
    by_cases hq : q > 0
    · by_cases hfull : front.quantity - min q front.quantity ≤ 0
      · rw [matchQueue, if_pos hq, if_pos hfull] at ht
        rcases List.mem_cons.mp ht with rfl | ht'
        · exact ⟨front, List.mem_cons_self _ _, passive_mkTrade o front price _⟩
        · obtain ⟨r, hr, hid⟩ := ih _ t ht'
          exact ⟨r, List.mem_cons_of_mem _ hr, hid⟩
      · rw [matchQueue, if_pos hq, if_neg hfull] at ht
        rcases List.mem_singleton.mp ht with rfl
        exact ⟨front, List.mem_cons_self _ _, passive_mkTrade o front price _⟩
    · rw [matchQueue, if_neg hq] at ht
      cases ht

theorem matchAtPrice_trades_resting (ob : OrderBook) (o : Order) (q price : ℚ)
    (hopp : ∀ e ∈ oppositeOf ob o.side, ∀ r ∈ e.2, r.price = e.1) :
    ∀ t ∈ (matchAtPrice ob o q price).1,
      ∃ r, RestsIn (oppositeOf ob o.side) r ∧
        passiveOrderId o.side t = r.id ∧ t.price = r.price := by
  intro t ht
  have hprice := matchAtPrice_trades_price ob o q price t ht
  by_cases hside : o.side = Side.buy
  · rcases hl : lookupLevel ob.asks price with _ | ℓ
    · simp [matchAtPrice, hside, hl] at ht
    · by_cases hnil : ℓ = []
      · simp [matchAtPrice, hside, hl, hnil] at ht
      · have htq : t ∈ (matchQueue o price q ℓ).1 := by
          by_cases hre : (matchQueue o price q ℓ).2.2.1 = []
          · by_cases hbest : price = ob.bestAsk
            · subst hbest
              simpa [matchAtPrice, hside, hl, hnil, hre] using ht
            · simpa [matchAtPrice, hside, hl, hnil, hre, hbest] using ht
          · simpa [matchAtPrice, hside, hl, hnil, hre] using ht
        obtain ⟨r, hr, hid⟩ := matchQueue_trades_passive o price q ℓ t htq
        have hmem : (price, ℓ) ∈ oppositeOf ob o.side := by
          rw [oppositeOf, if_pos hside]
          exact lookupLevel_mem hl
        refine ⟨r, ⟨(price, ℓ), hmem, hr⟩, hid, ?_⟩
        rw [hprice, hopp _ hmem r hr]
  · rcases hl : lookupLevel ob.bids price with _ | ℓ
    · simp [matchAtPrice, hside, hl] at ht
    · by_cases hnil : ℓ = []
      · simp [matchAtPrice, hside, hl, hnil] at ht
      · have htq : t ∈ (matchQueue o price q ℓ).1 := by
          by_cases hre : (matchQueue o price q ℓ).2.2.1 = []
          · by_cases hbest : price = ob.bestBid
            · subst hbest
              simpa [matchAtPrice, hside, hl, hnil, hre] using ht
            · simpa [matchAtPrice, hside, hl, hnil, hre, hbest] using ht
          · simpa [matchAtPrice, hside, hl, hnil, hre] using ht
        obtain ⟨r, hr, hid⟩ := matchQueue_trades_passive o price q ℓ t htq
        have hmem : (price, ℓ) ∈ oppositeOf ob o.side := by
          rw [oppositeOf, if_neg hside]
          exact lookupLevel_mem hl
        refine ⟨r, ⟨(price, ℓ), hmem, hr⟩, hid, ?_⟩
        rw [hprice, hopp _ hmem r hr]

theorem matchAtPrice_pos_shrink (ob : OrderBook) (o : Order) (q price : ℚ)
    (hpos : 0 < (matchAtPrice ob o q price).2.1) :
    ∀ r, RestsIn (oppositeOf (matchAtPrice ob o q price).2.2 o.side) r →
      RestsIn (oppositeOf ob o.side) r := by
  intro r hr
  by_cases hside : o.side = Side.buy
  · rcases hl : lookupLevel ob.asks price with _ | ℓ
    · simpa [matchAtPrice, hside, hl] using hr
    · by_cases hnil : ℓ = []
      · simpa [matchAtPrice, hside, hl, hnil] using hr
      · by_cases hre : (matchQueue o price q ℓ).2.2.1 = []
        · have herase : ∀ x, RestsIn (eraseLevel ob.asks price) x → RestsIn ob.asks x := by
            rintro x ⟨e, he, hxe⟩
            exact ⟨e, (mem_eraseLevel.mp he).1, hxe⟩
          by_cases hbest : price = ob.bestAsk
          · subst hbest
            simp [matchAtPrice, oppositeOf, hside, hl, hnil, hre] at hr
            simp only [oppositeOf, hside, reduceIte]
            exact herase r hr
          · simp [matchAtPrice, oppositeOf, hside, hl, hnil, hre, hbest] at hr
            simp only [oppositeOf, hside, reduceIte]
            exact herase r hr
        · exfalso
          have hre' : (matchQueue o price q ℓ).2.2.1 = [] := by
            apply matchQueue_rem_of_pos o price q ℓ
            have : (matchAtPrice ob o q price).2.1 = (matchQueue o price q ℓ).2.1 := by
              simp [matchAtPrice, hside, hl, hnil, hre]
            rwa [this] at hpos
          exact hre hre'
  · rcases hl : lookupLevel ob.bids price with _ | ℓ
    · simpa [matchAtPrice, hside, hl] using hr
    · by_cases hnil : ℓ = []
      · simpa [matchAtPrice, hside, hl, hnil] using hr
      · by_cases hre : (matchQueue o price q ℓ).2.2.1 = []
        · have herase : ∀ x, RestsIn (eraseLevel ob.bids price) x → RestsIn ob.bids x := by
            rintro x ⟨e, he, hxe⟩
            exact ⟨e, (mem_eraseLevel.mp he).1, hxe⟩
          by_cases hbest : price = ob.bestBid
          · subst hbest
            simp [matchAtPrice, oppositeOf, hside, hl, hnil, hre] at hr
            simp only [oppositeOf, hside, reduceIte]
            exact herase r hr
          · simp [matchAtPrice, oppositeOf, hside, hl, hnil, hre, hbest] at hr
            simp only [oppositeOf, hside, reduceIte]
            exact herase r hr
        · exfalso
          have hre' : (matchQueue o price q ℓ).2.2.1 = [] := by
            apply matchQueue_rem_of_pos o price q ℓ
            have : (matchAtPrice ob o q price).2.1 = (matchQueue o price q ℓ).2.1 := by
              simp [matchAtPrice, hside, hl, hnil, hre]
            rwa [this] at hpos
          exact hre hre'

theorem matchLoop_nonpos_trades (isLimit : Bool) (o : Order) (fuel : Nat)
    (ob : OrderBook) (q : ℚ) (hq : ¬q > 0) : (matchLoop isLimit o fuel ob q).1 = [] := by
  cases fuel with
  | zero => rfl
  | succ n => rw [matchLoop, if_neg hq]

theorem matchLoop_trades_resting (isLimit : Bool) (o : Order) :
    ∀ (fuel : Nat) (ob : OrderBook) (q : ℚ), InvBook ob →
      ∀ t ∈ (matchLoop isLimit o fuel ob q).1,
        ∃ r, RestsIn (oppositeOf ob o.side) r ∧
          passiveOrderId o.side t = r.id ∧ t.price = r.price := by
  intro fuel
  induction fuel with
  | zero => intro ob q _ t ht; cases ht
  | succ n ih =>
    intro ob q hInv t ht
    have hopp : ∀ e ∈ oppositeOf ob o.side, ∀ r ∈ e.2, r.price = e.1 := by
      intro e he r hrr
      by_cases hside : o.side = Side.buy
      · rw [oppositeOf, if_pos hside] at he
        exact (hInv.2.1.2 e he).2.2.2 r hrr |>.1
      · rw [oppositeOf, if_neg hside] at he
        exact (hInv.1.2 e he).2.2.2 r hrr |>.1
    rw [matchLoop] at ht
    by_cases hq : q > 0
    · rw [if_pos hq] at ht
      by_cases hoppz : getBestOpposite ob o.side = 0
      · rw [if_pos hoppz] at ht; cases ht
      · rw [if_neg hoppz] at ht
        by_cases hcond : isLimit = true ∧ ((o.side = Side.buy ∧ getBestOpposite ob o.side > o.price) ∨
            (o.side = Side.sell ∧ getBestOpposite ob o.side < o.price))
        · rw [if_pos hcond] at ht; cases ht
        · rw [if_neg hcond] at ht
          rcases List.mem_append.mp ht with ht' | ht'
          · exact matchAtPrice_trades_resting ob o q _ hopp t ht'
          · by_cases hq1 : (matchAtPrice ob o q (getBestOpposite ob o.side)).2.1 > 0
            · obtain ⟨r, hrest, hid, hpr⟩ :=
                ih _ _ (matchAtPrice_inv ob o q _ hInv) t ht'
              exact ⟨r, matchAtPrice_pos_shrink ob o q _ hq1 r hrest, hid, hpr⟩
            · rw [matchLoop_nonpos_trades isLimit o n _ _ hq1] at ht'
              cases ht'
    · rw [if_neg hq] at ht; cases ht

/-- C2: every trade emitted by a Submit against a reachable book carries
the price of the resting (passive) counterparty order: there is an order
resting on the opposite side of the pre-submit book whose id is the
trade's passive order id and whose price is the trade's price. -/
theorem trade_price_is_resting_price (cmds : List Cmd)
    (hc : ∀ c ∈ cmds, cmdPriceOK c) (o : Order) :
    ∀ t ∈ (submitProcess (runCmds cmds) o).1,
      ∃ r, RestsIn (oppositeOf (runCmds cmds) o.side) r ∧
        passiveOrderId o.side t = r.id ∧ t.price = r.price := by
  intro t ht
  rw [submitProcess_fst] at ht
  by_cases hval : o.quantity ≤ 0 ∨ (o.typ = OrderType.limit ∧ o.price ≤ 0)
  · rw [if_pos hval] at ht
    cases ht
  · rw [if_neg hval, matchPhase] at ht
    have hInv := runCmds_inv cmds hc
    by_cases htyp : o.typ = OrderType.market
    · rw [if_pos htyp, matchMarket] at ht
      exact matchLoop_trades_resting false o _ _ _ hInv t ht
    · rw [if_neg htyp, matchLimit] at ht
      exact matchLoop_trades_resting true o _ _ _ hInv t ht

/-- Witness for C2: the S1 scenario; the trade at price 100 is priced at
the resting sell order's price. -/
theorem trade_price_is_resting_price_witness :
    ∃ r, RestsIn (oppositeOf
        (runCmds [Cmd.submit ⟨"1", Side.sell, OrderType.limit, 100, 10, "a"⟩])
        (⟨"2", Side.buy, OrderType.limit, 101, 5, "b"⟩ : Order).side) r ∧
      passiveOrderId (⟨"2", Side.buy, OrderType.limit, 101, 5, "b"⟩ : Order).side
        (⟨100, 5, "b", "a", "2", "1"⟩ : Trade) = r.id ∧
      (⟨100, 5, "b", "a", "2", "1"⟩ : Trade).price = r.price :=
  trade_price_is_resting_price _ (by
    intro c hc
    fin_cases hc <;> simp [cmdPriceOK, maxFloat64] <;> norm_num) _
    ⟨100, 5, "b", "a", "2", "1"⟩
    (by
      norm_num [runCmds, stepCmd, submitProcess, matchPhase, matchMarket, matchLimit,
        matchLoop, getBestOpposite, matchAtPrice, matchQueue, mkTrade, addToBook, setLevel,
        containsKey, replaceLevel, eraseLevel, lookupLevel, lookupIdx, insertIdx, eraseIdx,
        eraseIds, findBestBidNoLock, findBestAskNoLock, maxFloat64,
        OrderBook.empty, min_def, sell_eq_buy_iff, buy_eq_sell_iff,
        limit_eq_market_iff, market_eq_limit_iff, String.reduceEq] <;> decide)

/-! Resting and indexed ids only shrink during matching (C4). -/

theorem mem_levelIds {m : BookSide} {x : String} :
    x ∈ levelIds m ↔ ∃ e ∈ m, ∃ r ∈ e.2, r.id = x := by
  simp [levelIds, List.mem_flatMap]

theorem matchQueue_rem_ids (o : Order) (price : ℚ) :
    ∀ (q : ℚ) (ℓ : List Order), ∀ r' ∈ (matchQueue o price q ℓ).2.2.1,
      ∃ r ∈ ℓ, r.id = r'.id := by
  intro q ℓ
  induction ℓ generalizing q with
  | nil => intro r' hr'; cases hr'
  | cons front rest ih =>
    intro r' hr'
    by_cases hq : q > 0
    · by_cases hfull : front.quantity - min q front.quantity ≤ 0
      · rw [matchQueue, if_pos hq, if_pos hfull] at hr'
        obtain ⟨r, hr, hid⟩ := ih _ r' hr'
        exact ⟨r, List.mem_cons_of_mem _ hr, hid⟩
      · rw [matchQueue, if_pos hq, if_neg hfull] at hr'
        rcases List.mem_cons.mp hr' with rfl | hr''
        · exact ⟨front, List.mem_cons_self _ _, rfl⟩
        · exact ⟨r', List.mem_cons_of_mem _ hr'', rfl⟩
    · rw [matchQueue, if_neg hq] at hr'
      rcases List.mem_cons.mp hr' with rfl | hr''
      · exact ⟨r', List.mem_cons_self _ _, rfl⟩
      · exact ⟨r', List.mem_cons_of_mem _ hr'', rfl⟩

theorem levelIds_eraseLevel_sub {m : BookSide} {p : ℚ} {x : String}
    (h : x ∈ levelIds (eraseLevel m p)) : x ∈ levelIds m := by
  obtain ⟨e, he, r, hr, hid⟩ := mem_levelIds.mp h
  exact mem_levelIds.mpr ⟨e, (mem_eraseLevel.mp he).1, r, hr, hid⟩

theorem levelIds_setLevel_sub {m : BookSide} {p : ℚ} {ℓ' : List Order} {x : String}
    (h : x ∈ levelIds (setLevel m p ℓ')) :
    x ∈ levelIds m ∨ ∃ r ∈ ℓ', r.id = x := by
  obtain ⟨e, he, r, hr, hid⟩ := mem_levelIds.mp h
  rcases mem_setLevel he with rfl | hem
  · exact Or.inr ⟨r, hr, hid⟩
  · exact Or.inl (mem_levelIds.mpr ⟨e, hem, r, hr, hid⟩)

theorem idxKeys_eraseIdx_sub {idx : OrderIndex} {id₀ x : String}
    (h : x ∈ idxKeys (eraseIdx idx id₀)) : x ∈ idxKeys idx := by
  induction idx with
  | nil => cases h
  | cons e es ih =>
    rw [eraseIdx] at h
    by_cases he : e.1 = id₀
    · rw [if_pos he] at h
      exact List.mem_cons_of_mem _ (ih h)
    · rw [if_neg he] at h
      rcases List.mem_cons.mp h with rfl | h'
      · exact List.mem_cons_self _ _
      · exact List.mem_cons_of_mem _ (ih h')

theorem idxKeys_eraseIds_sub {ids : List String} :
    ∀ {idx : OrderIndex} {x : String}, x ∈ idxKeys (eraseIds idx ids) → x ∈ idxKeys idx := by
  induction ids with
  | nil => intro idx x h; exact h
  | cons i is ih =>
    intro idx x h
    rw [eraseIds, List.foldl_cons] at h
    exact idxKeys_eraseIdx_sub (ih h)

theorem matchAtPrice_ids_sub (ob : OrderBook) (o : Order) (q price : ℚ) (x : String) :
    (x ∈ restingIds (matchAtPrice ob o q price).2.2 → x ∈ restingIds ob) ∧
    (x ∈ idxKeys (matchAtPrice ob o q price).2.2.orders → x ∈ idxKeys ob.orders) := by
  by_cases hside : o.side = Side.buy
  · rcases hl : lookupLevel ob.asks price with _ | ℓ
    · have hres : (matchAtPrice ob o q price).2.2 = ob := by
        simp [matchAtPrice, hside, hl]
      rw [hres]
      exact ⟨fun h => h, fun h => h⟩
    · have hqids : ∀ y, (∃ r ∈ (matchQueue o price q ℓ).2.2.1, r.id = y) →
          y ∈ levelIds ob.asks := by
        rintro y ⟨r', hr', hid⟩
        obtain ⟨r, hr, hid2⟩ := matchQueue_rem_ids o price q ℓ r' hr'
        exact mem_levelIds.mpr ⟨(price, ℓ), lookupLevel_mem hl, r, hr, hid2.trans hid⟩
      by_cases hnil : ℓ = []
      · have hres : (matchAtPrice ob o q price).2.2 = ob := by
          simp [matchAtPrice, hside, hl, hnil]
        rw [hres]
        exact ⟨fun h => h, fun h => h⟩
      · by_cases hre : (matchQueue o price q ℓ).2.2.1 = []
        · have hres : ((matchAtPrice ob o q price).2.2.bids = ob.bids ∧
              (matchAtPrice ob o q price).2.2.asks = eraseLevel ob.asks price) ∧
              (matchAtPrice ob o q price).2.2.orders =
                eraseIds ob.orders (matchQueue o price q ℓ).2.2.2 := by
            by_cases hbest : price = ob.bestAsk
            · subst hbest
              simp [matchAtPrice, hside, hl, hnil, hre]
            · simp [matchAtPrice, hside, hl, hnil, hre, hbest]
          constructor
          · intro h
            rw [restingIds, hres.1.1, hres.1.2] at h
            rcases List.mem_append.mp h with h' | h'
            · exact List.mem_append.mpr (Or.inl h')
            · exact List.mem_append.mpr (Or.inr (levelIds_eraseLevel_sub h'))
          · intro h
            rw [hres.2] at h
            exact idxKeys_eraseIds_sub h
        · have hres : ((matchAtPrice ob o q price).2.2.bids = ob.bids ∧
              (matchAtPrice ob o q price).2.2.asks =
                setLevel ob.asks price (matchQueue o price q ℓ).2.2.1) ∧
              (matchAtPrice ob o q price).2.2.orders =
                eraseIds ob.orders (matchQueue o price q ℓ).2.2.2 := by
            simp [matchAtPrice, hside, hl, hnil, hre]
          constructor
          · intro h
            rw [restingIds, hres.1.1, hres.1.2] at h
            rcases List.mem_append.mp h with h' | h'
            · exact List.mem_append.mpr (Or.inl h')
            · rcases levelIds_setLevel_sub h' with h'' | h''
              · exact List.mem_append.mpr (Or.inr h'')
              · exact List.mem_append.mpr (Or.inr (hqids x h''))
          · intro h
            rw [hres.2] at h
            exact idxKeys_eraseIds_sub h
  · rcases hl : lookupLevel ob.bids price with _ | ℓ
    · have hres : (matchAtPrice ob o q price).2.2 = ob := by
        simp [matchAtPrice, hside, hl]
      rw [hres]
      exact ⟨fun h => h, fun h => h⟩
    · have hqids : ∀ y, (∃ r ∈ (matchQueue o price q ℓ).2.2.1, r.id = y) →
          y ∈ levelIds ob.bids := by
        rintro y ⟨r', hr', hid⟩
        obtain ⟨r, hr, hid2⟩ := matchQueue_rem_ids o price q ℓ r' hr'
        exact mem_levelIds.mpr ⟨(price, ℓ), lookupLevel_mem hl, r, hr, hid2.trans hid⟩
      by_cases hnil : ℓ = []
      · have hres : (matchAtPrice ob o q price).2.2 = ob := by
          simp [matchAtPrice, hside, hl, hnil]
        rw [hres]
        exact ⟨fun h => h, fun h => h⟩
      · by_cases hre : (matchQueue o price q ℓ).2.2.1 = []
        · have hres : ((matchAtPrice ob o q price).2.2.bids = eraseLevel ob.bids price ∧
              (matchAtPrice ob o q price).2.2.asks = ob.asks) ∧
              (matchAtPrice ob o q price).2.2.orders =
                eraseIds ob.orders (matchQueue o price q ℓ).2.2.2 := by
            by_cases hbest : price = ob.bestBid
            · subst hbest
              simp [matchAtPrice, hside, hl, hnil, hre]
            · simp [matchAtPrice, hside, hl, hnil, hre, hbest]
          constructor
          · intro h
            rw [restingIds, hres.1.1, hres.1.2] at h
            rcases List.mem_append.mp h with h' | h'
            · exact List.mem_append.mpr (Or.inl (levelIds_eraseLevel_sub h'))
            · exact List.mem_append.mpr (Or.inr h')
          · intro h
            rw [hres.2] at h
            exact idxKeys_eraseIds_sub h
        · have hres : ((matchAtPrice ob o q price).2.2.bids =
                setLevel ob.bids price (matchQueue o price q ℓ).2.2.1 ∧
              (matchAtPrice ob o q price).2.2.asks = ob.asks) ∧
              (matchAtPrice ob o q price).2.2.orders =
                eraseIds ob.orders (matchQueue o price q ℓ).2.2.2 := by
            simp [matchAtPrice, hside, hl, hnil, hre]
          constructor
          · intro h
            rw [restingIds, hres.1.1, hres.1.2] at h
            rcases List.mem_append.mp h with h' | h'
            · rcases levelIds_setLevel_sub h' with h'' | h''
              · exact List.mem_append.mpr (Or.inl h'')
              · exact List.mem_append.mpr (Or.inl (hqids x h''))
            · exact List.mem_append.mpr (Or.inr h')
          · intro h
            rw [hres.2] at h
            exact idxKeys_eraseIds_sub h

theorem matchLoop_ids_sub (isLimit : Bool) (o : Order) :
    ∀ (fuel : Nat) (ob : OrderBook) (q : ℚ) (x : String),
      (x ∈ restingIds (matchLoop isLimit o fuel ob q).2.2 → x ∈ restingIds ob) ∧
      (x ∈ idxKeys (matchLoop isLimit o fuel ob q).2.2.orders → x ∈ idxKeys ob.orders) := by
  intro fuel
  induction fuel with
  | zero => intro ob q x; exact ⟨fun h => h, fun h => h⟩
  | succ n ih =>
    intro ob q x
    rw [matchLoop]
    by_cases hq : q > 0
    · rw [if_pos hq]
      by_cases hoppz : getBestOpposite ob o.side = 0
      · rw [if_pos hoppz]; exact ⟨fun h => h, fun h => h⟩
      · rw [if_neg hoppz]
        by_cases hcond : isLimit = true ∧ ((o.side = Side.buy ∧ getBestOpposite ob o.side > o.price) ∨
            (o.side = Side.sell ∧ getBestOpposite ob o.side < o.price))
        · rw [if_pos hcond]; exact ⟨fun h => h, fun h => h⟩
        · rw [if_neg hcond]
          constructor
          · intro h
            exact (matchAtPrice_ids_sub ob o q _ x).1 ((ih _ _ x).1 h)
          · intro h
            exact (matchAtPrice_ids_sub ob o q _ x).2 ((ih _ _ x).2 h)
    · rw [if_neg hq]; exact ⟨fun h => h, fun h => h⟩

theorem matchPhase_ids_sub (ob : OrderBook) (o : Order) (x : String) :
    (x ∈ restingIds (matchPhase ob o).2.2 → x ∈ restingIds ob) ∧
    (x ∈ idxKeys (matchPhase ob o).2.2.orders → x ∈ idxKeys ob.orders) := by
  rw [matchPhase]
  by_cases ht : o.typ = OrderType.market
  · rw [if_pos ht, matchMarket]
    exact matchLoop_ids_sub false o _ ob o.quantity x
  · rw [if_neg ht, matchLimit]
    exact matchLoop_ids_sub true o _ ob o.quantity x

theorem addToBook_resting (ob : OrderBook) (o : Order) :
    o.id ∈ restingIds (addToBook ob o) := by
  by_cases hside : o.side = Side.buy
  · simp only [addToBook, hside, reduceIte]
    rw [restingIds]
    apply List.mem_append.mpr
    apply Or.inl
    exact mem_levelIds.mpr ⟨_, lookupLevel_mem (lookupLevel_setLevel_self _ _ _),
      o, List.mem_append.mpr (Or.inr (List.mem_singleton.mpr rfl)), rfl⟩
  · simp only [addToBook, hside, reduceIte]
    rw [restingIds]
    apply List.mem_append.mpr
    apply Or.inr
    exact mem_levelIds.mpr ⟨_, lookupLevel_mem (lookupLevel_setLevel_self _ _ _),
      o, List.mem_append.mpr (Or.inr (List.mem_singleton.mpr rfl)), rfl⟩

theorem addToBook_idx (ob : OrderBook) (o : Order) :
    o.id ∈ idxKeys (addToBook ob o).orders := by
  by_cases hside : o.side = Side.buy
  · simp only [addToBook, hside, reduceIte]
    exact List.mem_cons_self _ _
  · simp only [addToBook, hside, reduceIte]
    exact List.mem_cons_self _ _

theorem submitProcess_ids_eq (ob : OrderBook) (o : Order) :
    restingIds (submitProcess ob o).2 =
      (if o.quantity ≤ 0 ∨ (o.typ = OrderType.limit ∧ o.price ≤ 0) then restingIds ob
       else if (matchPhase ob o).2.1 > 0 ∧ o.typ = OrderType.limit then
         restingIds (addToBook (matchPhase ob o).2.2 { o with quantity := (matchPhase ob o).2.1 })
       else restingIds (matchPhase ob o).2.2) ∧
    idxKeys (submitProcess ob o).2.orders =
      (if o.quantity ≤ 0 ∨ (o.typ = OrderType.limit ∧ o.price ≤ 0) then idxKeys ob.orders
       else if (matchPhase ob o).2.1 > 0 ∧ o.typ = OrderType.limit then
         idxKeys (addToBook (matchPhase ob o).2.2
           { o with quantity := (matchPhase ob o).2.1 }).orders
       else idxKeys (matchPhase ob o).2.2.orders) := by
  rw [submitProcess]
  by_cases hval : o.quantity ≤ 0 ∨ (o.typ = OrderType.limit ∧ o.price ≤ 0)
  · rw [if_pos hval]
    exact ⟨by rw [if_pos hval], by rw [if_pos hval]⟩
  · rw [if_neg hval]
    by_cases hrest : (matchPhase ob o).2.1 > 0 ∧ o.typ = OrderType.limit
    · rcases hlast : (matchPhase ob o).1.getLast? with _ | t <;>
        simp only [hlast] <;>
        exact ⟨by rw [if_neg hval, if_pos hrest, if_pos hrest]; try rfl,
          by rw [if_neg hval, if_pos hrest, if_pos hrest]; try rfl⟩
    · rcases hlast : (matchPhase ob o).1.getLast? with _ | t <;>
        simp only [hlast] <;>
        exact ⟨by rw [if_neg hval, if_neg hrest, if_neg hrest]; try rfl,
          by rw [if_neg hval, if_neg hrest, if_neg hrest]; try rfl⟩

/-- C4: with a fresh order id, a Market order never rests: after its
Submit the id is in neither book side nor the order index (any unfilled
remainder is discarded); and a valid Limit order rests (is present in
its book side and the index) if and only if its residual quantity after
the matching phase is strictly positive. -/
theorem market_never_rests_limit_rests_iff (ob : OrderBook) (o : Order)
    (hfr : o.id ∉ restingIds ob) (hfi : o.id ∉ idxKeys ob.orders) :
    (o.typ = OrderType.market →
      o.id ∉ restingIds (submitProcess ob o).2 ∧
      o.id ∉ idxKeys (submitProcess ob o).2.orders) ∧
    (o.typ = OrderType.limit → 0 < o.quantity → 0 < o.price →
      ((o.id ∈ restingIds (submitProcess ob o).2 ↔ 0 < (matchPhase ob o).2.1) ∧
       (o.id ∈ idxKeys (submitProcess ob o).2.orders ↔ 0 < (matchPhase ob o).2.1))) := by
  obtain ⟨hre, hie⟩ := submitProcess_ids_eq ob o
  constructor
  · intro htyp
    rw [hre, hie]
    have hnl : ¬((matchPhase ob o).2.1 > 0 ∧ o.typ = OrderType.limit) := by
      rintro ⟨_, hl⟩
      rw [htyp] at hl
      cases hl
    by_cases hval : o.quantity ≤ 0 ∨ (o.typ = OrderType.limit ∧ o.price ≤ 0)
    · rw [if_pos hval, if_pos hval]
      exact ⟨hfr, hfi⟩
    · rw [if_neg hval, if_neg hval, if_neg hnl, if_neg hnl]
      exact ⟨fun h => hfr ((matchPhase_ids_sub ob o o.id).1 h),
        fun h => hfi ((matchPhase_ids_sub ob o o.id).2 h)⟩
  · intro htyp hq hp
    have hval : ¬(o.quantity ≤ 0 ∨ (o.typ = OrderType.limit ∧ o.price ≤ 0)) := by
      push_neg
      exact ⟨by linarith, fun _ => by linarith⟩
    rw [hre, hie, if_neg hval, if_neg hval]
    by_cases hres : (matchPhase ob o).2.1 > 0
    · rw [if_pos ⟨hres, htyp⟩, if_pos ⟨hres, htyp⟩]
      constructor
      · exact ⟨fun _ => hres, fun _ => addToBook_resting _ _⟩
      · exact ⟨fun _ => hres, fun _ => addToBook_idx _ _⟩
    · rw [if_neg (fun hh => hres hh.1), if_neg (fun hh => hres hh.1)]
      constructor
      · exact ⟨fun h => absurd ((matchPhase_ids_sub ob o o.id).1 h) hfr,
          fun h => absurd h hres⟩
      · exact ⟨fun h => absurd ((matchPhase_ids_sub ob o o.id).2 h) hfi,
          fun h => absurd h hres⟩

/-- Witness for C4 at concrete inputs against a book holding one resting
sell of 10 at 100: a Market Buy for 15 consumes the level and its
remainder is discarded (id "2" nowhere in the book), and a Limit Buy at
105 for 7 trades fully at 100 and rests iff its residual is positive. -/
theorem market_never_rests_limit_rests_iff_witness :
    ((⟨"2", Side.buy, OrderType.market, 0, 15, "b"⟩ : Order).typ = OrderType.market →
      (⟨"2", Side.buy, OrderType.market, 0, 15, "b"⟩ : Order).id ∉ restingIds
        (submitProcess ⟨[], [(100, [⟨"1", Side.sell, OrderType.limit, 100, 10, "a"⟩])],
          [("1", Side.sell, 100)], 0, 0, 100⟩
          ⟨"2", Side.buy, OrderType.market, 0, 15, "b"⟩).2 ∧
      (⟨"2", Side.buy, OrderType.market, 0, 15, "b"⟩ : Order).id ∉ idxKeys
        (submitProcess ⟨[], [(100, [⟨"1", Side.sell, OrderType.limit, 100, 10, "a"⟩])],
          [("1", Side.sell, 100)], 0, 0, 100⟩
          ⟨"2", Side.buy, OrderType.market, 0, 15, "b"⟩).2.orders) ∧
    ((⟨"2", Side.buy, OrderType.market, 0, 15, "b"⟩ : Order).typ = OrderType.limit →
      0 < (⟨"2", Side.buy, OrderType.market, 0, 15, "b"⟩ : Order).quantity →
      0 < (⟨"2", Side.buy, OrderType.market, 0, 15, "b"⟩ : Order).price →
      (((⟨"2", Side.buy, OrderType.market, 0, 15, "b"⟩ : Order).id ∈ restingIds
          (submitProcess ⟨[], [(100, [⟨"1", Side.sell, OrderType.limit, 100, 10, "a"⟩])],
            [("1", Side.sell, 100)], 0, 0, 100⟩
            ⟨"2", Side.buy, OrderType.market, 0, 15, "b"⟩).2 ↔
        0 < (matchPhase ⟨[], [(100, [⟨"1", Side.sell, OrderType.limit, 100, 10, "a"⟩])],
            [("1", Side.sell, 100)], 0, 0, 100⟩
            ⟨"2", Side.buy, OrderType.market, 0, 15, "b"⟩).2.1) ∧
       ((⟨"2", Side.buy, OrderType.market, 0, 15, "b"⟩ : Order).id ∈ idxKeys
          (submitProcess ⟨[], [(100, [⟨"1", Side.sell, OrderType.limit, 100, 10, "a"⟩])],
            [("1", Side.sell, 100)], 0, 0, 100⟩
            ⟨"2", Side.buy, OrderType.market, 0, 15, "b"⟩).2.orders ↔
        0 < (matchPhase ⟨[], [(100, [⟨"1", Side.sell, OrderType.limit, 100, 10, "a"⟩])],
            [("1", Side.sell, 100)], 0, 0, 100⟩
            ⟨"2", Side.buy, OrderType.market, 0, 15, "b"⟩).2.1))) :=
  market_never_rests_limit_rests_iff
    ⟨[], [(100, [⟨"1", Side.sell, OrderType.limit, 100, 10, "a"⟩])],
      [("1", Side.sell, 100)], 0, 0, 100⟩
    ⟨"2", Side.buy, OrderType.market, 0, 15, "b"⟩
    (by norm_num [restingIds, levelIds, idxKeys, String.reduceEq]; decide)
    (by norm_num [restingIds, levelIds, idxKeys, String.reduceEq]; decide)

/-- C10: a successful Cancel (the id is in the order index, at side `s`
and price `p`) returns true, emits no trade, and touches nothing outside
the order's own side: the last price, the whole opposite side and its
best-price cache, and every level of the own side other than `p` are
unchanged, while the queue at `p` merely loses the cancelled order. -/
theorem cancel_frame (ob : OrderBook) (id : String) (s : Side) (p : ℚ)
    (hix : lookupIdx ob.orders id = some (s, p)) :
    (cancelProcess ob id).1 = true ∧
    (cancelProcess ob id).2.lastPrice = ob.lastPrice ∧
    (s = Side.buy → (cancelProcess ob id).2.asks = ob.asks ∧
      (cancelProcess ob id).2.bestAsk = ob.bestAsk) ∧
    (s = Side.sell → (cancelProcess ob id).2.bids = ob.bids ∧
      (cancelProcess ob id).2.bestBid = ob.bestBid) ∧
    (∀ p', p' ≠ p → lookupLevel (bookSideOf (cancelProcess ob id).2 s) p' =
      lookupLevel (bookSideOf ob s) p') ∧
    queueAt (cancelProcess ob id).2 s p = removeById (queueAt ob s p) id := by
  cases s with
  | buy =>
    rcases hl : lookupLevel ob.bids p with _ | ℓ
    · have hres : cancelProcess ob id = (true, { ob with orders := eraseIdx ob.orders id }) := by
        simp [cancelProcess, hix, hl]
      rw [hres]
      refine ⟨rfl, rfl, fun _ => ⟨rfl, rfl⟩, fun h => absurd h (by decide),
        fun p' _ => rfl, ?_⟩
      show (lookupLevel ob.bids p).getD [] = removeById ((lookupLevel ob.bids p).getD []) id
      rw [hl]
      rfl
    · by_cases hre : removeById ℓ id = []
      · by_cases hbest : p = ob.bestBid
        · subst hbest
          have hres : cancelProcess ob id = (true,
              { ob with
                bids := eraseLevel ob.bids ob.bestBid
                orders := eraseIdx ob.orders id
                bestBid := findBestBidNoLock (eraseLevel ob.bids ob.bestBid) }) := by
            simp [cancelProcess, hix, hl, hre]
          rw [hres]
          refine ⟨rfl, rfl, fun _ => ⟨rfl, rfl⟩, fun h => absurd h (by decide), ?_, ?_⟩
          · intro p' hne
            exact lookupLevel_eraseLevel_ne ob.bids ob.bestBid p' hne
          · show (lookupLevel (eraseLevel ob.bids ob.bestBid) ob.bestBid).getD [] =
              removeById ((lookupLevel ob.bids ob.bestBid).getD []) id
            rw [lookupLevel_eraseLevel_self, hl]
            exact hre.symm
        · have hres : cancelProcess ob id = (true,
              { ob with
                bids := eraseLevel ob.bids p
                orders := eraseIdx ob.orders id }) := by
            simp [cancelProcess, hix, hl, hre, hbest]
          rw [hres]
          refine ⟨rfl, rfl, fun _ => ⟨rfl, rfl⟩, fun h => absurd h (by decide), ?_, ?_⟩
          · intro p' hne
            exact lookupLevel_eraseLevel_ne ob.bids p p' hne
          · show (lookupLevel (eraseLevel ob.bids p) p).getD [] =
              removeById ((lookupLevel ob.bids p).getD []) id
            rw [lookupLevel_eraseLevel_self, hl]
            exact hre.symm
      · have hres : cancelProcess ob id = (true,
            { ob with
              bids := setLevel ob.bids p (removeById ℓ id)
              orders := eraseIdx ob.orders id }) := by
          simp [cancelProcess, hix, hl, hre]
        rw [hres]
        refine ⟨rfl, rfl, fun _ => ⟨rfl, rfl⟩, fun h => absurd h (by decide), ?_, ?_⟩
        · intro p' hne
          exact lookupLevel_setLevel_ne ob.bids p p' _ hne
        · show (lookupLevel (setLevel ob.bids p (removeById ℓ id)) p).getD [] =
            removeById ((lookupLevel ob.bids p).getD []) id
          rw [lookupLevel_setLevel_self, hl]
          rfl
  | sell =>
    rcases hl : lookupLevel ob.asks p with _ | ℓ
    · have hres : cancelProcess ob id = (true, { ob with orders := eraseIdx ob.orders id }) := by
        simp [cancelProcess, hix, hl]
      rw [hres]
      refine ⟨rfl, rfl, fun h => absurd h (by decide), fun _ => ⟨rfl, rfl⟩,
        fun p' _ => rfl, ?_⟩
      show (lookupLevel ob.asks p).getD [] = removeById ((lookupLevel ob.asks p).getD []) id
      rw [hl]
      rfl
    · by_cases hre : removeById ℓ id = []
      · by_cases hbest : p = ob.bestAsk
        · subst hbest
          have hres : cancelProcess ob id = (true,
              { ob with
                asks := eraseLevel ob.asks ob.bestAsk
                orders := eraseIdx ob.orders id
                bestAsk := findBestAskNoLock (eraseLevel ob.asks ob.bestAsk) }) := by
            simp [cancelProcess, hix, hl, hre]
          rw [hres]
          refine ⟨rfl, rfl, fun h => absurd h (by decide), fun _ => ⟨rfl, rfl⟩, ?_, ?_⟩
          · intro p' hne
            exact lookupLevel_eraseLevel_ne ob.asks ob.bestAsk p' hne
          · show (lookupLevel (eraseLevel ob.asks ob.bestAsk) ob.bestAsk).getD [] =
              removeById ((lookupLevel ob.asks ob.bestAsk).getD []) id
            rw [lookupLevel_eraseLevel_self, hl]
            exact hre.symm
        · have hres : cancelProcess ob id = (true,
              { ob with
                asks := eraseLevel ob.asks p
                orders := eraseIdx ob.orders id }) := by
            simp [cancelProcess, hix, hl, hre, hbest]
          rw [hres]
          refine ⟨rfl, rfl, fun h => absurd h (by decide), fun _ => ⟨rfl, rfl⟩, ?_, ?_⟩
          · intro p' hne
            exact lookupLevel_eraseLevel_ne ob.asks p p' hne
          · show (lookupLevel (eraseLevel ob.asks p) p).getD [] =
              removeById ((lookupLevel ob.asks p).getD []) id
            rw [lookupLevel_eraseLevel_self, hl]
            exact hre.symm
      · have hres : cancelProcess ob id = (true,
            { ob with
              asks := setLevel ob.asks p (removeById ℓ id)
              orders := eraseIdx ob.orders id }) := by
          simp [cancelProcess, hix, hl, hre]
        rw [hres]
        refine ⟨rfl, rfl, fun h => absurd h (by decide), fun _ => ⟨rfl, rfl⟩, ?_, ?_⟩
        · intro p' hne
          exact lookupLevel_setLevel_ne ob.asks p p' _ hne
        · show (lookupLevel (setLevel ob.asks p (removeById ℓ id)) p).getD [] =
            removeById ((lookupLevel ob.asks p).getD []) id
          rw [lookupLevel_setLevel_self, hl]
          rfl

/-! No-trade submits leave the book untouched (towards C8). -/

theorem matchQueue_trades_ne_nil (o : Order) (price : ℚ) (q : ℚ) (ℓ : List Order)
    (hq : q > 0) (hnil : ℓ ≠ []) : (matchQueue o price q ℓ).1 ≠ [] := by
  cases ℓ with
  | nil => exact absurd rfl hnil
  | cons front rest =>
    by_cases hfull : front.quantity - min q front.quantity ≤ 0
    · rw [matchQueue, if_pos hq, if_pos hfull]
      exact List.cons_ne_nil _ _
    · rw [matchQueue, if_pos hq, if_neg hfull]
      exact List.cons_ne_nil _ _

theorem matchAtPrice_trades_ne_nil (ob : OrderBook) (o : Order) (q : ℚ)
    (hInv : InvBook ob) (hq : q > 0)
    (hopp : getBestOpposite ob o.side ≠ 0) :
    (matchAtPrice ob o q (getBestOpposite ob o.side)).1 ≠ [] := by
  obtain ⟨hbids, hasks, hbb, hba⟩ := hInv
  by_cases hside : o.side = Side.buy
  · have hopp' : ob.bestAsk ≠ 0 := by
      rwa [getBestOpposite, if_pos hside] at hopp
    have hne : ob.asks ≠ [] := by
      intro hh
      rw [hba, hh] at hopp'
      exact hopp' rfl
    have hkeys : keys ob.asks ≠ [] := fun hh => hne (keys_nil_iff.mp hh)
    have hmem : ob.bestAsk ∈ keys ob.asks := hba ▸ minOf_mem hkeys
    rcases hl : lookupLevel ob.asks ob.bestAsk with _ | ℓ
    · exact absurd hmem (lookupLevel_eq_none.mp hl)
    · have hlnil : ℓ ≠ [] := (hasks.2 _ (lookupLevel_mem hl)).2.2.1
      rw [getBestOpposite, if_pos hside]
      have hmq := matchQueue_trades_ne_nil o ob.bestAsk q ℓ hq hlnil
      by_cases hre : (matchQueue o ob.bestAsk q ℓ).2.2.1 = []
      · intro hcon
        apply hmq
        have : (matchAtPrice ob o q ob.bestAsk).1 = (matchQueue o ob.bestAsk q ℓ).1 := by
          simp [matchAtPrice, hside, hl, hlnil, hre]
        rwa [this] at hcon
      · intro hcon
        apply hmq
        have : (matchAtPrice ob o q ob.bestAsk).1 = (matchQueue o ob.bestAsk q ℓ).1 := by
          simp [matchAtPrice, hside, hl, hlnil, hre]
        rwa [this] at hcon
  · have hopp' : ob.bestBid ≠ 0 := by
      rwa [getBestOpposite, if_neg hside] at hopp
    have hne : ob.bids ≠ [] := by
      intro hh
      rw [hbb, hh] at hopp'
      exact hopp' rfl
    have hkeys : keys ob.bids ≠ [] := fun hh => hne (keys_nil_iff.mp hh)
    have hmem : ob.bestBid ∈ keys ob.bids := hbb ▸ maxOf_mem hkeys
    rcases hl : lookupLevel ob.bids ob.bestBid with _ | ℓ
    · exact absurd hmem (lookupLevel_eq_none.mp hl)
    · have hlnil : ℓ ≠ [] := (hbids.2 _ (lookupLevel_mem hl)).2.2.1
      rw [getBestOpposite, if_neg hside]
      have hmq := matchQueue_trades_ne_nil o ob.bestBid q ℓ hq hlnil
      by_cases hre : (matchQueue o ob.bestBid q ℓ).2.2.1 = []
      · intro hcon
        apply hmq
        have : (matchAtPrice ob o q ob.bestBid).1 = (matchQueue o ob.bestBid q ℓ).1 := by
          simp [matchAtPrice, hside, hl, hlnil, hre]
        rwa [this] at hcon
      · intro hcon
        apply hmq
        have : (matchAtPrice ob o q ob.bestBid).1 = (matchQueue o ob.bestBid q ℓ).1 := by
          simp [matchAtPrice, hside, hl, hlnil, hre]
        rwa [this] at hcon

theorem matchLoop_no_trades (isLimit : Bool) (o : Order) (fuel : Nat)
    (ob : OrderBook) (q : ℚ) (hInv : InvBook ob) (hq : 0 < q)
    (hnt : (matchLoop isLimit o fuel ob q).1 = []) :
    matchLoop isLimit o fuel ob q = ([], q, ob) := by
  cases fuel with
  | zero => rfl
  | succ n =>
    rw [matchLoop, if_pos hq]
    rw [matchLoop, if_pos hq] at hnt
    by_cases hoppz : getBestOpposite ob o.side = 0
    · rw [if_pos hoppz]
    · rw [if_neg hoppz] at hnt ⊢
      by_cases hcond : isLimit = true ∧ ((o.side = Side.buy ∧ getBestOpposite ob o.side > o.price) ∨
          (o.side = Side.sell ∧ getBestOpposite ob o.side < o.price))
      · rw [if_pos hcond]
      · rw [if_neg hcond] at hnt
        exfalso
        exact matchAtPrice_trades_ne_nil ob o q hInv hq hoppz
          (List.append_eq_nil.mp hnt).1

theorem matchPhase_no_trades (ob : OrderBook) (o : Order) (hInv : InvBook ob)
    (hq : 0 < o.quantity) (hnt : (matchPhase ob o).1 = []) :
    matchPhase ob o = ([], o.quantity, ob) := by
  rw [matchPhase] at hnt ⊢
  by_cases ht : o.typ = OrderType.market
  · rw [if_pos ht, matchMarket] at hnt ⊢
    exact matchLoop_no_trades false o _ ob o.quantity hInv hq hnt
  · rw [if_neg ht, matchLimit] at hnt ⊢
    exact matchLoop_no_trades true o _ ob o.quantity hInv hq hnt

theorem lookupIdx_insert_self (idx : OrderIndex) (id : String) (v : Side × ℚ) :
    lookupIdx (insertIdx idx id v) id = some v := by
  rw [insertIdx, lookupIdx, if_pos rfl]

theorem removeById_length (ℓ : List Order) (id : String) :
    ℓ.length ≤ (removeById ℓ id).length + 1 := by
  induction ℓ with
  | nil => simp [removeById]
  | cons x xs ih =>
    rw [removeById]
    by_cases hx : x.id = id
    · rw [if_pos hx]
      simp
    · rw [if_neg hx]
      simp only [List.length_cons]
      omega

theorem removeById_ne_nil_of_two {ℓ : List Order} {id : String} (h : 2 ≤ ℓ.length) :
    removeById ℓ id ≠ [] := by
  intro hh
  have := removeById_length ℓ id
  rw [hh] at this
  simp at this
  omega

theorem eraseLevel_setLevel_new {m : BookSide} {p : ℚ} {ℓ : List Order}
    (h : p ∉ keys m) : eraseLevel (setLevel m p ℓ) p = m := by
  rw [setLevel, if_neg (fun hh => h (containsKey_iff.mp hh)), eraseLevel_cons, if_pos rfl]
  exact eraseLevel_not_mem m p h

/-- Best-cache round trip: resting a limit order and immediately
cancelling it restores both best-price caches. -/
theorem cancel_addToBook_best (ob : OrderBook) (o : Order) (hInv : InvBook ob)
    (hp : 0 < o.price) :
    (cancelProcess (addToBook ob o) o.id).2.bestBid = ob.bestBid ∧
    (cancelProcess (addToBook ob o) o.id).2.bestAsk = ob.bestAsk := by
  obtain ⟨hbids, hasks, hbb, hba⟩ := hInv
  by_cases hside : o.side = Side.buy
  · by_cases hpk : o.price ∈ keys ob.bids
    · rcases hlk : lookupLevel ob.bids o.price with _ | ℓ₀
      · exact absurd hpk (lookupLevel_eq_none.mp hlk)
      · have hl₀ : ℓ₀ ≠ [] := (hbids.2 _ (lookupLevel_mem hlk)).2.2.1
        have hkeys : keys ob.bids ≠ [] := by
          intro hh
          rw [hh] at hpk
          cases hpk
        have hMpos : 0 < maxOf (keys ob.bids) := by
          apply maxOf_pos _ (SideOK_keys_pos hbids)
          intro hh
          rw [hh] at hpk
          cases hpk
        have hbb' : (addToBook ob o).bestBid = ob.bestBid := by
          simp only [addToBook, hside, reduceIte]
          rw [hbb, if_neg (by push_neg; exact ⟨le_maxOf hpk, by linarith⟩)]
        have hba' : (addToBook ob o).bestAsk = ob.bestAsk := by
          simp only [addToBook, hside, reduceIte]
        have hix : lookupIdx (addToBook ob o).orders o.id = some (Side.buy, o.price) := by
          simp only [addToBook, hside, reduceIte]
          have hh := lookupIdx_insert_self ob.orders o.id (o.side, o.price)
          rwa [hside] at hh
        have hlvl : lookupLevel (addToBook ob o).bids o.price = some (ℓ₀ ++ [o]) := by
          simp only [addToBook, hside, reduceIte]
          rw [hlk]
          exact lookupLevel_setLevel_self _ _ _
        have hre : removeById (ℓ₀ ++ [o]) o.id ≠ [] := by
          apply removeById_ne_nil_of_two
          rw [List.length_append, List.length_singleton]
          cases ℓ₀ with
          | nil => exact absurd rfl hl₀
          | cons a as => simp
        have hres : (cancelProcess (addToBook ob o) o.id).2.bestBid =
            (addToBook ob o).bestBid ∧
            (cancelProcess (addToBook ob o) o.id).2.bestAsk = (addToBook ob o).bestAsk := by
          simp [cancelProcess, hix, hlvl, hre]
        rw [hres.1, hres.2, hbb', hba']
        exact ⟨rfl, rfl⟩
    · have hlk : lookupLevel ob.bids o.price = none := lookupLevel_eq_none.mpr hpk
      have hba' : (addToBook ob o).bestAsk = ob.bestAsk := by
        simp only [addToBook, hside, reduceIte]
      have hix : lookupIdx (addToBook ob o).orders o.id = some (Side.buy, o.price) := by
        simp only [addToBook, hside, reduceIte]
        have hh := lookupIdx_insert_self ob.orders o.id (o.side, o.price)
        rwa [hside] at hh
      have hlvl : lookupLevel (addToBook ob o).bids o.price = some [o] := by
        simp only [addToBook, hside, reduceIte]
        rw [hlk]
        exact lookupLevel_setLevel_self _ _ _
      have hre : removeById [o] o.id = [] := by
        rw [removeById, if_pos rfl]
      have herase : eraseLevel (addToBook ob o).bids o.price = ob.bids := by
        simp only [addToBook, hside, reduceIte]
        rw [hlk]
        exact eraseLevel_setLevel_new hpk
      have hres : (cancelProcess (addToBook ob o) o.id).2.bestBid =
          (if o.price = (addToBook ob o).bestBid then
            findBestBidNoLock (eraseLevel (addToBook ob o).bids o.price)
          else (addToBook ob o).bestBid) ∧
          (cancelProcess (addToBook ob o) o.id).2.bestAsk = (addToBook ob o).bestAsk := by
        simp [cancelProcess, hix, hlvl, hre]
        refine ⟨?_, ?_⟩ <;> split <;> rfl
      rw [hres.1, hres.2, hba', herase]
      refine ⟨?_, rfl⟩
      have haddb : (addToBook ob o).bestBid =
          (if ob.bestBid < o.price ∨ ob.bestBid = 0 then o.price else ob.bestBid) := by
        simp only [addToBook, hside, reduceIte]
      rw [haddb]
      by_cases hcond : ob.bestBid < o.price ∨ ob.bestBid = 0
      · rw [if_pos hcond, if_pos rfl, findBestBid_eq _
          (fun k hk => le_of_lt (SideOK_keys_pos hbids k hk)), hbb]
      · rw [if_neg hcond]
        have hne : o.price ≠ ob.bestBid := by
          intro hh
          push_neg at hcond
          have hkeys : keys ob.bids ≠ [] := by
            intro hk
            rw [hbb, hk] at hcond
            exact hcond.2 rfl
          exact hpk (hh ▸ hbb ▸ maxOf_mem hkeys)
        rw [if_neg hne]
  · by_cases hpk : o.price ∈ keys ob.asks
    · rcases hlk : lookupLevel ob.asks o.price with _ | ℓ₀
      · exact absurd hpk (lookupLevel_eq_none.mp hlk)
      · have hl₀ : ℓ₀ ≠ [] := (hasks.2 _ (lookupLevel_mem hlk)).2.2.1
        have hMpos : 0 < minOf (keys ob.asks) := by
          apply minOf_pos _ (SideOK_keys_pos hasks)
          intro hh
          rw [hh] at hpk
          cases hpk
        have hba' : (addToBook ob o).bestAsk = ob.bestAsk := by
          simp only [addToBook, hside, reduceIte]
          rw [hba, if_neg (by push_neg; exact ⟨by linarith, minOf_le hpk⟩)]
        have hbb' : (addToBook ob o).bestBid = ob.bestBid := by
          simp only [addToBook, hside, reduceIte]
        have hsides : o.side = Side.sell := by
          cases hs : o.side
          · exact absurd hs hside
          · rfl
        have hix : lookupIdx (addToBook ob o).orders o.id = some (Side.sell, o.price) := by
          simp only [addToBook, hside, reduceIte]
          rw [hsides]
          exact lookupIdx_insert_self ob.orders o.id (Side.sell, o.price)
        have hlvl : lookupLevel (addToBook ob o).asks o.price = some (ℓ₀ ++ [o]) := by
          simp only [addToBook, hside, reduceIte]
          rw [hlk]
          exact lookupLevel_setLevel_self _ _ _
        have hre : removeById (ℓ₀ ++ [o]) o.id ≠ [] := by
          apply removeById_ne_nil_of_two
          rw [List.length_append, List.length_singleton]
          cases ℓ₀ with
          | nil => exact absurd rfl hl₀
          | cons a as => simp
        have hres : (cancelProcess (addToBook ob o) o.id).2.bestBid =
            (addToBook ob o).bestBid ∧
            (cancelProcess (addToBook ob o) o.id).2.bestAsk = (addToBook ob o).bestAsk := by
          simp [cancelProcess, hix, hlvl, hre]
        rw [hres.1, hres.2, hbb', hba']
        exact ⟨rfl, rfl⟩
    · have hlk : lookupLevel ob.asks o.price = none := lookupLevel_eq_none.mpr hpk
      have hbb' : (addToBook ob o).bestBid = ob.bestBid := by
        simp only [addToBook, hside, reduceIte]
      have hsides : o.side = Side.sell := by
        cases hs : o.side
        · exact absurd hs hside
        · rfl
      have hix : lookupIdx (addToBook ob o).orders o.id = some (Side.sell, o.price) := by
        simp only [addToBook, hside, reduceIte]
        rw [hsides]
        exact lookupIdx_insert_self ob.orders o.id (Side.sell, o.price)
      have hlvl : lookupLevel (addToBook ob o).asks o.price = some [o] := by
        simp only [addToBook, hside, reduceIte]
        rw [hlk]
        exact lookupLevel_setLevel_self _ _ _
      have hre : removeById [o] o.id = [] := by
        rw [removeById, if_pos rfl]
      have herase : eraseLevel (addToBook ob o).asks o.price = ob.asks := by
        simp only [addToBook, hside, reduceIte]
        rw [hlk]
        exact eraseLevel_setLevel_new hpk
      have hres : (cancelProcess (addToBook ob o) o.id).2.bestAsk =
          (if o.price = (addToBook ob o).bestAsk then
            findBestAskNoLock (eraseLevel (addToBook ob o).asks o.price)
          else (addToBook ob o).bestAsk) ∧
          (cancelProcess (addToBook ob o) o.id).2.bestBid = (addToBook ob o).bestBid := by
        simp [cancelProcess, hix, hlvl, hre]
        refine ⟨?_, ?_⟩ <;> split <;> rfl
      rw [hres.1, hres.2, hbb', herase]
      refine ⟨rfl, ?_⟩
      have hadda : (addToBook ob o).bestAsk =
          (if ob.bestAsk = 0 ∨ ob.bestAsk > o.price then o.price else ob.bestAsk) := by
        simp only [addToBook, hside, reduceIte]
      rw [hadda]
      by_cases hcond : ob.bestAsk = 0 ∨ ob.bestAsk > o.price
      · rw [if_pos hcond, if_pos rfl]
        have hkb : ∀ k ∈ keys ob.asks, k ≤ maxFloat64 := SideOK_keys_le hasks
        rw [findBestAsk_eq _ hkb, hba]
      · rw [if_neg hcond]
        have hne : o.price ≠ ob.bestAsk := by
          intro hh
          push_neg at hcond
          have hkeys : keys ob.asks ≠ [] := by
            intro hk
            rw [hba, hk] at hcond
            exact hcond.1 rfl
          exact hpk (hh ▸ hba ▸ minOf_mem hkeys)
        rw [if_neg hne]

/-- C8 counterexample: when the submitted Limit order crosses, it
consumes opposite liquidity that Cancel cannot restore.  With resting
sells at 100 and 101, submitting a Buy limit 101 for 5 trades away the
100 level (bestAsk becomes 101) and rests nothing; the following Cancel
finds nothing and bestAsk stays 101 ≠ 100. -/
theorem submit_cancel_restore_counterexample :
    (runCmds [Cmd.submit ⟨"1", Side.sell, OrderType.limit, 100, 5, "a"⟩,
      Cmd.submit ⟨"2", Side.sell, OrderType.limit, 101, 5, "b"⟩]).bestAsk = 100 ∧
    (cancelProcess (submitProcess
      (runCmds [Cmd.submit ⟨"1", Side.sell, OrderType.limit, 100, 5, "a"⟩,
        Cmd.submit ⟨"2", Side.sell, OrderType.limit, 101, 5, "b"⟩])
      ⟨"3", Side.buy, OrderType.limit, 101, 5, "c"⟩).2 "3").2.bestAsk = 101 := by
  constructor <;>
    (norm_num [runCmds, stepCmd, submitProcess, matchPhase, matchMarket, matchLimit,
      matchLoop, getBestOpposite, matchAtPrice, matchQueue, mkTrade, addToBook, setLevel,
      containsKey, replaceLevel, eraseLevel, lookupLevel, lookupIdx, insertIdx, eraseIdx,
      eraseIds, cancelProcess, removeById, findBestBidNoLock, findBestAskNoLock, maxFloat64,
      OrderBook.empty, min_def, sell_eq_buy_iff, buy_eq_sell_iff, limit_eq_market_iff,
      market_eq_limit_iff, String.reduceEq] <;> decide)

/-- C8 (amended): for every reachable book state and valid Limit order
whose Submit emits no trades (the order does not cross), Submit followed
immediately by Cancel of the order's id restores both best-price caches
to their pre-submit values. -/
theorem submit_then_cancel_restores_best (cmds : List Cmd)
    (hc : ∀ c ∈ cmds, cmdPriceOK c) (o : Order)
    (ht : o.typ = OrderType.limit) (hq : 0 < o.quantity) (hp : 0 < o.price)
    (hnt : (submitProcess (runCmds cmds) o).1 = []) :
    (cancelProcess (submitProcess (runCmds cmds) o).2 o.id).2.bestBid =
      (runCmds cmds).bestBid ∧
    (cancelProcess (submitProcess (runCmds cmds) o).2 o.id).2.bestAsk =
      (runCmds cmds).bestAsk := by
  have hInv := runCmds_inv cmds hc
  have hval : ¬(o.quantity ≤ 0 ∨ (o.typ = OrderType.limit ∧ o.price ≤ 0)) := by
    push_neg
    exact ⟨by linarith, fun _ => by linarith⟩
  have hmt : (matchPhase (runCmds cmds) o).1 = [] := by
    have hh := submitProcess_fst (runCmds cmds) o
    rw [if_neg hval] at hh
    rw [← hh]
    exact hnt
  have hmp : matchPhase (runCmds cmds) o = ([], o.quantity, runCmds cmds) :=
    matchPhase_no_trades (runCmds cmds) o hInv hq hmt
  have hsub : (submitProcess (runCmds cmds) o).2 = addToBook (runCmds cmds) o := by
    simp only [submitProcess, hmp, if_neg hval, List.getLast?_nil]
    rw [if_pos (show o.quantity > 0 ∧ o.typ = OrderType.limit from ⟨hq, ht⟩)]
  rw [hsub]
  exact cancel_addToBook_best (runCmds cmds) o hInv hp

/-- Witness for C8 (amended): a non-crossing Buy limit at 99 against a
book with one resting sell at 100 rests and is cancelled; both best
caches return to their pre-submit values. -/
theorem submit_then_cancel_restores_best_witness :
    (cancelProcess (submitProcess
        (runCmds [Cmd.submit ⟨"1", Side.sell, OrderType.limit, 100, 10, "a"⟩])
        ⟨"2", Side.buy, OrderType.limit, 99, 5, "b"⟩).2 "2").2.bestBid =
      (runCmds [Cmd.submit ⟨"1", Side.sell, OrderType.limit, 100, 10, "a"⟩]).bestBid ∧
    (cancelProcess (submitProcess
        (runCmds [Cmd.submit ⟨"1", Side.sell, OrderType.limit, 100, 10, "a"⟩])
        ⟨"2", Side.buy, OrderType.limit, 99, 5, "b"⟩).2 "2").2.bestAsk =
      (runCmds [Cmd.submit ⟨"1", Side.sell, OrderType.limit, 100, 10, "a"⟩]).bestAsk :=
  submit_then_cancel_restores_best _
    (by
      intro c hc
      fin_cases hc
      simp [cmdPriceOK, maxFloat64]
      norm_num)
    ⟨"2", Side.buy, OrderType.limit, 99, 5, "b"⟩ rfl (by norm_num) (by norm_num)
    (by
      norm_num [runCmds, stepCmd, submitProcess, matchPhase, matchMarket, matchLimit,
        matchLoop, getBestOpposite, matchAtPrice, matchQueue, mkTrade, addToBook, setLevel,
        containsKey, replaceLevel, eraseLevel, lookupLevel, lookupIdx, insertIdx, eraseIdx,
        eraseIds, OrderBook.empty, min_def, sell_eq_buy_iff, buy_eq_sell_iff,
        limit_eq_market_iff, market_eq_limit_iff, String.reduceEq])

/-- Witness for C10: cancelling the resting buy at 99 in a two-sided
book leaves the asks, best ask, last price and the other bid level
untouched. -/
theorem cancel_frame_witness :
    (cancelProcess ⟨[(99, [⟨"1", Side.buy, OrderType.limit, 99, 5, "a"⟩]),
        (98, [⟨"2", Side.buy, OrderType.limit, 98, 3, "b"⟩])],
      [(101, [⟨"3", Side.sell, OrderType.limit, 101, 5, "c"⟩])],
      [("1", Side.buy, 99), ("2", Side.buy, 98), ("3", Side.sell, 101)],
      100, 99, 101⟩ "1").1 = true ∧
    (cancelProcess ⟨[(99, [⟨"1", Side.buy, OrderType.limit, 99, 5, "a"⟩]),
        (98, [⟨"2", Side.buy, OrderType.limit, 98, 3, "b"⟩])],
      [(101, [⟨"3", Side.sell, OrderType.limit, 101, 5, "c"⟩])],
      [("1", Side.buy, 99), ("2", Side.buy, 98), ("3", Side.sell, 101)],
      100, 99, 101⟩ "1").2.lastPrice =
      (⟨[(99, [⟨"1", Side.buy, OrderType.limit, 99, 5, "a"⟩]),
        (98, [⟨"2", Side.buy, OrderType.limit, 98, 3, "b"⟩])],
      [(101, [⟨"3", Side.sell, OrderType.limit, 101, 5, "c"⟩])],
      [("1", Side.buy, 99), ("2", Side.buy, 98), ("3", Side.sell, 101)],
      100, 99, 101⟩ : OrderBook).lastPrice ∧
    (Side.buy = Side.buy →
      (cancelProcess ⟨[(99, [⟨"1", Side.buy, OrderType.limit, 99, 5, "a"⟩]),
          (98, [⟨"2", Side.buy, OrderType.limit, 98, 3, "b"⟩])],
        [(101, [⟨"3", Side.sell, OrderType.limit, 101, 5, "c"⟩])],
        [("1", Side.buy, 99), ("2", Side.buy, 98), ("3", Side.sell, 101)],
        100, 99, 101⟩ "1").2.asks =
        (⟨[(99, [⟨"1", Side.buy, OrderType.limit, 99, 5, "a"⟩]),
          (98, [⟨"2", Side.buy, OrderType.limit, 98, 3, "b"⟩])],
        [(101, [⟨"3", Side.sell, OrderType.limit, 101, 5, "c"⟩])],
        [("1", Side.buy, 99), ("2", Side.buy, 98), ("3", Side.sell, 101)],
        100, 99, 101⟩ : OrderBook).asks ∧
      (cancelProcess ⟨[(99, [⟨"1", Side.buy, OrderType.limit, 99, 5, "a"⟩]),
          (98, [⟨"2", Side.buy, OrderType.limit, 98, 3, "b"⟩])],
        [(101, [⟨"3", Side.sell, OrderType.limit, 101, 5, "c"⟩])],
        [("1", Side.buy, 99), ("2", Side.buy, 98), ("3", Side.sell, 101)],
        100, 99, 101⟩ "1").2.bestAsk =
        (⟨[(99, [⟨"1", Side.buy, OrderType.limit, 99, 5, "a"⟩]),
          (98, [⟨"2", Side.buy, OrderType.limit, 98, 3, "b"⟩])],
        [(101, [⟨"3", Side.sell, OrderType.limit, 101, 5, "c"⟩])],
        [("1", Side.buy, 99), ("2", Side.buy, 98), ("3", Side.sell, 101)],
        100, 99, 101⟩ : OrderBook).bestAsk) ∧
    (Side.buy = Side.sell →
      (cancelProcess ⟨[(99, [⟨"1", Side.buy, OrderType.limit, 99, 5, "a"⟩]),
          (98, [⟨"2", Side.buy, OrderType.limit, 98, 3, "b"⟩])],
        [(101, [⟨"3", Side.sell, OrderType.limit, 101, 5, "c"⟩])],
        [("1", Side.buy, 99), ("2", Side.buy, 98), ("3", Side.sell, 101)],
        100, 99, 101⟩ "1").2.bids =
        (⟨[(99, [⟨"1", Side.buy, OrderType.limit, 99, 5, "a"⟩]),
          (98, [⟨"2", Side.buy, OrderType.limit, 98, 3, "b"⟩])],
        [(101, [⟨"3", Side.sell, OrderType.limit, 101, 5, "c"⟩])],
        [("1", Side.buy, 99), ("2", Side.buy, 98), ("3", Side.sell, 101)],
        100, 99, 101⟩ : OrderBook).bids ∧
      (cancelProcess ⟨[(99, [⟨"1", Side.buy, OrderType.limit, 99, 5, "a"⟩]),
          (98, [⟨"2", Side.buy, OrderType.limit, 98, 3, "b"⟩])],
        [(101, [⟨"3", Side.sell, OrderType.limit, 101, 5, "c"⟩])],
        [("1", Side.buy, 99), ("2", Side.buy, 98), ("3", Side.sell, 101)],
        100, 99, 101⟩ "1").2.bestBid =
        (⟨[(99, [⟨"1", Side.buy, OrderType.limit, 99, 5, "a"⟩]),
          (98, [⟨"2", Side.buy, OrderType.limit, 98, 3, "b"⟩])],
        [(101, [⟨"3", Side.sell, OrderType.limit, 101, 5, "c"⟩])],
        [("1", Side.buy, 99), ("2", Side.buy, 98), ("3", Side.sell, 101)],
        100, 99, 101⟩ : OrderBook).bestBid) ∧
    (∀ p', p' ≠ 99 → lookupLevel (bookSideOf
        (cancelProcess ⟨[(99, [⟨"1", Side.buy, OrderType.limit, 99, 5, "a"⟩]),
          (98, [⟨"2", Side.buy, OrderType.limit, 98, 3, "b"⟩])],
        [(101, [⟨"3", Side.sell, OrderType.limit, 101, 5, "c"⟩])],
        [("1", Side.buy, 99), ("2", Side.buy, 98), ("3", Side.sell, 101)],
        100, 99, 101⟩ "1").2 Side.buy) p' =
      lookupLevel (bookSideOf (⟨[(99, [⟨"1", Side.buy, OrderType.limit, 99, 5, "a"⟩]),
          (98, [⟨"2", Side.buy, OrderType.limit, 98, 3, "b"⟩])],
        [(101, [⟨"3", Side.sell, OrderType.limit, 101, 5, "c"⟩])],
        [("1", Side.buy, 99), ("2", Side.buy, 98), ("3", Side.sell, 101)],
        100, 99, 101⟩ : OrderBook) Side.buy) p') ∧
    queueAt (cancelProcess ⟨[(99, [⟨"1", Side.buy, OrderType.limit, 99, 5, "a"⟩]),
          (98, [⟨"2", Side.buy, OrderType.limit, 98, 3, "b"⟩])],
        [(101, [⟨"3", Side.sell, OrderType.limit, 101, 5, "c"⟩])],
        [("1", Side.buy, 99), ("2", Side.buy, 98), ("3", Side.sell, 101)],
        100, 99, 101⟩ "1").2 Side.buy 99 =
      removeById (queueAt (⟨[(99, [⟨"1", Side.buy, OrderType.limit, 99, 5, "a"⟩]),
          (98, [⟨"2", Side.buy, OrderType.limit, 98, 3, "b"⟩])],
        [(101, [⟨"3", Side.sell, OrderType.limit, 101, 5, "c"⟩])],
        [("1", Side.buy, 99), ("2", Side.buy, 98), ("3", Side.sell, 101)],
        100, 99, 101⟩ : OrderBook) Side.buy 99) "1" :=
  cancel_frame _ "1" Side.buy 99 (by norm_num [lookupIdx])

/-! Identity and index bookkeeping (C6, C3). -/

theorem levelIds_cons (e : ℚ × List Order) (m : BookSide) :
    levelIds (e :: m) = e.2.map (·.id) ++ levelIds m := by
  simp [levelIds]

theorem lookupIdx_mem {idx : OrderIndex} {id : String} {v : Side × ℚ}
    (h : lookupIdx idx id = some v) : (id, v) ∈ idx := by
  induction idx with
  | nil => cases h
  | cons e es ih =>
    rw [lookupIdx] at h
    by_cases he : e.1 = id
    · rw [if_pos he] at h
      obtain ⟨a, b⟩ := e
      cases he
      cases Option.some.inj h
      exact List.mem_cons_self _ _
    · rw [if_neg he] at h
      exact List.mem_cons_of_mem _ (ih h)

theorem mem_eraseIdx {idx : OrderIndex} {id : String} {e : String × (Side × ℚ)} :
    e ∈ eraseIdx idx id ↔ e ∈ idx ∧ e.1 ≠ id := by
  induction idx with
  | nil => simp [eraseIdx]
  | cons f fs ih =>
    rw [eraseIdx]
    by_cases hf : f.1 = id
    · rw [if_pos hf, ih]
      constructor
      · rintro ⟨h1, h2⟩
        exact ⟨List.mem_cons_of_mem _ h1, h2⟩
      · rintro ⟨h1, h2⟩
        rcases List.mem_cons.mp h1 with rfl | h1'
        · exact absurd hf h2
        · exact ⟨h1', h2⟩
    · rw [if_neg hf]
      constructor
      · intro h
        rcases List.mem_cons.mp h with rfl | h'
        · exact ⟨List.mem_cons_self _ _, hf⟩
        · obtain ⟨h1, h2⟩ := ih.mp h'
          exact ⟨List.mem_cons_of_mem _ h1, h2⟩
      · rintro ⟨h1, h2⟩
        rcases List.mem_cons.mp h1 with rfl | h1'
        · exact List.mem_cons_self _ _
        · exact List.mem_cons_of_mem _ (ih.mpr ⟨h1', h2⟩)

theorem mem_eraseIds {ids : List String} :
    ∀ {idx : OrderIndex} {e : String × (Side × ℚ)},
      e ∈ eraseIds idx ids ↔ e ∈ idx ∧ e.1 ∉ ids := by
  induction ids with
  | nil => intro idx e; simp [eraseIds]
  | cons i is ih =>
    intro idx e
    rw [eraseIds, List.foldl_cons]
    constructor
    · intro h
      obtain ⟨h1, h2⟩ := ih.mp h
      obtain ⟨h3, h4⟩ := mem_eraseIdx.mp h1
      refine ⟨h3, fun hmem => ?_⟩
      rcases List.mem_cons.mp hmem with h5 | h5
      · exact h4 h5
      · exact h2 h5
    · rintro ⟨h1, h2⟩
      exact ih.mpr ⟨mem_eraseIdx.mpr ⟨h1, fun h => h2 (by rw [h]; exact List.mem_cons_self _ _)⟩,
        fun h => h2 (List.mem_cons_of_mem _ h)⟩

theorem lookupIdx_eq_none {idx : OrderIndex} {id : String} :
    lookupIdx idx id = none ↔ id ∉ idxKeys idx := by
  induction idx with
  | nil => simp [lookupIdx, idxKeys]
  | cons e es ih =>
    rw [lookupIdx]
    by_cases he : e.1 = id
    · rw [if_pos he]
      constructor
      · intro h; cases h
      · intro h
        exact absurd (List.mem_cons.mpr (Or.inl he.symm)) h
    · rw [if_neg he, ih]
      constructor
      · intro h hmem
        rcases List.mem_cons.mp hmem with h1 | h1
        · exact he h1.symm
        · exact h h1
      · intro h hmem
        exact h (List.mem_cons_of_mem _ hmem)

theorem lookupIdx_eraseIdx_self (idx : OrderIndex) (id : String) :
    lookupIdx (eraseIdx idx id) id = none := by
  rcases h : lookupIdx (eraseIdx idx id) id with _ | v
  · rfl
  · exact absurd rfl (mem_eraseIdx.mp (lookupIdx_mem h)).2

theorem matchQueue_ids_decomp (o : Order) (price : ℚ) :
    ∀ (q : ℚ) (ℓ : List Order),
      ℓ.map (·.id) =
        (matchQueue o price q ℓ).2.2.2 ++ (matchQueue o price q ℓ).2.2.1.map (·.id) := by
  intro q ℓ
  induction ℓ generalizing q with
  | nil => rfl
  | cons front rest ih =>
    by_cases hq : q > 0
    · by_cases hfull : front.quantity - min q front.quantity ≤ 0
      · rw [matchQueue, if_pos hq, if_pos hfull]
        exact congrArg (List.cons front.id) (ih _)
      · rw [matchQueue, if_pos hq, if_neg hfull]
        rfl
    · rw [matchQueue, if_neg hq]
      rfl

theorem levelIds_decomp {m : BookSide} {p : ℚ} {ℓ : List Order}
    (hnd : (keys m).Nodup) (hl : lookupLevel m p = some ℓ) :
    ∃ X Y, levelIds m = X ++ ℓ.map (·.id) ++ Y ∧
      (∀ ℓ', levelIds (setLevel m p ℓ') = X ++ ℓ'.map (·.id) ++ Y) ∧
      levelIds (eraseLevel m p) = X ++ Y := by
  induction m with
  | nil => cases hl
  | cons e es ih =>
    by_cases he : e.1 = p
    · rw [lookupLevel, if_pos he] at hl
      have hℓ : e.2 = ℓ := Option.some.inj hl
      have hpes : p ∉ keys es := by
        intro hmem
        exact (List.nodup_cons.mp hnd).1 (by show e.1 ∈ keys es; rw [he]; exact hmem)
      refine ⟨[], levelIds es, ?_, ?_, ?_⟩
      · rw [levelIds_cons, hℓ, List.nil_append]
      · intro ℓ'
        have hck : containsKey (e :: es) p = true := by
          rw [containsKey, if_pos he]
        rw [setLevel, if_pos hck, replaceLevel, if_pos he, levelIds_cons, List.nil_append]
      · rw [eraseLevel, if_pos he, eraseLevel_not_mem es p hpes, List.nil_append]
    · rw [lookupLevel, if_neg he] at hl
      have hnd' : (keys es).Nodup := (List.nodup_cons.mp hnd).2
      obtain ⟨X, Y, h1, h2, h3⟩ := ih hnd' hl
      have hpk : p ∈ keys es := mem_keys_of_lookupLevel hl
      refine ⟨e.2.map (·.id) ++ X, Y, ?_, ?_, ?_⟩
      · rw [levelIds_cons, h1]
        simp [List.append_assoc]
      · intro ℓ'
        have hck : containsKey (e :: es) p = true := by
          rw [containsKey, if_neg he]
          exact containsKey_iff.mpr hpk
        have hck2 : containsKey es p = true := containsKey_iff.mpr hpk
        have h2' : levelIds (replaceLevel es p ℓ') = X ++ ℓ'.map (·.id) ++ Y := by
          have h2'' := h2 ℓ'
          rwa [setLevel, if_pos hck2] at h2''
        rw [setLevel, if_pos hck, replaceLevel, if_neg he, levelIds_cons, h2']
        simp [List.append_assoc]
      · rw [eraseLevel, if_neg he, levelIds_cons, h3]
        simp [List.append_assoc]

theorem levelIds_set_new {m : BookSide} {p : ℚ} (ℓ' : List Order) (h : p ∉ keys m) :
    levelIds (setLevel m p ℓ') = ℓ'.map (·.id) ++ levelIds m := by
  have hck : containsKey m p = false := by
    rcases hc : containsKey m p
    · rfl
    · exact absurd (containsKey_iff.mp hc) h
  rw [setLevel, hck]
  simp [levelIds_cons]

theorem nodup_parts_gen {α : Type _} {P R S T : List α}
    (h : (P ++ (R ++ (S ++ T))).Nodup) :
    (P ++ (S ++ T)).Nodup ∧ (P ++ T).Nodup ∧
      ∀ x ∈ R, x ∉ P ∧ x ∉ S ∧ x ∉ T := by
  have hPn : P.Nodup := h.of_append_left
  have hdis : List.Disjoint P (R ++ (S ++ T)) := List.disjoint_of_nodup_append h
  have h2 : (R ++ (S ++ T)).Nodup := h.of_append_right
  have hdis2 : List.Disjoint R (S ++ T) := List.disjoint_of_nodup_append h2
  have h3 : (S ++ T).Nodup := h2.of_append_right
  refine ⟨?_, ?_, ?_⟩
  · exact List.Nodup.append hPn h3 (fun x hx hx2 => hdis hx (List.mem_append_right R hx2))
  · exact List.Nodup.append hPn h3.of_append_right
      (fun x hx hx2 => hdis hx (List.mem_append_right R (List.mem_append_right S hx2)))
  · intro x hx
    exact ⟨fun hP => hdis hP (List.mem_append_left _ hx),
      fun hS => hdis2 hx (List.mem_append_left _ hS),
      fun hT => hdis2 hx (List.mem_append_right _ hT)⟩

theorem nodup_insert_mid {α : Type _} {P S T : List α} {x : α}
    (h : (P ++ (S ++ T)).Nodup) (hx : x ∉ P ∧ x ∉ S ∧ x ∉ T) :
    (P ++ (S ++ x :: T)).Nodup := by
  have h' : ((P ++ S) ++ x :: T).Nodup := by
    rw [List.nodup_middle]
    refine List.nodup_cons.mpr ⟨?_, by simpa [List.append_assoc] using h⟩
    intro hmem
    rcases List.mem_append.mp hmem with hmem | hmem
    · rcases List.mem_append.mp hmem with hmem | hmem
      · exact hx.1 hmem
      · exact hx.2.1 hmem
    · exact hx.2.2 hmem
  simpa [List.append_assoc] using h'

theorem removeById_ids_sublist (ℓ : List Order) (id : String) :
    List.Sublist ((removeById ℓ id).map (·.id)) (ℓ.map (·.id)) := by
  induction ℓ with
  | nil => exact List.Sublist.refl _
  | cons o rest ih =>
    rw [removeById]
    by_cases ho : o.id = id
    · rw [if_pos ho]
      exact List.sublist_cons_self _ _
    · rw [if_neg ho]
      exact List.Sublist.cons₂ _ ih

theorem mem_removeById_of_ne {ℓ : List Order} {id : String} {r : Order}
    (hr : r ∈ ℓ) (hne : r.id ≠ id) : r ∈ removeById ℓ id := by
  induction ℓ with
  | nil => cases hr
  | cons o rest ih =>
    rw [removeById]
    by_cases ho : o.id = id
    · rw [if_pos ho]
      rcases List.mem_cons.mp hr with rfl | h
      · exact absurd ho hne
      · exact h
    · rw [if_neg ho]
      rcases List.mem_cons.mp hr with rfl | h
      · exact List.mem_cons_self _ _
      · exact List.mem_cons_of_mem _ (ih h)

theorem removeById_sublist (ℓ : List Order) (id : String) :
    List.Sublist (removeById ℓ id) ℓ := by
  induction ℓ with
  | nil => exact List.Sublist.refl _
  | cons o rest ih =>
    rw [removeById]
    by_cases ho : o.id = id
    · rw [if_pos ho]
      exact List.sublist_cons_self _ _
    · rw [if_neg ho]
      exact List.Sublist.cons₂ _ ih

theorem not_mem_removeById_ids {id : String} :
    ∀ {ℓ : List Order}, (ℓ.map (·.id)).Nodup → id ∉ (removeById ℓ id).map (·.id) := by
  intro ℓ
  induction ℓ with
  | nil => intro _ h; cases h
  | cons o rest ih =>
    intro hnd
    rw [removeById]
    by_cases ho : o.id = id
    · rw [if_pos ho]
      intro hmem
      exact (List.nodup_cons.mp hnd).1 (by show o.id ∈ rest.map (·.id); rw [ho]; exact hmem)
    · rw [if_neg ho]
      intro hmem
      rcases List.mem_cons.mp hmem with h | h
      · exact ho h.symm
      · exact ih (List.nodup_cons.mp hnd).2 h

theorem nodup_ids_inj :
    ∀ {ℓ : List Order}, (ℓ.map (·.id)).Nodup →
      ∀ x ∈ ℓ, ∀ y ∈ ℓ, x.id = y.id → x = y := by
  intro ℓ
  induction ℓ with
  | nil => intro _ x hx; cases hx
  | cons o rest ih =>
    intro hnd x hx y hy hxy
    have hhead : o.id ∉ rest.map (·.id) := (List.nodup_cons.mp hnd).1
    rcases List.mem_cons.mp hx with rfl | hx' <;> rcases List.mem_cons.mp hy with rfl | hy'
    · rfl
    · exact absurd (List.mem_map.mpr ⟨y, hy', hxy.symm⟩) hhead
    · exact absurd (List.mem_map.mpr ⟨x, hx', hxy⟩) hhead
    · exact ih (List.nodup_cons.mp hnd).2 x hx' y hy' hxy

theorem pair_sublist_of_decomp {α : Type _} {u₁ u₂ : List α} {a b : α} (hb : b ∈ u₂) :
    List.Sublist [a, b] (u₁ ++ a :: u₂) :=
  (List.Sublist.cons₂ a (List.singleton_sublist.mpr hb)).trans
    (List.sublist_append_right u₁ _)

theorem pair_sublist_trans {α : Type _} {a b : α} :
    ∀ {l u : List α}, List.Sublist l u → u.Nodup → List.Sublist [a, b] u →
      a ∈ l → b ∈ l → List.Sublist [a, b] l := by
  intro l u hlu
  induction hlu with
  | slnil => intro _ _ ha _; cases ha
  | @cons l' u' x hlu ih =>
    intro hnd hab ha hb
    have hxn : x ∉ u' := (List.nodup_cons.mp hnd).1
    rcases List.sublist_cons_iff.mp hab with hab' | ⟨r, hr, hr'⟩
    · exact ih (List.nodup_cons.mp hnd).2 hab' ha hb
    · rw [List.cons.injEq] at hr
      obtain ⟨hax, hbr⟩ := hr
      exact absurd (hlu.subset ha) (by rw [hax]; exact hxn)
  | @cons₂ l' u' x hlu ih =>
    intro hnd hab ha hb
    have hxn : x ∉ u' := (List.nodup_cons.mp hnd).1
    rcases List.sublist_cons_iff.mp hab with hab' | ⟨r, hr, hr'⟩
    · have hau : a ∈ u' := hab'.subset (List.mem_cons_self _ _)
      have hbu : b ∈ u' := hab'.subset (List.mem_cons_of_mem _ (List.mem_cons_self _ _))
      have ha' : a ∈ l' := by
        rcases List.mem_cons.mp ha with rfl | hh
        · exact absurd hau hxn
        · exact hh
      have hb' : b ∈ l' := by
        rcases List.mem_cons.mp hb with rfl | hh
        · exact absurd hbu hxn
        · exact hh
      exact List.Sublist.cons x (ih (List.nodup_cons.mp hnd).2 hab' ha' hb')
    · rw [List.cons.injEq] at hr
      obtain ⟨hax, hbr⟩ := hr
      have hbu : b ∈ u' := hr'.subset (by rw [← hbr]; exact List.mem_cons_self _ _)
      have hb' : b ∈ l' := by
        rcases List.mem_cons.mp hb with rfl | hh
        · exact absurd hbu hxn
        · exact hh
      rw [hax]
      exact List.Sublist.cons₂ x (List.singleton_sublist.mpr hb')

theorem pair_sublist_decomp {α : Type _} {a b : α} :
    ∀ {u : List α}, List.Sublist [a, b] u → ∃ u₁ u₂, u = u₁ ++ a :: u₂ ∧ b ∈ u₂ := by
  intro u
  induction u with
  | nil => intro h; cases (List.sublist_nil.mp h)
  | cons x u' ih =>
    intro h
    cases h with
    | cons _ h' =>
      obtain ⟨u₁, u₂, rfl, hb⟩ := ih h'
      exact ⟨x :: u₁, u₂, rfl, hb⟩
    | cons₂ _ h' =>
      exact ⟨[], u', rfl, List.singleton_sublist.mp h'⟩

/-! Preservation of the index invariant (C6, C3). -/

theorem matchAtPrice_invIdx (ob : OrderBook) (o : Order) (q price : ℚ)
    (hB : InvBook ob) (hI : InvIdx ob) : InvIdx (matchAtPrice ob o q price).2.2 := by
  obtain ⟨hnod, hptr, hidx⟩ := hI
  by_cases hside : o.side = Side.buy
  · rcases hl : lookupLevel ob.asks price with _ | ℓ
    · have hres : (matchAtPrice ob o q price).2.2 = ob := by
        simp [matchAtPrice, hside, hl]
      rw [hres]
      exact ⟨hnod, hptr, hidx⟩
    · by_cases hnil : ℓ = []
      · have hres : (matchAtPrice ob o q price).2.2 = ob := by
          simp [matchAtPrice, hside, hl, hnil]
        rw [hres]
        exact ⟨hnod, hptr, hidx⟩
      · obtain ⟨X, Y, hXY, hset, herase⟩ := levelIds_decomp hB.2.1.1 hl
        have hids := matchQueue_ids_decomp o price q ℓ
        have hnodG : ((levelIds ob.bids ++ X) ++ ((matchQueue o price q ℓ).2.2.2 ++
            ((matchQueue o price q ℓ).2.2.1.map (·.id) ++ Y))).Nodup := by
          have h0 := hnod
          rw [restingIds, hXY, hids] at h0
          simpa [List.append_assoc] using h0
        obtain ⟨hnodS, hnodE, hR⟩ := nodup_parts_gen hnodG
        by_cases hre : (matchQueue o price q ℓ).2.2.1 = []
        · have hres : ((matchAtPrice ob o q price).2.2.bids = ob.bids ∧
              (matchAtPrice ob o q price).2.2.asks = eraseLevel ob.asks price) ∧
              (matchAtPrice ob o q price).2.2.orders =
                eraseIds ob.orders (matchQueue o price q ℓ).2.2.2 := by
            by_cases hbest : price = ob.bestAsk
            · subst hbest
              simp [matchAtPrice, hside, hl, hnil, hre]
            · simp [matchAtPrice, hside, hl, hnil, hre, hbest]
          refine ⟨?_, ?_, ?_⟩
          · rw [restingIds, hres.1.1, hres.1.2, herase]
            simpa [List.append_assoc] using hnodE
          · intro e he
            rw [hres.2] at he
            obtain ⟨he1, he2⟩ := mem_eraseIds.mp he
            obtain ⟨ℓe, hle, r, hrmem, hrid⟩ := hptr e he1
            by_cases hes : e.2.1 = Side.buy
            · refine ⟨ℓe, ?_, r, hrmem, hrid⟩
              rw [bookSideOf, if_pos hes, hres.1.1]
              rw [bookSideOf, if_pos hes] at hle
              exact hle
            · by_cases hep : e.2.2 = price
              · exfalso
                rw [bookSideOf, if_neg hes, hep] at hle
                have hℓe : ℓe = ℓ := Option.some.inj (hle.symm.trans hl)
                rw [hℓe] at hrmem
                have hin : e.1 ∈ (matchQueue o price q ℓ).2.2.2 ++
                    (matchQueue o price q ℓ).2.2.1.map (·.id) := by
                  rw [← hids]
                  exact List.mem_map.mpr ⟨r, hrmem, hrid⟩
                rw [hre] at hin
                rcases List.mem_append.mp hin with h | h
                · exact he2 h
                · cases h
              · refine ⟨ℓe, ?_, r, hrmem, hrid⟩
                rw [bookSideOf, if_neg hes] at hle ⊢
                rw [hres.1.2, lookupLevel_eraseLevel_ne _ _ _ hep]
                exact hle
          · intro s p' ℓ'' hlk r' hr'
            rw [hres.2]
            by_cases hs : s = Side.buy
            · rw [bookSideOf, if_pos hs, hres.1.1] at hlk
              have hmem : (r'.id, s, p') ∈ ob.orders :=
                hidx s p' ℓ'' (by rw [bookSideOf, if_pos hs]; exact hlk) r' hr'
              refine mem_eraseIds.mpr ⟨hmem, fun hrem => ?_⟩
              have hrb : r'.id ∈ levelIds ob.bids :=
                mem_levelIds.mpr ⟨(p', ℓ''), lookupLevel_mem hlk, r', hr', rfl⟩
              exact (hR _ hrem).1 (List.mem_append_left _ hrb)
            · by_cases hp' : p' = price
              · exfalso
                rw [bookSideOf, if_neg hs, hres.1.2, hp', lookupLevel_eraseLevel_self] at hlk
                cases hlk
              · rw [bookSideOf, if_neg hs, hres.1.2,
                  lookupLevel_eraseLevel_ne _ _ _ hp'] at hlk
                have hmem : (r'.id, s, p') ∈ ob.orders :=
                  hidx s p' ℓ'' (by rw [bookSideOf, if_neg hs]; exact hlk) r' hr'
                refine mem_eraseIds.mpr ⟨hmem, fun hrem => ?_⟩
                have hxy : r'.id ∈ X ++ Y := by
                  rw [← herase]
                  exact mem_levelIds.mpr ⟨(p', ℓ''),
                    mem_eraseLevel.mpr ⟨lookupLevel_mem hlk, hp'⟩, r', hr', rfl⟩
                rcases List.mem_append.mp hxy with h | h
                · exact (hR _ hrem).1 (List.mem_append_right _ h)
                · exact (hR _ hrem).2.2 h
        · have hres : ((matchAtPrice ob o q price).2.2.bids = ob.bids ∧
              (matchAtPrice ob o q price).2.2.asks =
                setLevel ob.asks price (matchQueue o price q ℓ).2.2.1) ∧
              (matchAtPrice ob o q price).2.2.orders =
                eraseIds ob.orders (matchQueue o price q ℓ).2.2.2 := by
            simp [matchAtPrice, hside, hl, hnil, hre]
          refine ⟨?_, ?_, ?_⟩
          · rw [restingIds, hres.1.1, hres.1.2, hset]
            simpa [List.append_assoc] using hnodS
          · intro e he
            rw [hres.2] at he
            obtain ⟨he1, he2⟩ := mem_eraseIds.mp he
            obtain ⟨ℓe, hle, r, hrmem, hrid⟩ := hptr e he1
            by_cases hes : e.2.1 = Side.buy
            · refine ⟨ℓe, ?_, r, hrmem, hrid⟩
              rw [bookSideOf, if_pos hes, hres.1.1]
              rw [bookSideOf, if_pos hes] at hle
              exact hle
            · by_cases hep : e.2.2 = price
              · rw [bookSideOf, if_neg hes, hep] at hle
                have hℓe : ℓe = ℓ := Option.some.inj (hle.symm.trans hl)
                rw [hℓe] at hrmem
                have hin : e.1 ∈ (matchQueue o price q ℓ).2.2.2 ++
                    (matchQueue o price q ℓ).2.2.1.map (·.id) := by
                  rw [← hids]
                  exact List.mem_map.mpr ⟨r, hrmem, hrid⟩
                have hinrem : e.1 ∈ (matchQueue o price q ℓ).2.2.1.map (·.id) := by
                  rcases List.mem_append.mp hin with h | h
                  · exact absurd h he2
                  · exact h
                obtain ⟨r', hr', hrid'⟩ := List.mem_map.mp hinrem
                refine ⟨(matchQueue o price q ℓ).2.2.1, ?_, r', hr', hrid'⟩
                rw [bookSideOf, if_neg hes, hres.1.2, hep]
                exact lookupLevel_setLevel_self _ _ _
              · refine ⟨ℓe, ?_, r, hrmem, hrid⟩
                rw [bookSideOf, if_neg hes] at hle ⊢
                rw [hres.1.2, lookupLevel_setLevel_ne _ _ _ _ hep]
                exact hle
          · intro s p' ℓ'' hlk r' hr'
            rw [hres.2]
            by_cases hs : s = Side.buy
            · rw [bookSideOf, if_pos hs, hres.1.1] at hlk
              have hmem : (r'.id, s, p') ∈ ob.orders :=
                hidx s p' ℓ'' (by rw [bookSideOf, if_pos hs]; exact hlk) r' hr'
              refine mem_eraseIds.mpr ⟨hmem, fun hrem => ?_⟩
              have hrb : r'.id ∈ levelIds ob.bids :=
                mem_levelIds.mpr ⟨(p', ℓ''), lookupLevel_mem hlk, r', hr', rfl⟩
              exact (hR _ hrem).1 (List.mem_append_left _ hrb)
            · by_cases hp' : p' = price
              · rw [bookSideOf, if_neg hs, hres.1.2, hp', lookupLevel_setLevel_self] at hlk
                have hℓ'' : ℓ'' = (matchQueue o price q ℓ).2.2.1 :=
                  (Option.some.inj hlk).symm
                subst hℓ''
                obtain ⟨r0, hr0, hrid0⟩ := matchQueue_rem_ids o price q ℓ r' hr'
                have hmem : (r'.id, s, p') ∈ ob.orders := by
                  have h0 := hidx s p' ℓ (by rw [bookSideOf, if_neg hs, hp']; exact hl) r0 hr0
                  rw [hrid0] at h0
                  exact h0
                refine mem_eraseIds.mpr ⟨hmem, fun hrem => ?_⟩
                exact (hR _ hrem).2.1 (List.mem_map.mpr ⟨r', hr', rfl⟩)
              · rw [bookSideOf, if_neg hs, hres.1.2,
                  lookupLevel_setLevel_ne _ _ _ _ hp'] at hlk
                have hmem : (r'.id, s, p') ∈ ob.orders :=
                  hidx s p' ℓ'' (by rw [bookSideOf, if_neg hs]; exact hlk) r' hr'
                refine mem_eraseIds.mpr ⟨hmem, fun hrem => ?_⟩
                have hxy : r'.id ∈ X ++ Y := by
                  rw [← herase]
                  exact mem_levelIds.mpr ⟨(p', ℓ''),
                    mem_eraseLevel.mpr ⟨lookupLevel_mem hlk, hp'⟩, r', hr', rfl⟩
                rcases List.mem_append.mp hxy with h | h
                · exact (hR _ hrem).1 (List.mem_append_right _ h)
                · exact (hR _ hrem).2.2 h
  · rcases hl : lookupLevel ob.bids price with _ | ℓ
    · have hres : (matchAtPrice ob o q price).2.2 = ob := by
        simp [matchAtPrice, hside, hl]
      rw [hres]
      exact ⟨hnod, hptr, hidx⟩
    · by_cases hnil : ℓ = []
      · have hres : (matchAtPrice ob o q price).2.2 = ob := by
          simp [matchAtPrice, hside, hl, hnil]
        rw [hres]
        exact ⟨hnod, hptr, hidx⟩
      · obtain ⟨X, Y, hXY, hset, herase⟩ := levelIds_decomp hB.1.1 hl
        have hids := matchQueue_ids_decomp o price q ℓ
        have hnodG : (X ++ ((matchQueue o price q ℓ).2.2.2 ++
            ((matchQueue o price q ℓ).2.2.1.map (·.id) ++
              (Y ++ levelIds ob.asks)))).Nodup := by
          have h0 := hnod
          rw [restingIds, hXY, hids] at h0
          simpa [List.append_assoc] using h0
        obtain ⟨hnodS, hnodE, hR⟩ := nodup_parts_gen hnodG
        by_cases hre : (matchQueue o price q ℓ).2.2.1 = []
        · have hres : ((matchAtPrice ob o q price).2.2.bids = eraseLevel ob.bids price ∧
              (matchAtPrice ob o q price).2.2.asks = ob.asks) ∧
              (matchAtPrice ob o q price).2.2.orders =
                eraseIds ob.orders (matchQueue o price q ℓ).2.2.2 := by
            by_cases hbest : price = ob.bestBid
            · subst hbest
              simp [matchAtPrice, hside, hl, hnil, hre]
            · simp [matchAtPrice, hside, hl, hnil, hre, hbest]
          refine ⟨?_, ?_, ?_⟩
          · rw [restingIds, hres.1.1, hres.1.2, herase]
            simpa [List.append_assoc] using hnodE
          · intro e he
            rw [hres.2] at he
            obtain ⟨he1, he2⟩ := mem_eraseIds.mp he
            obtain ⟨ℓe, hle, r, hrmem, hrid⟩ := hptr e he1
            by_cases hes : e.2.1 = Side.buy
            · by_cases hep : e.2.2 = price
              · exfalso
                rw [bookSideOf, if_pos hes, hep] at hle
                have hℓe : ℓe = ℓ := Option.some.inj (hle.symm.trans hl)
                rw [hℓe] at hrmem
                have hin : e.1 ∈ (matchQueue o price q ℓ).2.2.2 ++
                    (matchQueue o price q ℓ).2.2.1.map (·.id) := by
                  rw [← hids]
                  exact List.mem_map.mpr ⟨r, hrmem, hrid⟩
                rw [hre] at hin
                rcases List.mem_append.mp hin with h | h
                · exact he2 h
                · cases h
              · refine ⟨ℓe, ?_, r, hrmem, hrid⟩
                rw [bookSideOf, if_pos hes] at hle ⊢
                rw [hres.1.1, lookupLevel_eraseLevel_ne _ _ _ hep]
                exact hle
            · refine ⟨ℓe, ?_, r, hrmem, hrid⟩
              rw [bookSideOf, if_neg hes, hres.1.2]
              rw [bookSideOf, if_neg hes] at hle
              exact hle
          · intro s p' ℓ'' hlk r' hr'
            rw [hres.2]
            by_cases hs : s = Side.buy
            · by_cases hp' : p' = price
              · exfalso
                rw [bookSideOf, if_pos hs, hres.1.1, hp', lookupLevel_eraseLevel_self] at hlk
                cases hlk
              · rw [bookSideOf, if_pos hs, hres.1.1,
                  lookupLevel_eraseLevel_ne _ _ _ hp'] at hlk
                have hmem : (r'.id, s, p') ∈ ob.orders :=
                  hidx s p' ℓ'' (by rw [bookSideOf, if_pos hs]; exact hlk) r' hr'
                refine mem_eraseIds.mpr ⟨hmem, fun hrem => ?_⟩
                have hxy : r'.id ∈ X ++ Y := by
                  rw [← herase]
                  exact mem_levelIds.mpr ⟨(p', ℓ''),
                    mem_eraseLevel.mpr ⟨lookupLevel_mem hlk, hp'⟩, r', hr', rfl⟩
                rcases List.mem_append.mp hxy with h | h
                · exact (hR _ hrem).1 h
                · exact (hR _ hrem).2.2 (List.mem_append_left _ h)
            · rw [bookSideOf, if_neg hs, hres.1.2] at hlk
              have hmem : (r'.id, s, p') ∈ ob.orders :=
                hidx s p' ℓ'' (by rw [bookSideOf, if_neg hs]; exact hlk) r' hr'
              refine mem_eraseIds.mpr ⟨hmem, fun hrem => ?_⟩
              have hra : r'.id ∈ levelIds ob.asks :=
                mem_levelIds.mpr ⟨(p', ℓ''), lookupLevel_mem hlk, r', hr', rfl⟩
              exact (hR _ hrem).2.2 (List.mem_append_right _ hra)
        · have hres : ((matchAtPrice ob o q price).2.2.bids =
                setLevel ob.bids price (matchQueue o price q ℓ).2.2.1 ∧
              (matchAtPrice ob o q price).2.2.asks = ob.asks) ∧
              (matchAtPrice ob o q price).2.2.orders =
                eraseIds ob.orders (matchQueue o price q ℓ).2.2.2 := by
            simp [matchAtPrice, hside, hl, hnil, hre]
          refine ⟨?_, ?_, ?_⟩
          · rw [restingIds, hres.1.1, hres.1.2, hset]
            simpa [List.append_assoc] using hnodS
          · intro e he
            rw [hres.2] at he
            obtain ⟨he1, he2⟩ := mem_eraseIds.mp he
            obtain ⟨ℓe, hle, r, hrmem, hrid⟩ := hptr e he1
            by_cases hes : e.2.1 = Side.buy
            · by_cases hep : e.2.2 = price
              · rw [bookSideOf, if_pos hes, hep] at hle
                have hℓe : ℓe = ℓ := Option.some.inj (hle.symm.trans hl)
                rw [hℓe] at hrmem
                have hin : e.1 ∈ (matchQueue o price q ℓ).2.2.2 ++
                    (matchQueue o price q ℓ).2.2.1.map (·.id) := by
                  rw [← hids]
                  exact List.mem_map.mpr ⟨r, hrmem, hrid⟩
                have hinrem : e.1 ∈ (matchQueue o price q ℓ).2.2.1.map (·.id) := by
                  rcases List.mem_append.mp hin with h | h
                  · exact absurd h he2
                  · exact h
                obtain ⟨r', hr', hrid'⟩ := List.mem_map.mp hinrem
                refine ⟨(matchQueue o price q ℓ).2.2.1, ?_, r', hr', hrid'⟩
                rw [bookSideOf, if_pos hes, hres.1.1, hep]
                exact lookupLevel_setLevel_self _ _ _
              · refine ⟨ℓe, ?_, r, hrmem, hrid⟩
                rw [bookSideOf, if_pos hes] at hle ⊢
                rw [hres.1.1, lookupLevel_setLevel_ne _ _ _ _ hep]
                exact hle
            · refine ⟨ℓe, ?_, r, hrmem, hrid⟩
              rw [bookSideOf, if_neg hes, hres.1.2]
              rw [bookSideOf, if_neg hes] at hle
              exact hle
          · intro s p' ℓ'' hlk r' hr'
            rw [hres.2]
            by_cases hs : s = Side.buy
            · by_cases hp' : p' = price
              · rw [bookSideOf, if_pos hs, hres.1.1, hp', lookupLevel_setLevel_self] at hlk
                have hℓ'' : ℓ'' = (matchQueue o price q ℓ).2.2.1 :=
                  (Option.some.inj hlk).symm
                subst hℓ''
                obtain ⟨r0, hr0, hrid0⟩ := matchQueue_rem_ids o price q ℓ r' hr'
                have hmem : (r'.id, s, p') ∈ ob.orders := by
                  have h0 := hidx s p' ℓ (by rw [bookSideOf, if_pos hs, hp']; exact hl) r0 hr0
                  rw [hrid0] at h0
                  exact h0
                refine mem_eraseIds.mpr ⟨hmem, fun hrem => ?_⟩
                exact (hR _ hrem).2.1 (List.mem_map.mpr ⟨r', hr', rfl⟩)
              · rw [bookSideOf, if_pos hs, hres.1.1,
                  lookupLevel_setLevel_ne _ _ _ _ hp'] at hlk
                have hmem : (r'.id, s, p') ∈ ob.orders :=
                  hidx s p' ℓ'' (by rw [bookSideOf, if_pos hs]; exact hlk) r' hr'
                refine mem_eraseIds.mpr ⟨hmem, fun hrem => ?_⟩
                have hxy : r'.id ∈ X ++ Y := by
                  rw [← herase]
                  exact mem_levelIds.mpr ⟨(p', ℓ''),
                    mem_eraseLevel.mpr ⟨lookupLevel_mem hlk, hp'⟩, r', hr', rfl⟩
                rcases List.mem_append.mp hxy with h | h
                · exact (hR _ hrem).1 h
                · exact (hR _ hrem).2.2 (List.mem_append_left _ h)
            · rw [bookSideOf, if_neg hs, hres.1.2] at hlk
              have hmem : (r'.id, s, p') ∈ ob.orders :=
                hidx s p' ℓ'' (by rw [bookSideOf, if_neg hs]; exact hlk) r' hr'
              refine mem_eraseIds.mpr ⟨hmem, fun hrem => ?_⟩
              have hra : r'.id ∈ levelIds ob.asks :=
                mem_levelIds.mpr ⟨(p', ℓ''), lookupLevel_mem hlk, r', hr', rfl⟩
              exact (hR _ hrem).2.2 (List.mem_append_right _ hra)

theorem matchLoop_invIdx (isLimit : Bool) (o : Order) :
    ∀ (fuel : Nat) (ob : OrderBook) (q : ℚ), InvBook ob → InvIdx ob →
      InvIdx (matchLoop isLimit o fuel ob q).2.2 := by
  intro fuel
  induction fuel with
  | zero => intro ob q _ hI; exact hI
  | succ n ih =>
    intro ob q hB hI
    rw [matchLoop]
    by_cases hq : q > 0
    · rw [if_pos hq]
      by_cases hoppz : getBestOpposite ob o.side = 0
      · rw [if_pos hoppz]; exact hI
      · rw [if_neg hoppz]
        by_cases hcond : isLimit = true ∧
            ((o.side = Side.buy ∧ getBestOpposite ob o.side > o.price) ∨
             (o.side = Side.sell ∧ getBestOpposite ob o.side < o.price))
        · rw [if_pos hcond]; exact hI
        · rw [if_neg hcond]
          exact ih _ _ (matchAtPrice_inv ob o q _ hB) (matchAtPrice_invIdx ob o q _ hB hI)
    · rw [if_neg hq]; exact hI

theorem matchPhase_invIdx (ob : OrderBook) (o : Order) (hB : InvBook ob)
    (hI : InvIdx ob) : InvIdx (matchPhase ob o).2.2 := by
  rw [matchPhase]
  by_cases ht : o.typ = OrderType.market
  · rw [if_pos ht, matchMarket]
    exact matchLoop_invIdx false o _ ob o.quantity hB hI
  · rw [if_neg ht, matchLimit]
    exact matchLoop_invIdx true o _ ob o.quantity hB hI

theorem addToBook_invIdx (ob : OrderBook) (o : Order) (hB : InvBook ob)
    (hI : InvIdx ob) (hfresh : o.id ∉ restingIds ob) : InvIdx (addToBook ob o) := by
  obtain ⟨hnod, hptr, hidx⟩ := hI
  by_cases hside : o.side = Side.buy
  · rcases hl : lookupLevel ob.bids o.price with _ | ℓ₀
    · have hknot : o.price ∉ keys ob.bids := lookupLevel_eq_none.mp hl
      have hres : (addToBook ob o).bids = setLevel ob.bids o.price [o] ∧
          (addToBook ob o).asks = ob.asks ∧
          (addToBook ob o).orders = insertIdx ob.orders o.id (Side.buy, o.price) := by
        simp [addToBook, hside, hl]
      refine ⟨?_, ?_, ?_⟩
      · rw [restingIds, hres.1, hres.2.1, levelIds_set_new _ hknot]
        simpa [restingIds, List.append_assoc] using
          (List.nodup_cons.mpr ⟨hfresh, hnod⟩ : (o.id :: restingIds ob).Nodup)
      · intro e he
        rw [hres.2.2, insertIdx] at he
        rcases List.mem_cons.mp he with rfl | he'
        · refine ⟨[o], ?_, o, List.mem_cons_self _ _, rfl⟩
          rw [bookSideOf, if_pos rfl, hres.1]
          exact lookupLevel_setLevel_self _ _ _
        · obtain ⟨he1, hne⟩ := mem_eraseIdx.mp he'
          obtain ⟨ℓe, hle, r, hrmem, hrid⟩ := hptr e he1
          by_cases hes : e.2.1 = Side.buy
          · by_cases hep : e.2.2 = o.price
            · exfalso
              rw [bookSideOf, if_pos hes, hep, hl] at hle
              cases hle
            · refine ⟨ℓe, ?_, r, hrmem, hrid⟩
              rw [bookSideOf, if_pos hes, hres.1, lookupLevel_setLevel_ne _ _ _ _ hep]
              rw [bookSideOf, if_pos hes] at hle
              exact hle
          · refine ⟨ℓe, ?_, r, hrmem, hrid⟩
            rw [bookSideOf, if_neg hes, hres.2.1]
            rw [bookSideOf, if_neg hes] at hle
            exact hle
      · intro s p' ℓ'' hlk r' hr'
        rw [hres.2.2, insertIdx]
        by_cases hs : s = Side.buy
        · by_cases hp' : p' = o.price
          · rw [bookSideOf, if_pos hs, hres.1, hp', lookupLevel_setLevel_self] at hlk
            have hℓ'' : ℓ'' = [o] := (Option.some.inj hlk).symm
            subst hℓ''
            rcases List.mem_singleton.mp hr' with rfl
            rw [hs, hp']
            exact List.mem_cons_self _ _
          · rw [bookSideOf, if_pos hs, hres.1, lookupLevel_setLevel_ne _ _ _ _ hp'] at hlk
            have hmem := hidx s p' ℓ'' (by rw [bookSideOf, if_pos hs]; exact hlk) r' hr'
            have hrne : r'.id ≠ o.id := by
              intro hh
              apply hfresh
              rw [← hh]
              exact List.mem_append_left _
                (mem_levelIds.mpr ⟨(p', ℓ''), lookupLevel_mem hlk, r', hr', rfl⟩)
            exact List.mem_cons_of_mem _ (mem_eraseIdx.mpr ⟨hmem, hrne⟩)
        · rw [bookSideOf, if_neg hs, hres.2.1] at hlk
          have hmem := hidx s p' ℓ'' (by rw [bookSideOf, if_neg hs]; exact hlk) r' hr'
          have hrne : r'.id ≠ o.id := by
            intro hh
            apply hfresh
            rw [← hh]
            exact List.mem_append_right _
              (mem_levelIds.mpr ⟨(p', ℓ''), lookupLevel_mem hlk, r', hr', rfl⟩)
          exact List.mem_cons_of_mem _ (mem_eraseIdx.mpr ⟨hmem, hrne⟩)
    · have hres : (addToBook ob o).bids = setLevel ob.bids o.price (ℓ₀ ++ [o]) ∧
          (addToBook ob o).asks = ob.asks ∧
          (addToBook ob o).orders = insertIdx ob.orders o.id (Side.buy, o.price) := by
        simp [addToBook, hside, hl]
      obtain ⟨X, Y, hXY, hset, herase⟩ := levelIds_decomp hB.1.1 hl
      refine ⟨?_, ?_, ?_⟩
      · have hins : (X ++ (ℓ₀.map (·.id) ++ (o.id :: (Y ++ levelIds ob.asks)))).Nodup := by
          apply nodup_insert_mid
          · have h0 := hnod
            rw [restingIds, hXY] at h0
            simpa [List.append_assoc] using h0
          · refine ⟨fun h => hfresh ?_, fun h => hfresh ?_, fun h => hfresh ?_⟩
            · rw [restingIds, hXY]
              exact List.mem_append_left _ (List.mem_append_left _ (List.mem_append_left _ h))
            · rw [restingIds, hXY]
              exact List.mem_append_left _ (List.mem_append_left _ (List.mem_append_right _ h))
            · rw [restingIds, hXY]
              rcases List.mem_append.mp h with h' | h'
              · exact List.mem_append_left _ (List.mem_append_right _ h')
              · exact List.mem_append_right _ h'
        rw [restingIds, hres.1, hres.2.1, hset]
        simpa [List.append_assoc, List.map_append] using hins
      · intro e he
        rw [hres.2.2, insertIdx] at he
        rcases List.mem_cons.mp he with rfl | he'
        · refine ⟨ℓ₀ ++ [o], ?_, o, List.mem_append_right _ (List.mem_cons_self _ _), rfl⟩
          rw [bookSideOf, if_pos rfl, hres.1]
          exact lookupLevel_setLevel_self _ _ _
        · obtain ⟨he1, hne⟩ := mem_eraseIdx.mp he'
          obtain ⟨ℓe, hle, r, hrmem, hrid⟩ := hptr e he1
          by_cases hes : e.2.1 = Side.buy
          · by_cases hep : e.2.2 = o.price
            · rw [bookSideOf, if_pos hes, hep] at hle
              have hℓe : ℓe = ℓ₀ := Option.some.inj (hle.symm.trans hl)
              rw [hℓe] at hrmem
              refine ⟨ℓ₀ ++ [o], ?_, r, List.mem_append_left _ hrmem, hrid⟩
              rw [bookSideOf, if_pos hes, hres.1, hep]
              exact lookupLevel_setLevel_self _ _ _
            · refine ⟨ℓe, ?_, r, hrmem, hrid⟩
              rw [bookSideOf, if_pos hes, hres.1, lookupLevel_setLevel_ne _ _ _ _ hep]
              rw [bookSideOf, if_pos hes] at hle
              exact hle
          · refine ⟨ℓe, ?_, r, hrmem, hrid⟩
            rw [bookSideOf, if_neg hes, hres.2.1]
            rw [bookSideOf, if_neg hes] at hle
            exact hle
      · intro s p' ℓ'' hlk r' hr'
        rw [hres.2.2, insertIdx]
        by_cases hs : s = Side.buy
        · by_cases hp' : p' = o.price
          · rw [bookSideOf, if_pos hs, hres.1, hp', lookupLevel_setLevel_self] at hlk
            have hℓ'' : ℓ'' = ℓ₀ ++ [o] := (Option.some.inj hlk).symm
            subst hℓ''
            rcases List.mem_append.mp hr' with hro | hro
            · have hmem := hidx s p' ℓ₀ (by rw [bookSideOf, if_pos hs, hp']; exact hl) r' hro
              have hrne : r'.id ≠ o.id := by
                intro hh
                apply hfresh
                rw [← hh]
                exact List.mem_append_left _
                  (mem_levelIds.mpr ⟨(o.price, ℓ₀), lookupLevel_mem hl, r', hro, rfl⟩)
              exact List.mem_cons_of_mem _ (mem_eraseIdx.mpr ⟨hmem, hrne⟩)
            · rcases List.mem_singleton.mp hro with rfl
              rw [hs, hp']
              exact List.mem_cons_self _ _
          · rw [bookSideOf, if_pos hs, hres.1, lookupLevel_setLevel_ne _ _ _ _ hp'] at hlk
            have hmem := hidx s p' ℓ'' (by rw [bookSideOf, if_pos hs]; exact hlk) r' hr'
            have hrne : r'.id ≠ o.id := by
              intro hh
              apply hfresh
              rw [← hh]
              exact List.mem_append_left _
                (mem_levelIds.mpr ⟨(p', ℓ''), lookupLevel_mem hlk, r', hr', rfl⟩)
            exact List.mem_cons_of_mem _ (mem_eraseIdx.mpr ⟨hmem, hrne⟩)
        · rw [bookSideOf, if_neg hs, hres.2.1] at hlk
          have hmem := hidx s p' ℓ'' (by rw [bookSideOf, if_neg hs]; exact hlk) r' hr'
          have hrne : r'.id ≠ o.id := by
            intro hh
            apply hfresh
            rw [← hh]
            exact List.mem_append_right _
              (mem_levelIds.mpr ⟨(p', ℓ''), lookupLevel_mem hlk, r', hr', rfl⟩)
          exact List.mem_cons_of_mem _ (mem_eraseIdx.mpr ⟨hmem, hrne⟩)
  · rcases hl : lookupLevel ob.asks o.price with _ | ℓ₀
    · have hknot : o.price ∉ keys ob.asks := lookupLevel_eq_none.mp hl
      have hres : (addToBook ob o).asks = setLevel ob.asks o.price [o] ∧
          (addToBook ob o).bids = ob.bids ∧
          (addToBook ob o).orders = insertIdx ob.orders o.id (o.side, o.price) := by
        simp [addToBook, hside, hl]
      refine ⟨?_, ?_, ?_⟩
      · rw [restingIds, hres.1, hres.2.1, levelIds_set_new _ hknot]
        have h' : (o.id :: restingIds ob).Nodup := List.nodup_cons.mpr ⟨hfresh, hnod⟩
        have h'' : (levelIds ob.bids ++ (o.id :: levelIds ob.asks)).Nodup := by
          rw [List.nodup_middle]
          simpa [restingIds, List.append_assoc] using h'
        simpa [List.append_assoc] using h''
      · intro e he
        rw [hres.2.2, insertIdx] at he
        rcases List.mem_cons.mp he with rfl | he'
        · refine ⟨[o], ?_, o, List.mem_cons_self _ _, rfl⟩
          have hbs : ((o.id, (o.side, o.price)) : String × Side × ℚ).2.1 = o.side := rfl
          rw [bookSideOf, hbs, if_neg hside, hres.1]
          exact lookupLevel_setLevel_self _ _ _
        · obtain ⟨he1, hne⟩ := mem_eraseIdx.mp he'
          obtain ⟨ℓe, hle, r, hrmem, hrid⟩ := hptr e he1
          by_cases hes : e.2.1 = Side.buy
          · refine ⟨ℓe, ?_, r, hrmem, hrid⟩
            rw [bookSideOf, if_pos hes, hres.2.1]
            rw [bookSideOf, if_pos hes] at hle
            exact hle
          · by_cases hep : e.2.2 = o.price
            · exfalso
              rw [bookSideOf, if_neg hes, hep, hl] at hle
              cases hle
            · refine ⟨ℓe, ?_, r, hrmem, hrid⟩
              rw [bookSideOf, if_neg hes, hres.1, lookupLevel_setLevel_ne _ _ _ _ hep]
              rw [bookSideOf, if_neg hes] at hle
              exact hle
      · intro s p' ℓ'' hlk r' hr'
        rw [hres.2.2, insertIdx]
        by_cases hs : s = Side.buy
        · rw [bookSideOf, if_pos hs, hres.2.1] at hlk
          have hmem := hidx s p' ℓ'' (by rw [bookSideOf, if_pos hs]; exact hlk) r' hr'
          have hrne : r'.id ≠ o.id := by
            intro hh
            apply hfresh
            rw [← hh]
            exact List.mem_append_left _
              (mem_levelIds.mpr ⟨(p', ℓ''), lookupLevel_mem hlk, r', hr', rfl⟩)
          exact List.mem_cons_of_mem _ (mem_eraseIdx.mpr ⟨hmem, hrne⟩)
        · by_cases hp' : p' = o.price
          · rw [bookSideOf, if_neg hs, hres.1, hp', lookupLevel_setLevel_self] at hlk
            have hℓ'' : ℓ'' = [o] := (Option.some.inj hlk).symm
            subst hℓ''
            have hro2 : r' = o := List.mem_singleton.mp hr'
            have hss : s = Side.sell := by
              cases s with
              | buy => exact absurd rfl hs
              | sell => rfl
            have hos2 : o.side = Side.sell := by
              cases hos : o.side with
              | buy => exact absurd hos hside
              | sell => rfl
            rw [hro2, hss, ← hos2, hp']
            exact List.mem_cons_self _ _
          · rw [bookSideOf, if_neg hs, hres.1, lookupLevel_setLevel_ne _ _ _ _ hp'] at hlk
            have hmem := hidx s p' ℓ'' (by rw [bookSideOf, if_neg hs]; exact hlk) r' hr'
            have hrne : r'.id ≠ o.id := by
              intro hh
              apply hfresh
              rw [← hh]
              exact List.mem_append_right _
                (mem_levelIds.mpr ⟨(p', ℓ''), lookupLevel_mem hlk, r', hr', rfl⟩)
            exact List.mem_cons_of_mem _ (mem_eraseIdx.mpr ⟨hmem, hrne⟩)
    · have hres : (addToBook ob o).asks = setLevel ob.asks o.price (ℓ₀ ++ [o]) ∧
          (addToBook ob o).bids = ob.bids ∧
          (addToBook ob o).orders = insertIdx ob.orders o.id (o.side, o.price) := by
        simp [addToBook, hside, hl]
      obtain ⟨X, Y, hXY, hset, herase⟩ := levelIds_decomp hB.2.1.1 hl
      refine ⟨?_, ?_, ?_⟩
      · have hins : ((levelIds ob.bids ++ X) ++
            (ℓ₀.map (·.id) ++ (o.id :: Y))).Nodup := by
          apply nodup_insert_mid
          · have h0 := hnod
            rw [restingIds, hXY] at h0
            simpa [List.append_assoc] using h0
          · refine ⟨fun h => hfresh ?_, fun h => hfresh ?_, fun h => hfresh ?_⟩
            · rw [restingIds, hXY]
              rcases List.mem_append.mp h with h' | h'
              · exact List.mem_append_left _ h'
              · exact List.mem_append_right _
                  (List.mem_append_left _ (List.mem_append_left _ h'))
            · rw [restingIds, hXY]
              exact List.mem_append_right _
                (List.mem_append_left _ (List.mem_append_right _ h))
            · rw [restingIds, hXY]
              exact List.mem_append_right _ (List.mem_append_right _ h)
        rw [restingIds, hres.1, hres.2.1, hset]
        simpa [List.append_assoc, List.map_append] using hins
      · intro e he
        rw [hres.2.2, insertIdx] at he
        rcases List.mem_cons.mp he with rfl | he'
        · refine ⟨ℓ₀ ++ [o], ?_, o, List.mem_append_right _ (List.mem_cons_self _ _), rfl⟩
          have hbs : ((o.id, (o.side, o.price)) : String × Side × ℚ).2.1 = o.side := rfl
          rw [bookSideOf, hbs, if_neg hside, hres.1]
          exact lookupLevel_setLevel_self _ _ _
        · obtain ⟨he1, hne⟩ := mem_eraseIdx.mp he'
          obtain ⟨ℓe, hle, r, hrmem, hrid⟩ := hptr e he1
          by_cases hes : e.2.1 = Side.buy
          · refine ⟨ℓe, ?_, r, hrmem, hrid⟩
            rw [bookSideOf, if_pos hes, hres.2.1]
            rw [bookSideOf, if_pos hes] at hle
            exact hle
          · by_cases hep : e.2.2 = o.price
            · rw [bookSideOf, if_neg hes, hep] at hle
              have hℓe : ℓe = ℓ₀ := Option.some.inj (hle.symm.trans hl)
              rw [hℓe] at hrmem
              refine ⟨ℓ₀ ++ [o], ?_, r, List.mem_append_left _ hrmem, hrid⟩
              rw [bookSideOf, if_neg hes, hres.1, hep]
              exact lookupLevel_setLevel_self _ _ _
            · refine ⟨ℓe, ?_, r, hrmem, hrid⟩
              rw [bookSideOf, if_neg hes, hres.1, lookupLevel_setLevel_ne _ _ _ _ hep]
              rw [bookSideOf, if_neg hes] at hle
              exact hle
      · intro s p' ℓ'' hlk r' hr'
        rw [hres.2.2, insertIdx]
        by_cases hs : s = Side.buy
        · rw [bookSideOf, if_pos hs, hres.2.1] at hlk
          have hmem := hidx s p' ℓ'' (by rw [bookSideOf, if_pos hs]; exact hlk) r' hr'
          have hrne : r'.id ≠ o.id := by
            intro hh
            apply hfresh
            rw [← hh]
            exact List.mem_append_left _
              (mem_levelIds.mpr ⟨(p', ℓ''), lookupLevel_mem hlk, r', hr', rfl⟩)
          exact List.mem_cons_of_mem _ (mem_eraseIdx.mpr ⟨hmem, hrne⟩)
        · by_cases hp' : p' = o.price
          · rw [bookSideOf, if_neg hs, hres.1, hp', lookupLevel_setLevel_self] at hlk
            have hℓ'' : ℓ'' = ℓ₀ ++ [o] := (Option.some.inj hlk).symm
            subst hℓ''
            rcases List.mem_append.mp hr' with hro | hro
            · have hmem := hidx s p' ℓ₀ (by rw [bookSideOf, if_neg hs, hp']; exact hl) r' hro
              have hrne : r'.id ≠ o.id := by
                intro hh
                apply hfresh
                rw [← hh]
                exact List.mem_append_right _
                  (mem_levelIds.mpr ⟨(o.price, ℓ₀), lookupLevel_mem hl, r', hro, rfl⟩)
              exact List.mem_cons_of_mem _ (mem_eraseIdx.mpr ⟨hmem, hrne⟩)
            · have hro2 : r' = o := List.mem_singleton.mp hro
              have hss : s = Side.sell := by
                cases s with
                | buy => exact absurd rfl hs
                | sell => rfl
              have hos2 : o.side = Side.sell := by
                cases hos : o.side with
                | buy => exact absurd hos hside
                | sell => rfl
              rw [hro2, hss, ← hos2, hp']
              exact List.mem_cons_self _ _
          · rw [bookSideOf, if_neg hs, hres.1, lookupLevel_setLevel_ne _ _ _ _ hp'] at hlk
            have hmem := hidx s p' ℓ'' (by rw [bookSideOf, if_neg hs]; exact hlk) r' hr'
            have hrne : r'.id ≠ o.id := by
              intro hh
              apply hfresh
              rw [← hh]
              exact List.mem_append_right _
                (mem_levelIds.mpr ⟨(p', ℓ''), lookupLevel_mem hlk, r', hr', rfl⟩)
            exact List.mem_cons_of_mem _ (mem_eraseIdx.mpr ⟨hmem, hrne⟩)

theorem lookupLevel_of_mem {m : BookSide} (hnd : (keys m).Nodup) {p : ℚ} {ℓ : List Order}
    (h : (p, ℓ) ∈ m) : lookupLevel m p = some ℓ := by
  induction m with
  | nil => cases h
  | cons e es ih =>
    rcases List.mem_cons.mp h with rfl | h'
    · rw [lookupLevel, if_pos rfl]
    · by_cases hep : e.1 = p
      · exfalso
        exact (List.nodup_cons.mp hnd).1
          (by show e.1 ∈ keys es; rw [hep]; exact List.mem_map.mpr ⟨(p, ℓ), h', rfl⟩)
      · rw [lookupLevel, if_neg hep]
        exact ih (List.nodup_cons.mp hnd).2 h'

theorem restingIds_idxKeys (ob : OrderBook) (hB : InvBook ob) (hI : InvIdx ob) :
    ∀ x, x ∈ restingIds ob ↔ x ∈ idxKeys ob.orders := by
  intro x
  constructor
  · intro hx
    rcases List.mem_append.mp hx with hx' | hx'
    · obtain ⟨e, he, r, hr, hrid⟩ := mem_levelIds.mp hx'
      have hlk : lookupLevel ob.bids e.1 = some e.2 := lookupLevel_of_mem hB.1.1 he
      have hmem := hI.2.2 Side.buy e.1 e.2
        (by rw [bookSideOf, if_pos rfl]; exact hlk) r hr
      exact List.mem_map.mpr ⟨(r.id, Side.buy, e.1), hmem, hrid⟩
    · obtain ⟨e, he, r, hr, hrid⟩ := mem_levelIds.mp hx'
      have hlk : lookupLevel ob.asks e.1 = some e.2 := lookupLevel_of_mem hB.2.1.1 he
      have hmem := hI.2.2 Side.sell e.1 e.2
        (by rw [bookSideOf, if_neg (by decide)]; exact hlk) r hr
      exact List.mem_map.mpr ⟨(r.id, Side.sell, e.1), hmem, hrid⟩
  · intro hx
    obtain ⟨e, he, hfst⟩ := List.mem_map.mp hx
    obtain ⟨ℓe, hle, r, hr, hrid⟩ := hI.2.1 e he
    by_cases hes : e.2.1 = Side.buy
    · rw [bookSideOf, if_pos hes] at hle
      exact List.mem_append_left _ (mem_levelIds.mpr
        ⟨(e.2.2, ℓe), lookupLevel_mem hle, r, hr, hrid.trans hfst⟩)
    · rw [bookSideOf, if_neg hes] at hle
      exact List.mem_append_right _ (mem_levelIds.mpr
        ⟨(e.2.2, ℓe), lookupLevel_mem hle, r, hr, hrid.trans hfst⟩)

theorem cancelProcess_fst (ob : OrderBook) (id : String) :
    (cancelProcess ob id).1 = true ↔ id ∈ idxKeys ob.orders := by
  rcases hix : lookupIdx ob.orders id with _ | v
  · have hf : (cancelProcess ob id).1 = false := by simp [cancelProcess, hix]
    rw [hf]
    constructor
    · intro h
      exact absurd h (by decide)
    · intro h
      exact absurd h (lookupIdx_eq_none.mp hix)
  · have ht : (cancelProcess ob id).1 = true := by
      obtain ⟨side, price⟩ := v
      by_cases hsb : side = Side.buy
      · rcases hlv : lookupLevel ob.bids price with _ | ℓ
        · simp [cancelProcess, hix, hsb, hlv]
        · by_cases hrem : removeById ℓ id = []
          · by_cases hbest : price = ob.bestBid
            · subst hbest
              simp [cancelProcess, hix, hsb, hlv, hrem]
            · simp [cancelProcess, hix, hsb, hlv, hrem, hbest]
          · simp [cancelProcess, hix, hsb, hlv, hrem]
      · rcases hlv : lookupLevel ob.asks price with _ | ℓ
        · simp [cancelProcess, hix, hsb, hlv]
        · by_cases hrem : removeById ℓ id = []
          · by_cases hbest : price = ob.bestAsk
            · subst hbest
              simp [cancelProcess, hix, hsb, hlv, hrem]
            · simp [cancelProcess, hix, hsb, hlv, hrem, hbest]
          · simp [cancelProcess, hix, hsb, hlv, hrem]
    rw [ht]
    constructor
    · intro _
      exact List.mem_map.mpr ⟨(id, v), lookupIdx_mem hix, rfl⟩
    · intro _
      rfl

theorem cancelProcess_false_frame (ob : OrderBook) (id : String)
    (h : (cancelProcess ob id).1 = false) : (cancelProcess ob id).2 = ob := by
  rcases hix : lookupIdx ob.orders id with _ | v
  · simp [cancelProcess, hix]
  · exfalso
    have ht : (cancelProcess ob id).1 = true :=
      (cancelProcess_fst ob id).mpr (List.mem_map.mpr ⟨(id, v), lookupIdx_mem hix, rfl⟩)
    rw [h] at ht
    cases ht

theorem cancelProcess_orders (ob : OrderBook) (id : String) {v : Side × ℚ}
    (hix : lookupIdx ob.orders id = some v) :
    (cancelProcess ob id).2.orders = eraseIdx ob.orders id := by
  obtain ⟨side, price⟩ := v
  by_cases hsb : side = Side.buy
  · rcases hlv : lookupLevel ob.bids price with _ | ℓ
    · simp [cancelProcess, hix, hsb, hlv]
    · by_cases hrem : removeById ℓ id = []
      · by_cases hbest : price = ob.bestBid
        · subst hbest
          simp [cancelProcess, hix, hsb, hlv, hrem]
        · simp [cancelProcess, hix, hsb, hlv, hrem, hbest]
      · simp [cancelProcess, hix, hsb, hlv, hrem]
  · rcases hlv : lookupLevel ob.asks price with _ | ℓ
    · simp [cancelProcess, hix, hsb, hlv]
    · by_cases hrem : removeById ℓ id = []
      · by_cases hbest : price = ob.bestAsk
        · subst hbest
          simp [cancelProcess, hix, hsb, hlv, hrem]
        · simp [cancelProcess, hix, hsb, hlv, hrem, hbest]
      · simp [cancelProcess, hix, hsb, hlv, hrem]

theorem cancelProcess_invIdx (ob : OrderBook) (id : String) (hB : InvBook ob)
    (hI : InvIdx ob) :
    InvIdx (cancelProcess ob id).2 ∧ id ∉ restingIds (cancelProcess ob id).2 := by
  obtain ⟨hnod, hptr, hidx⟩ := hI
  rcases hix : lookupIdx ob.orders id with _ | v
  · have hres : (cancelProcess ob id).2 = ob := by simp [cancelProcess, hix]
    rw [hres]
    refine ⟨⟨hnod, hptr, hidx⟩, fun hmem => ?_⟩
    exact absurd ((restingIds_idxKeys ob hB ⟨hnod, hptr, hidx⟩ id).mp hmem)
      (lookupIdx_eq_none.mp hix)
  · obtain ⟨side, price⟩ := v
    have hmem0 : (id, (side, price)) ∈ ob.orders := lookupIdx_mem hix
    obtain ⟨ℓh, hlh, rh, hrh, hrhid⟩ := hptr _ hmem0
    by_cases hsb : side = Side.buy
    · have hl : lookupLevel ob.bids price = some ℓh := by
        simpa [bookSideOf, hsb] using hlh
      obtain ⟨X, Y, hXY, hset, herase⟩ := levelIds_decomp hB.1.1 hl
      have hnodG : (X ++ (ℓh.map (·.id) ++ (Y ++ levelIds ob.asks))).Nodup := by
        have h0 := hnod
        rw [restingIds, hXY] at h0
        simpa [List.append_assoc] using h0
      obtain ⟨hnodSY, hnodE2, hR⟩ := nodup_parts_gen hnodG
      have hnodℓ : (ℓh.map (·.id)).Nodup := (hnodG.of_append_right).of_append_left
      have hid_in : id ∈ ℓh.map (·.id) := List.mem_map.mpr ⟨rh, hrh, hrhid⟩
      have hidX : id ∉ X := (hR _ hid_in).1
      have hidY : id ∉ Y := (hR _ hid_in).2.1
      have hidA : id ∉ levelIds ob.asks := (hR _ hid_in).2.2
      have hid_rem : id ∉ (removeById ℓh id).map (·.id) := not_mem_removeById_ids hnodℓ
      by_cases hrem : removeById ℓh id = []
      · have hres : ((cancelProcess ob id).2.bids = eraseLevel ob.bids price ∧
            (cancelProcess ob id).2.asks = ob.asks) ∧
            (cancelProcess ob id).2.orders = eraseIdx ob.orders id := by
          by_cases hbest : price = ob.bestBid
          · subst hbest
            simp [cancelProcess, hix, hsb, hl, hrem]
          · simp [cancelProcess, hix, hsb, hl, hrem, hbest]
        refine ⟨⟨?_, ?_, ?_⟩, ?_⟩
        · rw [restingIds, hres.1.1, hres.1.2, herase]
          simpa [List.append_assoc] using hnodSY
        · intro e he
          rw [hres.2] at he
          obtain ⟨he1, hne⟩ := mem_eraseIdx.mp he
          obtain ⟨ℓe, hle, r, hrmem, hrid⟩ := hptr e he1
          by_cases hes : e.2.1 = Side.buy
          · by_cases hep : e.2.2 = price
            · exfalso
              rw [bookSideOf, if_pos hes, hep] at hle
              have hℓe : ℓe = ℓh := Option.some.inj (hle.symm.trans hl)
              rw [hℓe] at hrmem
              have hmem2 : r ∈ removeById ℓh id :=
                mem_removeById_of_ne hrmem (by rw [hrid]; exact hne)
              rw [hrem] at hmem2
              cases hmem2
            · refine ⟨ℓe, ?_, r, hrmem, hrid⟩
              rw [bookSideOf, if_pos hes, hres.1.1, lookupLevel_eraseLevel_ne _ _ _ hep]
              rw [bookSideOf, if_pos hes] at hle
              exact hle
          · refine ⟨ℓe, ?_, r, hrmem, hrid⟩
            rw [bookSideOf, if_neg hes, hres.1.2]
            rw [bookSideOf, if_neg hes] at hle
            exact hle
        · intro s p' ℓ'' hlk r' hr'
          rw [hres.2]
          by_cases hs : s = Side.buy
          · by_cases hp' : p' = price
            · exfalso
              rw [bookSideOf, if_pos hs, hres.1.1, hp', lookupLevel_eraseLevel_self] at hlk
              cases hlk
            · rw [bookSideOf, if_pos hs, hres.1.1,
                lookupLevel_eraseLevel_ne _ _ _ hp'] at hlk
              have hmem := hidx s p' ℓ'' (by rw [bookSideOf, if_pos hs]; exact hlk) r' hr'
              refine mem_eraseIdx.mpr ⟨hmem, fun hh => ?_⟩
              have hh2 : r'.id = id := hh
              have hxy : r'.id ∈ X ++ Y := by
                rw [← herase]
                exact mem_levelIds.mpr ⟨(p', ℓ''),
                  mem_eraseLevel.mpr ⟨lookupLevel_mem hlk, hp'⟩, r', hr', rfl⟩
              rw [hh2] at hxy
              rcases List.mem_append.mp hxy with h' | h'
              · exact hidX h'
              · exact hidY h'
          · rw [bookSideOf, if_neg hs, hres.1.2] at hlk
            have hmem := hidx s p' ℓ'' (by rw [bookSideOf, if_neg hs]; exact hlk) r' hr'
            refine mem_eraseIdx.mpr ⟨hmem, fun hh => ?_⟩
            have hh2 : r'.id = id := hh
            have hra : r'.id ∈ levelIds ob.asks :=
              mem_levelIds.mpr ⟨(p', ℓ''), lookupLevel_mem hlk, r', hr', rfl⟩
            rw [hh2] at hra
            exact hidA hra
        · intro hmem
          rw [restingIds, hres.1.1, hres.1.2, herase] at hmem
          rcases List.mem_append.mp hmem with h' | h'
          · rcases List.mem_append.mp h' with h'' | h''
            · exact hidX h''
            · exact hidY h''
          · exact hidA h'
      · have hres : ((cancelProcess ob id).2.bids =
              setLevel ob.bids price (removeById ℓh id) ∧
            (cancelProcess ob id).2.asks = ob.asks) ∧
            (cancelProcess ob id).2.orders = eraseIdx ob.orders id := by
          simp [cancelProcess, hix, hsb, hl, hrem]
        refine ⟨⟨?_, ?_, ?_⟩, ?_⟩
        · rw [restingIds, hres.1.1, hres.1.2, hset]
          have hsub : List.Sublist
              (X ++ ((removeById ℓh id).map (·.id) ++ (Y ++ levelIds ob.asks)))
              (X ++ (ℓh.map (·.id) ++ (Y ++ levelIds ob.asks))) :=
            List.Sublist.append (List.Sublist.refl X)
              (List.Sublist.append (removeById_ids_sublist ℓh id) (List.Sublist.refl _))
          simpa [List.append_assoc] using List.Nodup.sublist hsub hnodG
        · intro e he
          rw [hres.2] at he
          obtain ⟨he1, hne⟩ := mem_eraseIdx.mp he
          obtain ⟨ℓe, hle, r, hrmem, hrid⟩ := hptr e he1
          by_cases hes : e.2.1 = Side.buy
          · by_cases hep : e.2.2 = price
            · rw [bookSideOf, if_pos hes, hep] at hle
              have hℓe : ℓe = ℓh := Option.some.inj (hle.symm.trans hl)
              rw [hℓe] at hrmem
              refine ⟨removeById ℓh id, ?_, r,
                mem_removeById_of_ne hrmem (by rw [hrid]; exact hne), hrid⟩
              rw [bookSideOf, if_pos hes, hres.1.1, hep]
              exact lookupLevel_setLevel_self _ _ _
            · refine ⟨ℓe, ?_, r, hrmem, hrid⟩
              rw [bookSideOf, if_pos hes, hres.1.1, lookupLevel_setLevel_ne _ _ _ _ hep]
              rw [bookSideOf, if_pos hes] at hle
              exact hle
          · refine ⟨ℓe, ?_, r, hrmem, hrid⟩
            rw [bookSideOf, if_neg hes, hres.1.2]
            rw [bookSideOf, if_neg hes] at hle
            exact hle
        · intro s p' ℓ'' hlk r' hr'
          rw [hres.2]
          by_cases hs : s = Side.buy
          · by_cases hp' : p' = price
            · rw [bookSideOf, if_pos hs, hres.1.1, hp', lookupLevel_setLevel_self] at hlk
              have hℓ'' : ℓ'' = removeById ℓh id := (Option.some.inj hlk).symm
              subst hℓ''
              have hrℓ : r' ∈ ℓh := (removeById_sublist ℓh id).subset hr'
              have hmem := hidx s p' ℓh (by rw [bookSideOf, if_pos hs, hp']; exact hl) r' hrℓ
              refine mem_eraseIdx.mpr ⟨hmem, fun hh => ?_⟩
              have hh2 : r'.id = id := hh
              have hmm : r'.id ∈ (removeById ℓh id).map (·.id) :=
                List.mem_map.mpr ⟨r', hr', rfl⟩
              rw [hh2] at hmm
              exact hid_rem hmm
            · rw [bookSideOf, if_pos hs, hres.1.1,
                lookupLevel_setLevel_ne _ _ _ _ hp'] at hlk
              have hmem := hidx s p' ℓ'' (by rw [bookSideOf, if_pos hs]; exact hlk) r' hr'
              refine mem_eraseIdx.mpr ⟨hmem, fun hh => ?_⟩
              have hh2 : r'.id = id := hh
              have hxy : r'.id ∈ X ++ Y := by
                rw [← herase]
                exact mem_levelIds.mpr ⟨(p', ℓ''),
                  mem_eraseLevel.mpr ⟨lookupLevel_mem hlk, hp'⟩, r', hr', rfl⟩
              rw [hh2] at hxy
              rcases List.mem_append.mp hxy with h' | h'
              · exact hidX h'
              · exact hidY h'
          · rw [bookSideOf, if_neg hs, hres.1.2] at hlk
            have hmem := hidx s p' ℓ'' (by rw [bookSideOf, if_neg hs]; exact hlk) r' hr'
            refine mem_eraseIdx.mpr ⟨hmem, fun hh => ?_⟩
            have hh2 : r'.id = id := hh
            have hra : r'.id ∈ levelIds ob.asks :=
              mem_levelIds.mpr ⟨(p', ℓ''), lookupLevel_mem hlk, r', hr', rfl⟩
            rw [hh2] at hra
            exact hidA hra
        · intro hmem
          rw [restingIds, hres.1.1, hres.1.2, hset] at hmem
          rcases List.mem_append.mp hmem with h' | h'
          · rcases List.mem_append.mp h' with h'' | h''
            · rcases List.mem_append.mp h'' with h3 | h3
              · exact hidX h3
              · exact hid_rem h3
            · exact hidY h''
          · exact hidA h'
    · have hl : lookupLevel ob.asks price = some ℓh := by
        simpa [bookSideOf, hsb] using hlh
      obtain ⟨X, Y, hXY, hset, herase⟩ := levelIds_decomp hB.2.1.1 hl
      have hnodG : ((levelIds ob.bids ++ X) ++
          (ℓh.map (·.id) ++ (Y ++ ([] : List String)))).Nodup := by
        have h0 := hnod
        rw [restingIds, hXY] at h0
        simpa [List.append_assoc] using h0
      obtain ⟨hnodSY, hnodE2, hR⟩ := nodup_parts_gen hnodG
      have hnodℓ : (ℓh.map (·.id)).Nodup := (hnodG.of_append_right).of_append_left
      have hid_in : id ∈ ℓh.map (·.id) := List.mem_map.mpr ⟨rh, hrh, hrhid⟩
      have hidB : id ∉ levelIds ob.bids := fun h =>
        (hR _ hid_in).1 (List.mem_append_left _ h)
      have hidX : id ∉ X := fun h => (hR _ hid_in).1 (List.mem_append_right _ h)
      have hidY : id ∉ Y := (hR _ hid_in).2.1
      have hid_rem : id ∉ (removeById ℓh id).map (·.id) := not_mem_removeById_ids hnodℓ
      by_cases hrem : removeById ℓh id = []
      · have hres : ((cancelProcess ob id).2.bids = ob.bids ∧
            (cancelProcess ob id).2.asks = eraseLevel ob.asks price) ∧
            (cancelProcess ob id).2.orders = eraseIdx ob.orders id := by
          by_cases hbest : price = ob.bestAsk
          · subst hbest
            simp [cancelProcess, hix, hsb, hl, hrem]
          · simp [cancelProcess, hix, hsb, hl, hrem, hbest]
        refine ⟨⟨?_, ?_, ?_⟩, ?_⟩
        · rw [restingIds, hres.1.1, hres.1.2, herase]
          simpa [List.append_assoc] using hnodSY
        · intro e he
          rw [hres.2] at he
          obtain ⟨he1, hne⟩ := mem_eraseIdx.mp he
          obtain ⟨ℓe, hle, r, hrmem, hrid⟩ := hptr e he1
          by_cases hes : e.2.1 = Side.buy
          · refine ⟨ℓe, ?_, r, hrmem, hrid⟩
            rw [bookSideOf, if_pos hes, hres.1.1]
            rw [bookSideOf, if_pos hes] at hle
            exact hle
          · by_cases hep : e.2.2 = price
            · exfalso
              rw [bookSideOf, if_neg hes, hep] at hle
              have hℓe : ℓe = ℓh := Option.some.inj (hle.symm.trans hl)
              rw [hℓe] at hrmem
              have hmem2 : r ∈ removeById ℓh id :=
                mem_removeById_of_ne hrmem (by rw [hrid]; exact hne)
              rw [hrem] at hmem2
              cases hmem2
            · refine ⟨ℓe, ?_, r, hrmem, hrid⟩
              rw [bookSideOf, if_neg hes, hres.1.2, lookupLevel_eraseLevel_ne _ _ _ hep]
              rw [bookSideOf, if_neg hes] at hle
              exact hle
        · intro s p' ℓ'' hlk r' hr'
          rw [hres.2]
          by_cases hs : s = Side.buy
          · rw [bookSideOf, if_pos hs, hres.1.1] at hlk
            have hmem := hidx s p' ℓ'' (by rw [bookSideOf, if_pos hs]; exact hlk) r' hr'
            refine mem_eraseIdx.mpr ⟨hmem, fun hh => ?_⟩
            have hh2 : r'.id = id := hh
            have hrb : r'.id ∈ levelIds ob.bids :=
              mem_levelIds.mpr ⟨(p', ℓ''), lookupLevel_mem hlk, r', hr', rfl⟩
            rw [hh2] at hrb
            exact hidB hrb
          · by_cases hp' : p' = price
            · exfalso
              rw [bookSideOf, if_neg hs, hres.1.2, hp', lookupLevel_eraseLevel_self] at hlk
              cases hlk
            · rw [bookSideOf, if_neg hs, hres.1.2,
                lookupLevel_eraseLevel_ne _ _ _ hp'] at hlk
              have hmem := hidx s p' ℓ'' (by rw [bookSideOf, if_neg hs]; exact hlk) r' hr'
              refine mem_eraseIdx.mpr ⟨hmem, fun hh => ?_⟩
              have hh2 : r'.id = id := hh
              have hxy : r'.id ∈ X ++ Y := by
                rw [← herase]
                exact mem_levelIds.mpr ⟨(p', ℓ''),
                  mem_eraseLevel.mpr ⟨lookupLevel_mem hlk, hp'⟩, r', hr', rfl⟩
              rw [hh2] at hxy
              rcases List.mem_append.mp hxy with h' | h'
              · exact hidX h'
              · exact hidY h'
        · intro hmem
          rw [restingIds, hres.1.1, hres.1.2, herase] at hmem
          rcases List.mem_append.mp hmem with h' | h'
          · exact hidB h'
          · rcases List.mem_append.mp h' with h'' | h''
            · exact hidX h''
            · exact hidY h''
      · have hres : ((cancelProcess ob id).2.bids = ob.bids ∧
            (cancelProcess ob id).2.asks =
              setLevel ob.asks price (removeById ℓh id)) ∧
            (cancelProcess ob id).2.orders = eraseIdx ob.orders id := by
          simp [cancelProcess, hix, hsb, hl, hrem]
        refine ⟨⟨?_, ?_, ?_⟩, ?_⟩
        · rw [restingIds, hres.1.1, hres.1.2, hset]
          have h0 := hnod
          rw [restingIds, hXY] at h0
          have hsub : List.Sublist
              (levelIds ob.bids ++ (X ++ (removeById ℓh id).map (·.id) ++ Y))
              (levelIds ob.bids ++ (X ++ ℓh.map (·.id) ++ Y)) :=
            List.Sublist.append (List.Sublist.refl _)
              (List.Sublist.append
                (List.Sublist.append (List.Sublist.refl X)
                  (removeById_ids_sublist ℓh id))
                (List.Sublist.refl Y))
          exact List.Nodup.sublist hsub h0
        · intro e he
          rw [hres.2] at he
          obtain ⟨he1, hne⟩ := mem_eraseIdx.mp he
          obtain ⟨ℓe, hle, r, hrmem, hrid⟩ := hptr e he1
          by_cases hes : e.2.1 = Side.buy
          · refine ⟨ℓe, ?_, r, hrmem, hrid⟩
            rw [bookSideOf, if_pos hes, hres.1.1]
            rw [bookSideOf, if_pos hes] at hle
            exact hle
          · by_cases hep : e.2.2 = price
            · rw [bookSideOf, if_neg hes, hep] at hle
              have hℓe : ℓe = ℓh := Option.some.inj (hle.symm.trans hl)
              rw [hℓe] at hrmem
              refine ⟨removeById ℓh id, ?_, r,
                mem_removeById_of_ne hrmem (by rw [hrid]; exact hne), hrid⟩
              rw [bookSideOf, if_neg hes, hres.1.2, hep]
              exact lookupLevel_setLevel_self _ _ _
            · refine ⟨ℓe, ?_, r, hrmem, hrid⟩
              rw [bookSideOf, if_neg hes, hres.1.2, lookupLevel_setLevel_ne _ _ _ _ hep]
              rw [bookSideOf, if_neg hes] at hle
              exact hle
        · intro s p' ℓ'' hlk r' hr'
          rw [hres.2]
          by_cases hs : s = Side.buy
          · rw [bookSideOf, if_pos hs, hres.1.1] at hlk
            have hmem := hidx s p' ℓ'' (by rw [bookSideOf, if_pos hs]; exact hlk) r' hr'
            refine mem_eraseIdx.mpr ⟨hmem, fun hh => ?_⟩
            have hh2 : r'.id = id := hh
            have hrb : r'.id ∈ levelIds ob.bids :=
              mem_levelIds.mpr ⟨(p', ℓ''), lookupLevel_mem hlk, r', hr', rfl⟩
            rw [hh2] at hrb
            exact hidB hrb
          · by_cases hp' : p' = price
            · rw [bookSideOf, if_neg hs, hres.1.2, hp', lookupLevel_setLevel_self] at hlk
              have hℓ'' : ℓ'' = removeById ℓh id := (Option.some.inj hlk).symm
              subst hℓ''
              have hrℓ : r' ∈ ℓh := (removeById_sublist ℓh id).subset hr'
              have hmem := hidx s p' ℓh (by rw [bookSideOf, if_neg hs, hp']; exact hl) r' hrℓ
              refine mem_eraseIdx.mpr ⟨hmem, fun hh => ?_⟩
              have hh2 : r'.id = id := hh
              have hmm : r'.id ∈ (removeById ℓh id).map (·.id) :=
                List.mem_map.mpr ⟨r', hr', rfl⟩
              rw [hh2] at hmm
              exact hid_rem hmm
            · rw [bookSideOf, if_neg hs, hres.1.2,
                lookupLevel_setLevel_ne _ _ _ _ hp'] at hlk
              have hmem := hidx s p' ℓ'' (by rw [bookSideOf, if_neg hs]; exact hlk) r' hr'
              refine mem_eraseIdx.mpr ⟨hmem, fun hh => ?_⟩
              have hh2 : r'.id = id := hh
              have hxy : r'.id ∈ X ++ Y := by
                rw [← herase]
                exact mem_levelIds.mpr ⟨(p', ℓ''),
                  mem_eraseLevel.mpr ⟨lookupLevel_mem hlk, hp'⟩, r', hr', rfl⟩
              rw [hh2] at hxy
              rcases List.mem_append.mp hxy with h' | h'
              · exact hidX h'
              · exact hidY h'
        · intro hmem
          rw [restingIds, hres.1.1, hres.1.2, hset] at hmem
          rcases List.mem_append.mp hmem with h' | h'
          · exact hidB h'
          · rcases List.mem_append.mp h' with h'' | h''
            · rcases List.mem_append.mp h'' with h3 | h3
              · exact hidX h3
              · exact hid_rem h3
            · exact hidY h''

theorem submitProcess_invIdx (ob : OrderBook) (o : Order) (hB : InvBook ob)
    (hI : InvIdx ob) (hfresh : o.id ∉ restingIds ob) : InvIdx (submitProcess ob o).2 := by
  rw [submitProcess]
  by_cases hval : o.quantity ≤ 0 ∨ (o.typ = OrderType.limit ∧ o.price ≤ 0)
  · rw [if_pos hval]
    exact hI
  · rw [if_neg hval]
    have hmpB := matchPhase_inv ob o hB
    have hmpI := matchPhase_invIdx ob o hB hI
    have hfresh2 : o.id ∉ restingIds (matchPhase ob o).2.2 := fun h =>
      hfresh ((matchPhase_ids_sub ob o o.id).1 h)
    have hob₁ : InvIdx (if (matchPhase ob o).2.1 > 0 ∧ o.typ = OrderType.limit then
        addToBook (matchPhase ob o).2.2 { o with quantity := (matchPhase ob o).2.1 }
        else (matchPhase ob o).2.2) := by
      by_cases hrest : (matchPhase ob o).2.1 > 0 ∧ o.typ = OrderType.limit
      · rw [if_pos hrest]
        exact addToBook_invIdx _ _ hmpB hmpI hfresh2
      · rw [if_neg hrest]
        exact hmpI
    rcases hlast : (matchPhase ob o).1.getLast? with _ | t <;> simp only [hlast]
    · exact hob₁
    · exact hob₁

theorem addToBook_ids_sub (ob : OrderBook) (o : Order) {x : String}
    (h : x ∈ restingIds (addToBook ob o)) : x ∈ restingIds ob ∨ x = o.id := by
  by_cases hside : o.side = Side.buy
  · have hres : (addToBook ob o).bids =
        setLevel ob.bids o.price ((lookupLevel ob.bids o.price).getD [] ++ [o]) ∧
        (addToBook ob o).asks = ob.asks := by
      simp [addToBook, hside]
    rw [restingIds, hres.1, hres.2] at h
    rcases List.mem_append.mp h with h' | h'
    · rcases levelIds_setLevel_sub h' with h'' | h''
      · exact Or.inl (List.mem_append_left _ h'')
      · obtain ⟨r, hr, hrid⟩ := h''
        rcases List.mem_append.mp hr with hr' | hr'
        · rcases hl : lookupLevel ob.bids o.price with _ | ℓ₀
          · rw [hl] at hr'
            simp at hr'
          · rw [hl] at hr'
            exact Or.inl (List.mem_append_left _
              (mem_levelIds.mpr ⟨(o.price, ℓ₀), lookupLevel_mem hl, r, hr', hrid⟩))
        · rcases List.mem_singleton.mp hr' with rfl
          exact Or.inr hrid.symm
    · exact Or.inl (List.mem_append_right _ h')
  · have hres : (addToBook ob o).asks =
        setLevel ob.asks o.price ((lookupLevel ob.asks o.price).getD [] ++ [o]) ∧
        (addToBook ob o).bids = ob.bids := by
      simp [addToBook, hside]
    rw [restingIds, hres.1, hres.2] at h
    rcases List.mem_append.mp h with h' | h'
    · exact Or.inl (List.mem_append_left _ h')
    · rcases levelIds_setLevel_sub h' with h'' | h''
      · exact Or.inl (List.mem_append_right _ h'')
      · obtain ⟨r, hr, hrid⟩ := h''
        rcases List.mem_append.mp hr with hr' | hr'
        · rcases hl : lookupLevel ob.asks o.price with _ | ℓ₀
          · rw [hl] at hr'
            simp at hr'
          · rw [hl] at hr'
            exact Or.inl (List.mem_append_right _
              (mem_levelIds.mpr ⟨(o.price, ℓ₀), lookupLevel_mem hl, r, hr', hrid⟩))
        · rcases List.mem_singleton.mp hr' with rfl
          exact Or.inr hrid.symm

theorem submitProcess_resting_cases (ob : OrderBook) (o : Order) {x : String}
    (h : x ∈ restingIds (submitProcess ob o).2) : x ∈ restingIds ob ∨ x = o.id := by
  rw [(submitProcess_ids_eq ob o).1] at h
  by_cases hval : o.quantity ≤ 0 ∨ (o.typ = OrderType.limit ∧ o.price ≤ 0)
  · rw [if_pos hval] at h
    exact Or.inl h
  · rw [if_neg hval] at h
    by_cases hrest : (matchPhase ob o).2.1 > 0 ∧ o.typ = OrderType.limit
    · rw [if_pos hrest] at h
      rcases addToBook_ids_sub _ _ h with h' | h'
      · exact Or.inl ((matchPhase_ids_sub ob o x).1 h')
      · exact Or.inr h'
    · rw [if_neg hrest] at h
      exact Or.inl ((matchPhase_ids_sub ob o x).1 h)

theorem cancelProcess_ids_sub (ob : OrderBook) (id : String) {x : String}
    (h : x ∈ restingIds (cancelProcess ob id).2) : x ∈ restingIds ob := by
  rcases hix : lookupIdx ob.orders id with _ | v
  · rw [show (cancelProcess ob id).2 = ob from by simp [cancelProcess, hix]] at h
    exact h
  · obtain ⟨side, price⟩ := v
    by_cases hsb : side = Side.buy
    · rcases hlv : lookupLevel ob.bids price with _ | ℓ
      · rw [show (cancelProcess ob id).2 =
            { ob with orders := eraseIdx ob.orders id } from
            by simp [cancelProcess, hix, hsb, hlv]] at h
        exact h
      · by_cases hrem : removeById ℓ id = []
        · have hres : (cancelProcess ob id).2.bids = eraseLevel ob.bids price ∧
              (cancelProcess ob id).2.asks = ob.asks := by
            by_cases hbest : price = ob.bestBid
            · subst hbest
              simp [cancelProcess, hix, hsb, hlv, hrem]
            · simp [cancelProcess, hix, hsb, hlv, hrem, hbest]
          rw [restingIds, hres.1, hres.2] at h
          rcases List.mem_append.mp h with h' | h'
          · exact List.mem_append_left _ (levelIds_eraseLevel_sub h')
          · exact List.mem_append_right _ h'
        · have hres : (cancelProcess ob id).2.bids =
              setLevel ob.bids price (removeById ℓ id) ∧
              (cancelProcess ob id).2.asks = ob.asks := by
            simp [cancelProcess, hix, hsb, hlv, hrem]
          rw [restingIds, hres.1, hres.2] at h
          rcases List.mem_append.mp h with h' | h'
          · rcases levelIds_setLevel_sub h' with h'' | h''
            · exact List.mem_append_left _ h''
            · obtain ⟨r, hr, hrid⟩ := h''
              exact List.mem_append_left _ (mem_levelIds.mpr ⟨(price, ℓ),
                lookupLevel_mem hlv, r, (removeById_sublist ℓ id).subset hr, hrid⟩)
          · exact List.mem_append_right _ h'
    · rcases hlv : lookupLevel ob.asks price with _ | ℓ
      · rw [show (cancelProcess ob id).2 =
            { ob with orders := eraseIdx ob.orders id } from
            by simp [cancelProcess, hix, hsb, hlv]] at h
        exact h
      · by_cases hrem : removeById ℓ id = []
        · have hres : (cancelProcess ob id).2.bids = ob.bids ∧
              (cancelProcess ob id).2.asks = eraseLevel ob.asks price := by
            by_cases hbest : price = ob.bestAsk
            · subst hbest
              simp [cancelProcess, hix, hsb, hlv, hrem]
            · simp [cancelProcess, hix, hsb, hlv, hrem, hbest]
          rw [restingIds, hres.1, hres.2] at h
          rcases List.mem_append.mp h with h' | h'
          · exact List.mem_append_left _ h'
          · exact List.mem_append_right _ (levelIds_eraseLevel_sub h')
        · have hres : (cancelProcess ob id).2.bids = ob.bids ∧
              (cancelProcess ob id).2.asks =
                setLevel ob.asks price (removeById ℓ id) := by
            simp [cancelProcess, hix, hsb, hlv, hrem]
          rw [restingIds, hres.1, hres.2] at h
          rcases List.mem_append.mp h with h' | h'
          · exact List.mem_append_left _ h'
          · rcases levelIds_setLevel_sub h' with h'' | h''
            · exact List.mem_append_right _ h''
            · obtain ⟨r, hr, hrid⟩ := h''
              exact List.mem_append_right _ (mem_levelIds.mpr ⟨(price, ℓ),
                lookupLevel_mem hlv, r, (removeById_sublist ℓ id).subset hr, hrid⟩)

theorem InvIdx_empty : InvIdx OrderBook.empty := by
  refine ⟨by simp [restingIds, levelIds, OrderBook.empty], ?_, ?_⟩
  · intro e he
    simp [OrderBook.empty] at he
  · intro s p ℓ hlk r hr
    exfalso
    by_cases hs : s = Side.buy
    · rw [bookSideOf, if_pos hs] at hlk
      simp [OrderBook.empty, lookupLevel] at hlk
    · rw [bookSideOf, if_neg hs] at hlk
      simp [OrderBook.empty, lookupLevel] at hlk

theorem foldl_stepCmd_stateOK :
    ∀ (cmds : List Cmd) (ob : OrderBook) (used : List String),
      StateOK ob used → (∀ c ∈ cmds, cmdPriceOK c) →
      (∀ id ∈ submittedIds cmds, id ∉ used) →
      (submittedIds cmds).Nodup →
      StateOK (cmds.foldl stepCmd ob) (used ++ submittedIds cmds) := by
  intro cmds
  induction cmds with
  | nil =>
    intro ob used h _ _ _
    simpa [submittedIds] using h
  | cons c cs ih =>
    intro ob used h hc hf hnd
    rw [List.foldl_cons]
    have hc0 := hc c (List.mem_cons_self _ _)
    have hcs := fun x hx => hc x (List.mem_cons_of_mem _ hx)
    cases c with
    | submit o =>
      have hids : submittedIds (Cmd.submit o :: cs) = o.id :: submittedIds cs := by
        simp [submittedIds]
      rw [hids] at hf hnd
      rw [hids]
      have hend : used ++ o.id :: submittedIds cs =
          (used ++ [o.id]) ++ submittedIds cs := by
        simp
      rw [hend]
      obtain ⟨hB, hI, hsub⟩ := h
      have hofresh : o.id ∉ restingIds ob := fun hmem =>
        hf o.id (List.mem_cons_self _ _) (hsub _ hmem)
      apply ih
      · refine ⟨submitProcess_inv ob o hB hc0,
          submitProcess_invIdx ob o hB hI hofresh, ?_⟩
        intro x hx
        rcases submitProcess_resting_cases ob o hx with h' | h'
        · exact List.mem_append_left _ (hsub _ h')
        · rw [h']
          exact List.mem_append_right _ (List.mem_cons_self _ _)
      · exact hcs
      · intro x hx hmem
        rcases List.mem_append.mp hmem with h' | h'
        · exact hf x (List.mem_cons_of_mem _ hx) h'
        · rcases List.mem_singleton.mp h' with rfl
          exact (List.nodup_cons.mp hnd).1 hx
      · exact (List.nodup_cons.mp hnd).2
    | cancel cid =>
      have hids : submittedIds (Cmd.cancel cid :: cs) = submittedIds cs := by
        simp [submittedIds]
      rw [hids] at hf hnd
      rw [hids]
      obtain ⟨hB, hI, hsub⟩ := h
      apply ih
      · refine ⟨cancelProcess_inv ob cid hB, (cancelProcess_invIdx ob cid hB hI).1, ?_⟩
        intro x hx
        exact hsub x (cancelProcess_ids_sub ob cid hx)
      · exact hcs
      · exact hf
      · exact hnd

theorem runCmds_stateOK (cmds : List Cmd) (hc : ∀ c ∈ cmds, cmdPriceOK c)
    (hnd : (submittedIds cmds).Nodup) :
    StateOK (runCmds cmds) (submittedIds cmds) := by
  have h0 : StateOK OrderBook.empty [] := by
    refine ⟨InvBook_empty, InvIdx_empty, ?_⟩
    intro id h
    simp [restingIds, levelIds, OrderBook.empty] at h
  have hmain := foldl_stepCmd_stateOK cmds OrderBook.empty [] h0 hc
    (fun id _ => List.not_mem_nil id) hnd
  simpa using hmain

/-- C6: over any reachable book (submitted prices finite, submitted ids
distinct), Cancel(id) reports true if and only if an order with that id
is currently resting in the book; on success the order is removed — the
id no longer rests and an immediately repeated Cancel(id) reports false;
and a Cancel whose id is not found reports false and leaves the book
unchanged. -/
theorem cancel_true_iff_resting (cmds : List Cmd) (id : String)
    (hc : ∀ c ∈ cmds, cmdPriceOK c) (hnd : (submittedIds cmds).Nodup) :
    ((cancelProcess (runCmds cmds) id).1 = true ↔ id ∈ restingIds (runCmds cmds)) ∧
    ((cancelProcess (runCmds cmds) id).1 = true →
      id ∉ restingIds (cancelProcess (runCmds cmds) id).2 ∧
      (cancelProcess (cancelProcess (runCmds cmds) id).2 id).1 = false) ∧
    ((cancelProcess (runCmds cmds) id).1 = false →
      (cancelProcess (runCmds cmds) id).2 = runCmds cmds) := by
  obtain ⟨hB, hI, hused⟩ := runCmds_stateOK cmds hc hnd
  refine ⟨?_, ?_, ?_⟩
  · rw [cancelProcess_fst]
    exact (restingIds_idxKeys _ hB hI id).symm
  · intro ht
    refine ⟨(cancelProcess_invIdx _ id hB hI).2, ?_⟩
    have hik : id ∈ idxKeys (runCmds cmds).orders := (cancelProcess_fst _ id).mp ht
    rcases hix : lookupIdx (runCmds cmds).orders id with _ | v
    · exact absurd hik (lookupIdx_eq_none.mp hix)
    · have hord := cancelProcess_orders _ id hix
      by_contra hne
      have h2 : (cancelProcess (cancelProcess (runCmds cmds) id).2 id).1 = true := by
        cases hcc : (cancelProcess (cancelProcess (runCmds cmds) id).2 id).1
        · exact absurd hcc hne
        · rfl
      have hmem2 : id ∈ idxKeys (cancelProcess (runCmds cmds) id).2.orders :=
        (cancelProcess_fst _ id).mp h2
      rw [hord] at hmem2
      exact absurd hmem2 (lookupIdx_eq_none.mp (lookupIdx_eraseIdx_self _ _))
  · intro hf
    exact cancelProcess_false_frame _ id hf

/-- Witness for C6: a single resting sell order with id "1"; its cancel
reports true, removes it, a second cancel reports false, and a cancel of
an absent id leaves the book unchanged. -/
theorem cancel_true_iff_resting_witness :
    ((cancelProcess (runCmds [Cmd.submit ⟨"1", Side.sell, OrderType.limit, 100, 10, "a"⟩])
        "1").1 = true ↔
      "1" ∈ restingIds (runCmds [Cmd.submit ⟨"1", Side.sell, OrderType.limit, 100, 10, "a"⟩])) ∧
    ((cancelProcess (runCmds [Cmd.submit ⟨"1", Side.sell, OrderType.limit, 100, 10, "a"⟩])
        "1").1 = true →
      "1" ∉ restingIds (cancelProcess
        (runCmds [Cmd.submit ⟨"1", Side.sell, OrderType.limit, 100, 10, "a"⟩]) "1").2 ∧
      (cancelProcess (cancelProcess
        (runCmds [Cmd.submit ⟨"1", Side.sell, OrderType.limit, 100, 10, "a"⟩]) "1").2
        "1").1 = false) ∧
    ((cancelProcess (runCmds [Cmd.submit ⟨"1", Side.sell, OrderType.limit, 100, 10, "a"⟩])
        "1").1 = false →
      (cancelProcess (runCmds [Cmd.submit ⟨"1", Side.sell, OrderType.limit, 100, 10, "a"⟩])
        "1").2 = runCmds [Cmd.submit ⟨"1", Side.sell, OrderType.limit, 100, 10, "a"⟩]) :=
  cancel_true_iff_resting _ "1"
    (by
      intro c hc
      fin_cases hc <;> simp [cmdPriceOK, maxFloat64] <;> norm_num)
    (by simp [submittedIds])

/-! FIFO structure of one price level (C3). -/

theorem quantity_mkTrade (o front : Order) (price fill : ℚ) :
    (mkTrade o front price fill).quantity = fill := by
  by_cases h : o.side = Side.buy
  · simp [mkTrade, h]
  · simp [mkTrade, h]

theorem matchQueue_zero (o : Order) (price : ℚ) (ℓ : List Order) :
    (matchQueue o price 0 ℓ).1 = [] ∧ (matchQueue o price 0 ℓ).2.2.2 = [] := by
  cases ℓ with
  | nil => exact ⟨rfl, rfl⟩
  | cons front rest =>
    rw [matchQueue, if_neg (by norm_num)]
    exact ⟨rfl, rfl⟩

theorem matchLoop_nonpos_book (isLimit : Bool) (o : Order) (fuel : Nat)
    (ob : OrderBook) (q : ℚ) (hq : ¬q > 0) : (matchLoop isLimit o fuel ob q).2.2 = ob := by
  cases fuel with
  | zero => rfl
  | succ n => rw [matchLoop, if_neg hq]

theorem matchQueue_passive_take (o : Order) (price : ℚ) :
    ∀ (q : ℚ) (ℓ : List Order),
      (matchQueue o price q ℓ).1.map (fun t => passiveOrderId o.side t) =
        (ℓ.map (·.id)).take (matchQueue o price q ℓ).1.length := by
  intro q ℓ
  induction ℓ generalizing q with
  | nil => rfl
  | cons front rest ih =>
    by_cases hq : q > 0
    · by_cases hfull : front.quantity - min q front.quantity ≤ 0
      · rw [matchQueue, if_pos hq, if_pos hfull]
        show passiveOrderId o.side (mkTrade o front price (min q front.quantity)) ::
            (matchQueue o price (q - min q front.quantity) rest).1.map
              (fun t => passiveOrderId o.side t) =
          front.id :: (rest.map (·.id)).take
            (matchQueue o price (q - min q front.quantity) rest).1.length
        rw [passive_mkTrade, ih]
      · rw [matchQueue, if_pos hq, if_neg hfull]
        show [passiveOrderId o.side (mkTrade o front price (min q front.quantity))] =
          front.id :: (rest.map (·.id)).take 0
        rw [passive_mkTrade, List.take_zero]
    · rw [matchQueue, if_neg hq]
      rfl

theorem matchQueue_length_le (o : Order) (price : ℚ) (q : ℚ) (ℓ : List Order) :
    (matchQueue o price q ℓ).1.length ≤ ℓ.length := by
  have h := congrArg List.length (matchQueue_passive_take o price q ℓ)
  rw [List.length_map, List.length_take, List.length_map] at h
  omega

theorem matchQueue_full_fills (o : Order) (price : ℚ) :
    ∀ (q : ℚ) (ℓ : List Order) (i : Nat) (t : Trade) (r : Order),
      (matchQueue o price q ℓ).1[i]? = some t →
      i + 1 < (matchQueue o price q ℓ).1.length →
      ℓ[i]? = some r →
      t.quantity = r.quantity ∧ r.id ∈ (matchQueue o price q ℓ).2.2.2 := by
  intro q ℓ
  induction ℓ generalizing q with
  | nil =>
    intro i t r ht hlen hr
    rw [matchQueue] at ht
    simp at ht
  | cons front rest ih =>
    intro i t r ht hlen hr
    by_cases hq : q > 0
    · by_cases hfull : front.quantity - min q front.quantity ≤ 0
      · rw [matchQueue, if_pos hq, if_pos hfull] at ht hlen ⊢
        cases i with
        | zero =>
          have ht' : t = mkTrade o front price (min q front.quantity) :=
            (Option.some.inj (by simpa using ht)).symm
          have hr' : r = front := (Option.some.inj (by simpa using hr)).symm
          rw [ht', hr']
          constructor
          · rw [quantity_mkTrade]
            have h1 := min_le_right q front.quantity
            have h2 : front.quantity ≤ min q front.quantity := by linarith
            exact le_antisymm h1 h2
          · exact List.mem_cons_self _ _
        | succ j =>
          have ht' : (matchQueue o price (q - min q front.quantity) rest).1[j]? = some t := by
            simpa using ht
          have hr' : rest[j]? = some r := by simpa using hr
          have hlen' : j + 1 < (matchQueue o price (q - min q front.quantity) rest).1.length := by
            simpa using hlen
          obtain ⟨hh1, hh2⟩ := ih _ j t r ht' hlen' hr'
          exact ⟨hh1, List.mem_cons_of_mem _ hh2⟩
      · rw [matchQueue, if_pos hq, if_neg hfull] at hlen
        have hlt : i + 1 < 1 := by simpa using hlen
        omega
    · rw [matchQueue, if_neg hq] at ht
      simp at ht

theorem idx_lt_of_pair_sublist {α : Type _} {u : List α} {a b : α} (hnd : u.Nodup)
    (hab : List.Sublist [a, b] u) {j : Nat} (hj : j < u.length)
    (hjb : u.get ⟨j, hj⟩ = b) :
    ∃ i, ∃ hi : i < u.length, i < j ∧ u.get ⟨i, hi⟩ = a := by
  obtain ⟨u₁, u₂, rfl, hb⟩ := pair_sublist_decomp hab
  have hlen : u₁.length < (u₁ ++ a :: u₂).length := by
    simp
  have hgetA : (u₁ ++ a :: u₂).get ⟨u₁.length, hlen⟩ = a := by
    rw [List.get_eq_getElem]
    rw [List.getElem_append_right (le_refl u₁.length)]
    simp
  refine ⟨u₁.length, hlen, ?_, hgetA⟩
  by_contra hle
  push_neg at hle
  have hne : (u₁ ++ a :: u₂).get ⟨j, hj⟩ ≠ b := by
    rcases Nat.lt_or_ge j u₁.length with hlt | hge
    · have hmem : (u₁ ++ a :: u₂).get ⟨j, hj⟩ ∈ u₁ := by
        rw [List.get_eq_getElem, List.getElem_append_left hlt]
        exact List.getElem_mem _
      intro hh
      rw [hh] at hmem
      have hdis := List.disjoint_of_nodup_append hnd
      exact hdis hmem (List.mem_cons_of_mem _ hb)
    · have hje : j = u₁.length := le_antisymm hle hge
      subst hje
      rw [hgetA]
      intro hh
      have hnd2 : (a :: u₂).Nodup := hnd.of_append_right
      rw [hh] at hnd2
      exact (List.nodup_cons.mp hnd2).1 hb
  exact hne hjb

theorem level_ids_disjoint {m : BookSide} (hndk : (keys m).Nodup)
    (hndids : (levelIds m).Nodup) {p p' : ℚ} {ℓ ℓ' : List Order}
    (hne : p' ≠ p) (hl : lookupLevel m p = some ℓ) (hl' : lookupLevel m p' = some ℓ')
    {x : String} (hx : x ∈ ℓ.map (·.id)) (hx' : x ∈ ℓ'.map (·.id)) : False := by
  obtain ⟨X, Y, hXY, hset, herase⟩ := levelIds_decomp hndk hl
  have hxy : x ∈ X ++ Y := by
    rw [← herase]
    obtain ⟨r, hr, hrid⟩ := List.mem_map.mp hx'
    exact mem_levelIds.mpr ⟨(p', ℓ'),
      mem_eraseLevel.mpr ⟨lookupLevel_mem hl', hne⟩, r, hr, hrid⟩
  have h0 : (X ++ (ℓ.map (·.id) ++ (Y ++ ([] : List String)))).Nodup := by
    have h1 := hndids
    rw [hXY] at h1
    simpa [List.append_assoc] using h1
  obtain ⟨h2, h3, hR⟩ := nodup_parts_gen h0
  rcases List.mem_append.mp hxy with h' | h'
  · exact (hR _ hx).1 h'
  · exact (hR _ hx).2.1 h'

theorem matchQueue_fifo (o : Order) (price q : ℚ) (ℓ : List Order)
    (hnd : (ℓ.map (·.id)).Nodup) (a b : String)
    (hab : List.Sublist [a, b] (ℓ.map (·.id)))
    (j : Nat) (t : Trade) (hj : (matchQueue o price q ℓ).1[j]? = some t)
    (hb : passiveOrderId o.side t = b) :
    ∃ i t', i < j ∧ (matchQueue o price q ℓ).1[i]? = some t' ∧
      passiveOrderId o.side t' = a ∧
      (∃ r, ℓ[i]? = some r ∧ r.id = a ∧ t'.quantity = r.quantity) ∧
      a ∈ (matchQueue o price q ℓ).2.2.2 := by
  have hpre := matchQueue_passive_take o price q ℓ
  obtain ⟨hjlt, hjget⟩ := List.getElem?_eq_some_iff.mp hj
  have hmle : (matchQueue o price q ℓ).1.length ≤ ℓ.length := matchQueue_length_le o price q ℓ
  have hidsj : (ℓ.map (·.id))[j]? = some b := by
    have h1 : ((matchQueue o price q ℓ).1.map (fun t => passiveOrderId o.side t))[j]? =
        some (passiveOrderId o.side t) := by
      rw [List.getElem?_map, hj]
      rfl
    rw [hpre, List.getElem?_take, if_pos hjlt, hb] at h1
    exact h1
  obtain ⟨hjl2, hjget2⟩ := List.getElem?_eq_some_iff.mp hidsj
  obtain ⟨i, hi, hij, hia⟩ := idx_lt_of_pair_sublist hnd hab hjl2
    (by rw [List.get_eq_getElem]; exact hjget2)
  have hilt : i < (matchQueue o price q ℓ).1.length := Nat.lt_trans hij hjlt
  have hnext : i + 1 < (matchQueue o price q ℓ).1.length := by omega
  have hil : i < ℓ.length := lt_of_lt_of_le hilt hmle
  have hti : (matchQueue o price q ℓ).1[i]? =
      some ((matchQueue o price q ℓ).1.get ⟨i, hilt⟩) := by
    simp [List.getElem?_eq_getElem hilt]
  have hri : ℓ[i]? = some (ℓ.get ⟨i, hil⟩) := by
    simp [List.getElem?_eq_getElem hil]
  obtain ⟨hq1, hq2⟩ := matchQueue_full_fills o price q ℓ i _ _ hti hnext hri
  have hpi : passiveOrderId o.side ((matchQueue o price q ℓ).1.get ⟨i, hilt⟩) = a := by
    have h1 : ((matchQueue o price q ℓ).1.map (fun t => passiveOrderId o.side t))[i]? =
        some (passiveOrderId o.side ((matchQueue o price q ℓ).1.get ⟨i, hilt⟩)) := by
      rw [List.getElem?_map, hti]
      rfl
    rw [hpre, List.getElem?_take, if_pos hilt] at h1
    have h2 : (ℓ.map (·.id))[i]? = some a := by
      have h3 := hia
      rw [List.get_eq_getElem] at h3
      simp [List.getElem?_eq_getElem hi, h3]
    rw [h2] at h1
    exact (Option.some.inj h1).symm
  have hrid : (ℓ.get ⟨i, hil⟩).id = a := by
    have h3 := hia
    rw [List.get_eq_getElem, List.getElem_map] at h3
    rw [List.get_eq_getElem]
    exact h3
  rw [hrid] at hq2
  exact ⟨i, _, hij, hti, hpi, ⟨ℓ.get ⟨i, hil⟩, hri, hrid, hq1⟩, hq2⟩

theorem matchAtPrice_call (ob : OrderBook) (o : Order) (q price : ℚ) {ℓ : List Order}
    (hl : lookupLevel (oppositeOf ob o.side) price = some ℓ) (hnil : ℓ ≠ []) :
    (matchAtPrice ob o q price).1 = (matchQueue o price q ℓ).1 ∧
    (matchAtPrice ob o q price).2.1 = (matchQueue o price q ℓ).2.1 := by
  by_cases hside : o.side = Side.buy
  · have hl' : lookupLevel ob.asks price = some ℓ := by
      rw [oppositeOf, if_pos hside] at hl
      exact hl
    by_cases hre : (matchQueue o price q ℓ).2.2.1 = []
    · by_cases hbest : price = ob.bestAsk
      · subst hbest
        constructor <;> simp [matchAtPrice, hside, hl', hnil, hre]
      · constructor <;> simp [matchAtPrice, hside, hl', hnil, hre, hbest]
    · constructor <;> simp [matchAtPrice, hside, hl', hnil, hre]
  · have hl' : lookupLevel ob.bids price = some ℓ := by
      rw [oppositeOf, if_neg hside] at hl
      exact hl
    by_cases hre : (matchQueue o price q ℓ).2.2.1 = []
    · by_cases hbest : price = ob.bestBid
      · subst hbest
        constructor <;> simp [matchAtPrice, hside, hl', hnil, hre]
      · constructor <;> simp [matchAtPrice, hside, hl', hnil, hre, hbest]
    · constructor <;> simp [matchAtPrice, hside, hl', hnil, hre]

theorem matchAtPrice_eq_none (ob : OrderBook) (o : Order) (q price : ℚ)
    (hl : lookupLevel (oppositeOf ob o.side) price = none) :
    matchAtPrice ob o q price = ([], q, ob) := by
  by_cases hside : o.side = Side.buy
  · have hl' : lookupLevel ob.asks price = none := by
      rw [oppositeOf, if_pos hside] at hl
      exact hl
    simp [matchAtPrice, hside, hl']
  · have hl' : lookupLevel ob.bids price = none := by
      rw [oppositeOf, if_neg hside] at hl
      exact hl
    simp [matchAtPrice, hside, hl']

theorem matchAtPrice_eq_nil (ob : OrderBook) (o : Order) (q price : ℚ)
    (hl : lookupLevel (oppositeOf ob o.side) price = some []) :
    matchAtPrice ob o q price = ([], q, ob) := by
  by_cases hside : o.side = Side.buy
  · have hl' : lookupLevel ob.asks price = some [] := by
      rw [oppositeOf, if_pos hside] at hl
      exact hl
    simp [matchAtPrice, hside, hl']
  · have hl' : lookupLevel ob.bids price = some [] := by
      rw [oppositeOf, if_neg hside] at hl
      exact hl
    simp [matchAtPrice, hside, hl']

theorem matchAtPrice_same_side (ob : OrderBook) (o : Order) (q price : ℚ) :
    bookSideOf (matchAtPrice ob o q price).2.2 o.side = bookSideOf ob o.side := by
  by_cases hside : o.side = Side.buy
  · rw [bookSideOf, bookSideOf, if_pos hside, if_pos hside]
    rcases hl : lookupLevel ob.asks price with _ | ℓ
    · simp [matchAtPrice, hside, hl]
    · by_cases hnil : ℓ = []
      · simp [matchAtPrice, hside, hl, hnil]
      · by_cases hre : (matchQueue o price q ℓ).2.2.1 = []
        · by_cases hbest : price = ob.bestAsk
          · subst hbest
            simp [matchAtPrice, hside, hl, hnil, hre]
          · simp [matchAtPrice, hside, hl, hnil, hre, hbest]
        · simp [matchAtPrice, hside, hl, hnil, hre]
  · rw [bookSideOf, bookSideOf, if_neg hside, if_neg hside]
    rcases hl : lookupLevel ob.bids price with _ | ℓ
    · simp [matchAtPrice, hside, hl]
    · by_cases hnil : ℓ = []
      · simp [matchAtPrice, hside, hl, hnil]
      · by_cases hre : (matchQueue o price q ℓ).2.2.1 = []
        · by_cases hbest : price = ob.bestBid
          · subst hbest
            simp [matchAtPrice, hside, hl, hnil, hre]
          · simp [matchAtPrice, hside, hl, hnil, hre, hbest]
        · simp [matchAtPrice, hside, hl, hnil, hre]

theorem matchAtPrice_opp_frame (ob : OrderBook) (o : Order) (q price : ℚ)
    {x : ℚ} (hx : x ≠ price) :
    lookupLevel (oppositeOf (matchAtPrice ob o q price).2.2 o.side) x =
      lookupLevel (oppositeOf ob o.side) x := by
  by_cases hside : o.side = Side.buy
  · rw [oppositeOf, oppositeOf, if_pos hside, if_pos hside]
    rcases hl : lookupLevel ob.asks price with _ | ℓ
    · simp [matchAtPrice, hside, hl]
    · by_cases hnil : ℓ = []
      · simp [matchAtPrice, hside, hl, hnil]
      · by_cases hre : (matchQueue o price q ℓ).2.2.1 = []
        · have hasks : (matchAtPrice ob o q price).2.2.asks = eraseLevel ob.asks price := by
            by_cases hbest : price = ob.bestAsk
            · subst hbest
              simp [matchAtPrice, hside, hl, hnil, hre]
            · simp [matchAtPrice, hside, hl, hnil, hre, hbest]
          rw [hasks, lookupLevel_eraseLevel_ne _ _ _ hx]
        · have hasks : (matchAtPrice ob o q price).2.2.asks =
              setLevel ob.asks price (matchQueue o price q ℓ).2.2.1 := by
            simp [matchAtPrice, hside, hl, hnil, hre]
          rw [hasks, lookupLevel_setLevel_ne _ _ _ _ hx]
  · rw [oppositeOf, oppositeOf, if_neg hside, if_neg hside]
    rcases hl : lookupLevel ob.bids price with _ | ℓ
    · simp [matchAtPrice, hside, hl]
    · by_cases hnil : ℓ = []
      · simp [matchAtPrice, hside, hl, hnil]
      · by_cases hre : (matchQueue o price q ℓ).2.2.1 = []
        · have hbids : (matchAtPrice ob o q price).2.2.bids = eraseLevel ob.bids price := by
            by_cases hbest : price = ob.bestBid
            · subst hbest
              simp [matchAtPrice, hside, hl, hnil, hre]
            · simp [matchAtPrice, hside, hl, hnil, hre, hbest]
          rw [hbids, lookupLevel_eraseLevel_ne _ _ _ hx]
        · have hbids : (matchAtPrice ob o q price).2.2.bids =
              setLevel ob.bids price (matchQueue o price q ℓ).2.2.1 := by
            simp [matchAtPrice, hside, hl, hnil, hre]
          rw [hbids, lookupLevel_setLevel_ne _ _ _ _ hx]

theorem matchAtPrice_opp_at (ob : OrderBook) (o : Order) (q price : ℚ) {ℓ : List Order}
    (hl : lookupLevel (oppositeOf ob o.side) price = some ℓ) (hnil : ℓ ≠ []) :
    lookupLevel (oppositeOf (matchAtPrice ob o q price).2.2 o.side) price =
      (if (matchQueue o price q ℓ).2.2.1 = [] then none
       else some (matchQueue o price q ℓ).2.2.1) := by
  by_cases hside : o.side = Side.buy
  · have hl' : lookupLevel ob.asks price = some ℓ := by
      rw [oppositeOf, if_pos hside] at hl
      exact hl
    rw [oppositeOf, if_pos hside]
    by_cases hre : (matchQueue o price q ℓ).2.2.1 = []
    · have hasks : (matchAtPrice ob o q price).2.2.asks = eraseLevel ob.asks price := by
        by_cases hbest : price = ob.bestAsk
        · subst hbest
          simp [matchAtPrice, hside, hl', hnil, hre]
        · simp [matchAtPrice, hside, hl', hnil, hre, hbest]
      rw [hasks, if_pos hre]
      exact lookupLevel_eraseLevel_self _ _
    · have hasks : (matchAtPrice ob o q price).2.2.asks =
          setLevel ob.asks price (matchQueue o price q ℓ).2.2.1 := by
        simp [matchAtPrice, hside, hl', hnil, hre]
      rw [hasks, if_neg hre]
      exact lookupLevel_setLevel_self _ _ _
  · have hl' : lookupLevel ob.bids price = some ℓ := by
      rw [oppositeOf, if_neg hside] at hl
      exact hl
    rw [oppositeOf, if_neg hside]
    by_cases hre : (matchQueue o price q ℓ).2.2.1 = []
    · have hbids : (matchAtPrice ob o q price).2.2.bids = eraseLevel ob.bids price := by
        by_cases hbest : price = ob.bestBid
        · subst hbest
          simp [matchAtPrice, hside, hl', hnil, hre]
        · simp [matchAtPrice, hside, hl', hnil, hre, hbest]
      rw [hbids, if_pos hre]
      exact lookupLevel_eraseLevel_self _ _
    · have hbids : (matchAtPrice ob o q price).2.2.bids =
          setLevel ob.bids price (matchQueue o price q ℓ).2.2.1 := by
        simp [matchAtPrice, hside, hl', hnil, hre]
      rw [hbids, if_neg hre]
      exact lookupLevel_setLevel_self _ _ _

theorem matchAtPrice_removed_gone (ob : OrderBook) (o : Order) (q price : ℚ)
    {ℓ : List Order} (hB : InvBook ob) (hnod : (restingIds ob).Nodup)
    (hl : lookupLevel (oppositeOf ob o.side) price = some ℓ) (hnil : ℓ ≠ []) :
    ∀ x ∈ (matchQueue o price q ℓ).2.2.2,
      x ∉ restingIds (matchAtPrice ob o q price).2.2 := by
  intro x hx
  have hids := matchQueue_ids_decomp o price q ℓ
  by_cases hside : o.side = Side.buy
  · have hl' : lookupLevel ob.asks price = some ℓ := by
      rw [oppositeOf, if_pos hside] at hl
      exact hl
    obtain ⟨X, Y, hXY, hset, herase⟩ := levelIds_decomp hB.2.1.1 hl'
    have hnodG : ((levelIds ob.bids ++ X) ++ ((matchQueue o price q ℓ).2.2.2 ++
        ((matchQueue o price q ℓ).2.2.1.map (·.id) ++ Y))).Nodup := by
      have h0 := hnod
      rw [restingIds, hXY, hids] at h0
      simpa [List.append_assoc] using h0
    obtain ⟨hnodS, hnodE, hR⟩ := nodup_parts_gen hnodG
    by_cases hre : (matchQueue o price q ℓ).2.2.1 = []
    · have hres : (matchAtPrice ob o q price).2.2.bids = ob.bids ∧
          (matchAtPrice ob o q price).2.2.asks = eraseLevel ob.asks price := by
        by_cases hbest : price = ob.bestAsk
        · subst hbest
          constructor <;> simp [matchAtPrice, hside, hl', hnil, hre]
        · constructor <;> simp [matchAtPrice, hside, hl', hnil, hre, hbest]
      intro hmem
      rw [restingIds, hres.1, hres.2, herase] at hmem
      rcases List.mem_append.mp hmem with h' | h'
      · exact (hR _ hx).1 (List.mem_append_left _ h')
      · rcases List.mem_append.mp h' with h'' | h''
        · exact (hR _ hx).1 (List.mem_append_right _ h'')
        · exact (hR _ hx).2.2 h''
    · have hres : (matchAtPrice ob o q price).2.2.bids = ob.bids ∧
          (matchAtPrice ob o q price).2.2.asks =
            setLevel ob.asks price (matchQueue o price q ℓ).2.2.1 := by
        constructor <;> simp [matchAtPrice, hside, hl', hnil, hre]
      intro hmem
      rw [restingIds, hres.1, hres.2, hset] at hmem
      rcases List.mem_append.mp hmem with h' | h'
      · exact (hR _ hx).1 (List.mem_append_left _ h')
      · rcases List.mem_append.mp h' with h'' | h''
        · rcases List.mem_append.mp h'' with h3 | h3
          · exact (hR _ hx).1 (List.mem_append_right _ h3)
          · exact (hR _ hx).2.1 h3
        · exact (hR _ hx).2.2 h''
  · have hl' : lookupLevel ob.bids price = some ℓ := by
      rw [oppositeOf, if_neg hside] at hl
      exact hl
    obtain ⟨X, Y, hXY, hset, herase⟩ := levelIds_decomp hB.1.1 hl'
    have hnodG : (X ++ ((matchQueue o price q ℓ).2.2.2 ++
        ((matchQueue o price q ℓ).2.2.1.map (·.id) ++
          (Y ++ levelIds ob.asks)))).Nodup := by
      have h0 := hnod
      rw [restingIds, hXY, hids] at h0
      simpa [List.append_assoc] using h0
    obtain ⟨hnodS, hnodE, hR⟩ := nodup_parts_gen hnodG
    by_cases hre : (matchQueue o price q ℓ).2.2.1 = []
    · have hres : (matchAtPrice ob o q price).2.2.bids = eraseLevel ob.bids price ∧
          (matchAtPrice ob o q price).2.2.asks = ob.asks := by
        by_cases hbest : price = ob.bestBid
        · subst hbest
          constructor <;> simp [matchAtPrice, hside, hl', hnil, hre]
        · constructor <;> simp [matchAtPrice, hside, hl', hnil, hre, hbest]
      intro hmem
      rw [restingIds, hres.1, hres.2, herase] at hmem
      rcases List.mem_append.mp hmem with h' | h'
      · rcases List.mem_append.mp h' with h'' | h''
        · exact (hR _ hx).1 h''
        · exact (hR _ hx).2.2 (List.mem_append_left _ h'')
      · exact (hR _ hx).2.2 (List.mem_append_right _ h')
    · have hres : (matchAtPrice ob o q price).2.2.bids =
          setLevel ob.bids price (matchQueue o price q ℓ).2.2.1 ∧
          (matchAtPrice ob o q price).2.2.asks = ob.asks := by
        constructor <;> simp [matchAtPrice, hside, hl', hnil, hre]
      intro hmem
      rw [restingIds, hres.1, hres.2, hset] at hmem
      rcases List.mem_append.mp hmem with h' | h'
      · rcases List.mem_append.mp h' with h'' | h''
        · rcases List.mem_append.mp h'' with h3 | h3
          · exact (hR _ hx).1 h3
          · exact (hR _ hx).2.1 h3
        · exact (hR _ hx).2.2 (List.mem_append_left _ h'')
      · exact (hR _ hx).2.2 (List.mem_append_right _ h')

theorem opp_level_ne_nil (ob : OrderBook) (o : Order) (hB : InvBook ob) {p : ℚ}
    {ℓ : List Order} (hl : lookupLevel (oppositeOf ob o.side) p = some ℓ) : ℓ ≠ [] := by
  by_cases hside : o.side = Side.buy
  · rw [oppositeOf, if_pos hside] at hl
    exact (hB.2.1.2 _ (lookupLevel_mem hl)).2.2.1
  · rw [oppositeOf, if_neg hside] at hl
    exact (hB.1.2 _ (lookupLevel_mem hl)).2.2.1

theorem matchLoop_level_fifo (isLimit : Bool) (o : Order) (p : ℚ) :
    ∀ (fuel : Nat) (ob : OrderBook) (q : ℚ) (ℓ : List Order),
      InvBook ob → InvIdx ob →
      lookupLevel (oppositeOf ob o.side) p = some ℓ →
      ∃ ts₁ q₁ ts₃,
        (matchLoop isLimit o fuel ob q).1 = ts₁ ++ (matchQueue o p q₁ ℓ).1 ++ ts₃ ∧
        (∀ t ∈ ts₁, passiveOrderId o.side t ∉ ℓ.map (·.id)) ∧
        (∀ t ∈ ts₃, passiveOrderId o.side t ∉ ℓ.map (·.id)) ∧
        (∀ x ∈ (matchQueue o p q₁ ℓ).2.2.2,
          x ∉ restingIds (matchLoop isLimit o fuel ob q).2.2) := by
  intro fuel
  induction fuel with
  | zero =>
    intro ob q ℓ hB hI hl
    refine ⟨[], 0, [], ?_, fun t ht => absurd ht (List.not_mem_nil t),
      fun t ht => absurd ht (List.not_mem_nil t), ?_⟩
    · rw [(matchQueue_zero o p ℓ).1]
      rfl
    · intro x hx
      rw [(matchQueue_zero o p ℓ).2] at hx
      cases hx
  | succ n ih =>
    intro ob q ℓ hB hI hl
    rw [matchLoop]
    by_cases hq : q > 0
    · rw [if_pos hq]
      by_cases hoppz : getBestOpposite ob o.side = 0
      · rw [if_pos hoppz]
        refine ⟨[], 0, [], ?_, fun t ht => absurd ht (List.not_mem_nil t),
          fun t ht => absurd ht (List.not_mem_nil t), ?_⟩
        · rw [(matchQueue_zero o p ℓ).1]
          rfl
        · intro x hx
          rw [(matchQueue_zero o p ℓ).2] at hx
          cases hx
      · rw [if_neg hoppz]
        by_cases hcond : isLimit = true ∧
            ((o.side = Side.buy ∧ getBestOpposite ob o.side > o.price) ∨
             (o.side = Side.sell ∧ getBestOpposite ob o.side < o.price))
        · rw [if_pos hcond]
          refine ⟨[], 0, [], ?_, fun t ht => absurd ht (List.not_mem_nil t),
            fun t ht => absurd ht (List.not_mem_nil t), ?_⟩
          · rw [(matchQueue_zero o p ℓ).1]
            rfl
          · intro x hx
            rw [(matchQueue_zero o p ℓ).2] at hx
            cases hx
        · rw [if_neg hcond]
          by_cases hpp : getBestOpposite ob o.side = p
          · rw [hpp]
            have hnil : ℓ ≠ [] := opp_level_ne_nil ob o hB hl
            obtain ⟨hc1, hc2⟩ := matchAtPrice_call ob o q p hl hnil
            by_cases hre : (matchQueue o p q ℓ).2.2.1 = []
            · refine ⟨[], q, (matchLoop isLimit o n (matchAtPrice ob o q p).2.2
                (matchAtPrice ob o q p).2.1).1, ?_, fun t ht => absurd ht (List.not_mem_nil t),
                ?_, ?_⟩
              · show (matchAtPrice ob o q p).1 ++ (matchLoop isLimit o n
                  (matchAtPrice ob o q p).2.2 (matchAtPrice ob o q p).2.1).1 = _
                rw [hc1]
                simp
              · intro t ht
                have hBpost := matchAtPrice_inv ob o q p hB
                obtain ⟨r, hrrest, hrid, hrpr⟩ :=
                  matchLoop_trades_resting isLimit o n _ _ hBpost t ht
                have hrin : passiveOrderId o.side t ∈
                    restingIds (matchAtPrice ob o q p).2.2 := by
                  rw [hrid]
                  by_cases hside : o.side = Side.buy
                  · rw [oppositeOf, if_pos hside] at hrrest
                    obtain ⟨e, he, hre2⟩ := hrrest
                    exact List.mem_append_right _ (mem_levelIds.mpr ⟨e, he, r, hre2, rfl⟩)
                  · rw [oppositeOf, if_neg hside] at hrrest
                    obtain ⟨e, he, hre2⟩ := hrrest
                    exact List.mem_append_left _ (mem_levelIds.mpr ⟨e, he, r, hre2, rfl⟩)
                intro hmem
                have hxrem : passiveOrderId o.side t ∈ (matchQueue o p q ℓ).2.2.2 := by
                  have hids := matchQueue_ids_decomp o p q ℓ
                  rw [hre] at hids
                  rw [hids] at hmem
                  simpa using hmem
                exact matchAtPrice_removed_gone ob o q p hB hI.1 hl hnil _ hxrem hrin
              · intro x hx
                have hgone := matchAtPrice_removed_gone ob o q p hB hI.1 hl hnil x hx
                intro hmem
                exact hgone ((matchLoop_ids_sub isLimit o n _ _ x).1 hmem)
            · have hql : ¬(matchAtPrice ob o q p).2.1 > 0 := by
                rw [hc2]
                intro hpos
                exact hre (matchQueue_rem_of_pos o p q ℓ hpos)
              have hrt : (matchLoop isLimit o n (matchAtPrice ob o q p).2.2
                  (matchAtPrice ob o q p).2.1).1 = [] :=
                matchLoop_nonpos_trades _ _ _ _ _ hql
              have hrb : (matchLoop isLimit o n (matchAtPrice ob o q p).2.2
                  (matchAtPrice ob o q p).2.1).2.2 = (matchAtPrice ob o q p).2.2 :=
                matchLoop_nonpos_book _ _ _ _ _ hql
              refine ⟨[], q, [], ?_, fun t ht => absurd ht (List.not_mem_nil t),
                fun t ht => absurd ht (List.not_mem_nil t), ?_⟩
              · show (matchAtPrice ob o q p).1 ++ (matchLoop isLimit o n
                  (matchAtPrice ob o q p).2.2 (matchAtPrice ob o q p).2.1).1 = _
                rw [hc1, hrt]
                simp
              · intro x hx
                show x ∉ restingIds (matchLoop isLimit o n (matchAtPrice ob o q p).2.2
                  (matchAtPrice ob o q p).2.1).2.2
                rw [hrb]
                exact matchAtPrice_removed_gone ob o q p hB hI.1 hl hnil x hx
          · have hlpost : lookupLevel (oppositeOf (matchAtPrice ob o q
                (getBestOpposite ob o.side)).2.2 o.side) p = some ℓ := by
              rw [matchAtPrice_opp_frame ob o q _ (fun hh => hpp hh.symm)]
              exact hl
            have hBpost := matchAtPrice_inv ob o q (getBestOpposite ob o.side) hB
            have hIpost := matchAtPrice_invIdx ob o q (getBestOpposite ob o.side) hB hI
            obtain ⟨ts₁', q₁, ts₃', hts, hts1, hts3, hremg⟩ :=
              ih (matchAtPrice ob o q (getBestOpposite ob o.side)).2.2
                (matchAtPrice ob o q (getBestOpposite ob o.side)).2.1 ℓ
                hBpost hIpost hlpost
            have hkeys : (keys (oppositeOf ob o.side)).Nodup := by
              by_cases hside : o.side = Side.buy
              · rw [oppositeOf, if_pos hside]
                exact hB.2.1.1
              · rw [oppositeOf, if_neg hside]
                exact hB.1.1
            have hlids : (levelIds (oppositeOf ob o.side)).Nodup := by
              have h0 := hI.1
              rw [restingIds] at h0
              by_cases hside : o.side = Side.buy
              · rw [oppositeOf, if_pos hside]
                exact h0.of_append_right
              · rw [oppositeOf, if_neg hside]
                exact h0.of_append_left
            refine ⟨(matchAtPrice ob o q (getBestOpposite ob o.side)).1 ++ ts₁', q₁, ts₃',
              ?_, ?_, hts3, ?_⟩
            · show (matchAtPrice ob o q (getBestOpposite ob o.side)).1 ++
                (matchLoop isLimit o n (matchAtPrice ob o q (getBestOpposite ob o.side)).2.2
                  (matchAtPrice ob o q (getBestOpposite ob o.side)).2.1).1 = _
              rw [hts]
              simp [List.append_assoc]
            · intro t ht
              rcases List.mem_append.mp ht with ht' | ht'
              · rcases hlv : lookupLevel (oppositeOf ob o.side)
                    (getBestOpposite ob o.side) with _ | ℓ'
                · rw [matchAtPrice_eq_none ob o q _ hlv] at ht'
                  cases ht'
                · by_cases hnil' : ℓ' = []
                  · rw [hnil'] at hlv
                    rw [matchAtPrice_eq_nil ob o q _ hlv] at ht'
                    cases ht'
                  · have hceq := (matchAtPrice_call ob o q _ hlv hnil').1
                    rw [hceq] at ht'
                    obtain ⟨r, hr, hrid⟩ := matchQueue_trades_passive o _ q ℓ' t ht'
                    intro hmem
                    exact level_ids_disjoint hkeys hlids hpp hl hlv hmem
                      (List.mem_map.mpr ⟨r, hr, hrid.symm⟩)
              · exact hts1 t ht'
            · intro x hx
              exact hremg x hx
    · rw [if_neg hq]
      refine ⟨[], 0, [], ?_, fun t ht => absurd ht (List.not_mem_nil t),
        fun t ht => absurd ht (List.not_mem_nil t), ?_⟩
      · rw [(matchQueue_zero o p ℓ).1]
        rfl
      · intro x hx
        rw [(matchQueue_zero o p ℓ).2] at hx
        cases hx

theorem queueAt_eq (ob : OrderBook) (s : Side) (p : ℚ) :
    queueAt ob s p = (lookupLevel (bookSideOf ob s) p).getD [] := rfl

theorem bookSideOf_ne (ob : OrderBook) {s s' : Side} (h : ¬s = s') :
    bookSideOf ob s = oppositeOf ob s' := by
  cases s with
  | buy =>
    cases s' with
    | buy => exact absurd rfl h
    | sell => simp [bookSideOf, oppositeOf]
  | sell =>
    cases s' with
    | buy => simp [bookSideOf, oppositeOf]
    | sell => exact absurd rfl h

theorem matchAtPrice_queue_sub (ob : OrderBook) (o : Order) (q price : ℚ)
    (s : Side) (p' : ℚ) :
    List.Sublist ((queueAt (matchAtPrice ob o q price).2.2 s p').map (·.id))
      ((queueAt ob s p').map (·.id)) := by
  rw [queueAt_eq, queueAt_eq]
  by_cases hs : s = o.side
  · rw [hs, matchAtPrice_same_side]
    try exact List.Sublist.refl _
  · rw [bookSideOf_ne _ hs, bookSideOf_ne _ hs]
    by_cases hp : p' = price
    · subst hp
      rcases hl : lookupLevel (oppositeOf ob o.side) p' with _ | ℓ
      · have hb : (matchAtPrice ob o q p').2.2 = ob := by
          rw [matchAtPrice_eq_none ob o q p' hl]
        rw [hb, hl]
        try exact List.Sublist.refl _
      · by_cases hnil : ℓ = []
        · subst hnil
          have hb : (matchAtPrice ob o q p').2.2 = ob := by
            rw [matchAtPrice_eq_nil ob o q p' hl]
          rw [hb, hl]
          try exact List.Sublist.refl _
        · rw [matchAtPrice_opp_at ob o q p' hl hnil]
          by_cases hre : (matchQueue o p' q ℓ).2.2.1 = []
          · rw [if_pos hre]
            simp
          · rw [if_neg hre]
            show List.Sublist ((matchQueue o p' q ℓ).2.2.1.map (·.id)) (ℓ.map (·.id))
            rw [matchQueue_ids_decomp o p' q ℓ]
            exact List.sublist_append_right _ _
    · rw [matchAtPrice_opp_frame ob o q _ hp]
      try exact List.Sublist.refl _

theorem matchLoop_queue_sub (isLimit : Bool) (o : Order) :
    ∀ (fuel : Nat) (ob : OrderBook) (q : ℚ) (s : Side) (p' : ℚ),
      List.Sublist ((queueAt (matchLoop isLimit o fuel ob q).2.2 s p').map (·.id))
        ((queueAt ob s p').map (·.id)) := by
  intro fuel
  induction fuel with
  | zero => intro ob q s p'; exact List.Sublist.refl _
  | succ n ih =>
    intro ob q s p'
    rw [matchLoop]
    by_cases hq : q > 0
    · rw [if_pos hq]
      by_cases hoppz : getBestOpposite ob o.side = 0
      · rw [if_pos hoppz]
        try exact List.Sublist.refl _
      · rw [if_neg hoppz]
        by_cases hcond : isLimit = true ∧
            ((o.side = Side.buy ∧ getBestOpposite ob o.side > o.price) ∨
             (o.side = Side.sell ∧ getBestOpposite ob o.side < o.price))
        · rw [if_pos hcond]
          try exact List.Sublist.refl _
        · rw [if_neg hcond]
          exact (ih _ _ s p').trans (matchAtPrice_queue_sub ob o q _ s p')
    · rw [if_neg hq]
      try exact List.Sublist.refl _

theorem matchPhase_queue_sub (ob : OrderBook) (o : Order) (s : Side) (p' : ℚ) :
    List.Sublist ((queueAt (matchPhase ob o).2.2 s p').map (·.id))
      ((queueAt ob s p').map (·.id)) := by
  rw [matchPhase]
  by_cases ht : o.typ = OrderType.market
  · rw [if_pos ht, matchMarket]
    exact matchLoop_queue_sub false o _ ob o.quantity s p'
  · rw [if_neg ht, matchLimit]
    exact matchLoop_queue_sub true o _ ob o.quantity s p'

theorem addToBook_queue_sub (ob : OrderBook) (o : Order) (s : Side) (p' : ℚ)
    (used : List String)
    (h : List.Sublist ((queueAt ob s p').map (·.id)) used) :
    List.Sublist ((queueAt (addToBook ob o) s p').map (·.id)) (used ++ [o.id]) := by
  rw [queueAt_eq] at h ⊢
  by_cases hside : o.side = Side.buy
  · have hres : (addToBook ob o).bids =
        setLevel ob.bids o.price ((lookupLevel ob.bids o.price).getD [] ++ [o]) ∧
        (addToBook ob o).asks = ob.asks := by
      simp [addToBook, hside]
    by_cases hs : s = Side.buy
    · rw [bookSideOf, if_pos hs, hres.1]
      rw [bookSideOf, if_pos hs] at h
      by_cases hp : p' = o.price
      · subst hp
        rw [lookupLevel_setLevel_self]
        show List.Sublist ((((lookupLevel ob.bids o.price).getD []) ++ [o]).map (·.id)) _
        rw [List.map_append]
        exact List.Sublist.append h (List.Sublist.refl _)
      · rw [lookupLevel_setLevel_ne _ _ _ _ hp]
        exact h.trans (List.sublist_append_left _ _)
    · rw [bookSideOf, if_neg hs, hres.2]
      rw [bookSideOf, if_neg hs] at h
      exact h.trans (List.sublist_append_left _ _)
  · have hres : (addToBook ob o).asks =
        setLevel ob.asks o.price ((lookupLevel ob.asks o.price).getD [] ++ [o]) ∧
        (addToBook ob o).bids = ob.bids := by
      simp [addToBook, hside]
    by_cases hs : s = Side.buy
    · rw [bookSideOf, if_pos hs, hres.2]
      rw [bookSideOf, if_pos hs] at h
      exact h.trans (List.sublist_append_left _ _)
    · rw [bookSideOf, if_neg hs, hres.1]
      rw [bookSideOf, if_neg hs] at h
      by_cases hp : p' = o.price
      · subst hp
        rw [lookupLevel_setLevel_self]
        show List.Sublist ((((lookupLevel ob.asks o.price).getD []) ++ [o]).map (·.id)) _
        rw [List.map_append]
        exact List.Sublist.append h (List.Sublist.refl _)
      · rw [lookupLevel_setLevel_ne _ _ _ _ hp]
        exact h.trans (List.sublist_append_left _ _)

theorem cancelProcess_queue_sub (ob : OrderBook) (id : String) (s : Side) (p' : ℚ) :
    List.Sublist ((queueAt (cancelProcess ob id).2 s p').map (·.id))
      ((queueAt ob s p').map (·.id)) := by
  rcases hix : lookupIdx ob.orders id with _ | v
  · rw [show (cancelProcess ob id).2 = ob from by simp [cancelProcess, hix]]
    try exact List.Sublist.refl _
  · obtain ⟨side, price⟩ := v
    by_cases hsb : side = Side.buy
    · rcases hlv : lookupLevel ob.bids price with _ | ℓ
      · rw [show (cancelProcess ob id).2 =
            { ob with orders := eraseIdx ob.orders id } from
            by simp [cancelProcess, hix, hsb, hlv]]
        try exact List.Sublist.refl _
      · have hres : (cancelProcess ob id).2.asks = ob.asks ∧
            (cancelProcess ob id).2.bids =
              (if removeById ℓ id = [] then eraseLevel ob.bids price
               else setLevel ob.bids price (removeById ℓ id)) := by
          by_cases hrem : removeById ℓ id = []
          · rw [if_pos hrem]
            by_cases hbest : price = ob.bestBid
            · subst hbest
              constructor <;> simp [cancelProcess, hix, hsb, hlv, hrem]
            · constructor <;> simp [cancelProcess, hix, hsb, hlv, hrem, hbest]
          · rw [if_neg hrem]
            constructor <;> simp [cancelProcess, hix, hsb, hlv, hrem]
        rw [queueAt_eq, queueAt_eq]
        by_cases hs : s = Side.buy
        · rw [bookSideOf, bookSideOf, if_pos hs, if_pos hs, hres.2]
          by_cases hp : p' = price
          · subst hp
            by_cases hrem : removeById ℓ id = []
            · rw [if_pos hrem, lookupLevel_eraseLevel_self]
              simp
            · rw [if_neg hrem, lookupLevel_setLevel_self, hlv]
              exact removeById_ids_sublist ℓ id
          · by_cases hrem : removeById ℓ id = []
            · rw [if_pos hrem, lookupLevel_eraseLevel_ne _ _ _ hp]
              try exact List.Sublist.refl _
            · rw [if_neg hrem, lookupLevel_setLevel_ne _ _ _ _ hp]
              try exact List.Sublist.refl _
        · rw [bookSideOf, bookSideOf, if_neg hs, if_neg hs, hres.1]
          try exact List.Sublist.refl _
    · rcases hlv : lookupLevel ob.asks price with _ | ℓ
      · rw [show (cancelProcess ob id).2 =
            { ob with orders := eraseIdx ob.orders id } from
            by simp [cancelProcess, hix, hsb, hlv]]
        try exact List.Sublist.refl _
      · have hres : (cancelProcess ob id).2.bids = ob.bids ∧
            (cancelProcess ob id).2.asks =
              (if removeById ℓ id = [] then eraseLevel ob.asks price
               else setLevel ob.asks price (removeById ℓ id)) := by
          by_cases hrem : removeById ℓ id = []
          · rw [if_pos hrem]
            by_cases hbest : price = ob.bestAsk
            · subst hbest
              constructor <;> simp [cancelProcess, hix, hsb, hlv, hrem]
            · constructor <;> simp [cancelProcess, hix, hsb, hlv, hrem, hbest]
          · rw [if_neg hrem]
            constructor <;> simp [cancelProcess, hix, hsb, hlv, hrem]
        rw [queueAt_eq, queueAt_eq]
        by_cases hs : s = Side.buy
        · rw [bookSideOf, bookSideOf, if_pos hs, if_pos hs, hres.1]
          try exact List.Sublist.refl _
        · rw [bookSideOf, bookSideOf, if_neg hs, if_neg hs, hres.2]
          by_cases hp : p' = price
          · subst hp
            by_cases hrem : removeById ℓ id = []
            · rw [if_pos hrem, lookupLevel_eraseLevel_self]
              simp
            · rw [if_neg hrem, lookupLevel_setLevel_self, hlv]
              exact removeById_ids_sublist ℓ id
          · by_cases hrem : removeById ℓ id = []
            · rw [if_pos hrem, lookupLevel_eraseLevel_ne _ _ _ hp]
              try exact List.Sublist.refl _
            · rw [if_neg hrem, lookupLevel_setLevel_ne _ _ _ _ hp]
              try exact List.Sublist.refl _

theorem submitProcess_queue_sub (ob : OrderBook) (o : Order) (s : Side) (p' : ℚ)
    (used : List String)
    (h : List.Sublist ((queueAt ob s p').map (·.id)) used) :
    List.Sublist ((queueAt (submitProcess ob o).2 s p').map (·.id)) (used ++ [o.id]) := by
  rw [submitProcess]
  by_cases hval : o.quantity ≤ 0 ∨ (o.typ = OrderType.limit ∧ o.price ≤ 0)
  · rw [if_pos hval]
    exact h.trans (List.sublist_append_left _ _)
  · rw [if_neg hval]
    have hmp : List.Sublist ((queueAt (matchPhase ob o).2.2 s p').map (·.id)) used :=
      (matchPhase_queue_sub ob o s p').trans h
    have hob₁ : List.Sublist ((queueAt
        (if (matchPhase ob o).2.1 > 0 ∧ o.typ = OrderType.limit then
          addToBook (matchPhase ob o).2.2 { o with quantity := (matchPhase ob o).2.1 }
          else (matchPhase ob o).2.2) s p').map (·.id)) (used ++ [o.id]) := by
      by_cases hrest : (matchPhase ob o).2.1 > 0 ∧ o.typ = OrderType.limit
      · rw [if_pos hrest]
        exact addToBook_queue_sub _ _ s p' used hmp
      · rw [if_neg hrest]
        exact hmp.trans (List.sublist_append_left _ _)
    rcases hlast : (matchPhase ob o).1.getLast? with _ | t <;> simp only [hlast]
    · exact hob₁
    · exact hob₁

theorem runCmds_queue_sub (cmds : List Cmd) (s : Side) (p' : ℚ) :
    List.Sublist ((queueAt (runCmds cmds) s p').map (·.id)) (submittedIds cmds) := by
  suffices h : ∀ (cmds : List Cmd) (ob : OrderBook) (used : List String),
      (∀ s p', List.Sublist ((queueAt ob s p').map (·.id)) used) →
      ∀ s p', List.Sublist ((queueAt (cmds.foldl stepCmd ob) s p').map (·.id))
        (used ++ submittedIds cmds) by
    have h0 : ∀ s p', List.Sublist
        ((queueAt OrderBook.empty s p').map (·.id)) ([] : List String) := by
      intro s p'
      have hq : queueAt OrderBook.empty s p' = [] := by
        rw [queueAt_eq]
        by_cases hs : s = Side.buy
        · rw [bookSideOf, if_pos hs]
          rfl
        · rw [bookSideOf, if_neg hs]
          rfl
      rw [hq]
      exact List.Sublist.refl _
    simpa using h cmds OrderBook.empty [] h0 s p'
  intro cmds
  induction cmds with
  | nil =>
    intro ob used h s p'
    simpa [submittedIds] using h s p'
  | cons c cs ih =>
    intro ob used h s p'
    rw [List.foldl_cons]
    cases c with
    | submit o =>
      have hids : submittedIds (Cmd.submit o :: cs) = o.id :: submittedIds cs := by
        simp [submittedIds]
      rw [hids]
      have hend : used ++ o.id :: submittedIds cs =
          (used ++ [o.id]) ++ submittedIds cs := by
        simp
      rw [hend]
      exact ih _ _ (fun s2 p2 => submitProcess_queue_sub ob o s2 p2 used (h s2 p2)) s p'
    | cancel cid =>
      have hids : submittedIds (Cmd.cancel cid :: cs) = submittedIds cs := by
        simp [submittedIds]
      rw [hids]
      exact ih _ _ (fun s2 p2 => (cancelProcess_queue_sub ob cid s2 p2).trans (h s2 p2)) s p'

theorem mem_of_some_getElem {α : Type _} {l : List α} {i : Nat} {a : α}
    (h : l[i]? = some a) : a ∈ l := by
  obtain ⟨hh, hg⟩ := List.getElem?_eq_some_iff.mp h
  exact hg ▸ List.getElem_mem hh

theorem level_ids_nodup {ob : OrderBook} (hB : InvBook ob)
    (hnod : (restingIds ob).Nodup) {sd : Side} {p : ℚ} {ℓ : List Order}
    (hl : lookupLevel (oppositeOf ob sd) p = some ℓ) : (ℓ.map (·.id)).Nodup := by
  by_cases hside : sd = Side.buy
  · rw [oppositeOf, if_pos hside] at hl
    obtain ⟨X, Y, hXY, h1, h2⟩ := levelIds_decomp hB.2.1.1 hl
    have hnodm : (levelIds ob.asks).Nodup := by
      have h0 := hnod
      rw [restingIds] at h0
      exact h0.of_append_right
    rw [hXY] at hnodm
    exact List.Nodup.sublist
      ((List.sublist_append_right X _).trans (List.sublist_append_left _ Y)) hnodm
  · rw [oppositeOf, if_neg hside] at hl
    obtain ⟨X, Y, hXY, h1, h2⟩ := levelIds_decomp hB.1.1 hl
    have hnodm : (levelIds ob.bids).Nodup := by
      have h0 := hnod
      rw [restingIds] at h0
      exact h0.of_append_left
    rw [hXY] at hnodm
    exact List.Nodup.sublist
      ((List.sublist_append_right X _).trans (List.sublist_append_left _ Y)) hnodm

/-- C3: strict FIFO within a price level.  Take any reachable book
(valid prices, distinct submitted ids) in which orders A and B rest at
the same side and price, A having been submitted before B, and submit
any aggressor order with a fresh id on the opposite side.  If the j-th
emitted trade fills against B, then some earlier i-th trade (i < j)
fills against A for A's entire resting quantity, and A no longer rests
in the post-submit book. -/
theorem fifo_same_price_level (cmds cmds₁ cmds₂ : List Cmd) (A B o A' B' : Order)
    (s : Side) (p : ℚ)
    (hval : ∀ c ∈ cmds, cmdPriceOK c)
    (hnd : (submittedIds cmds).Nodup)
    (hdec : cmds = cmds₁ ++ Cmd.submit A :: cmds₂)
    (hBsub : Cmd.submit B ∈ cmds₂)
    (hofresh : o.id ∉ submittedIds cmds)
    (hos : ¬o.side = s)
    (hA' : A' ∈ queueAt (runCmds cmds) s p) (hA'id : A'.id = A.id)
    (hB' : B' ∈ queueAt (runCmds cmds) s p) (hB'id : B'.id = B.id)
    (j : Nat) (t : Trade)
    (hjt : (submitProcess (runCmds cmds) o).1[j]? = some t)
    (hjB : passiveOrderId o.side t = B.id) :
    ∃ i t', i < j ∧ (submitProcess (runCmds cmds) o).1[i]? = some t' ∧
      passiveOrderId o.side t' = A.id ∧ t'.quantity = A'.quantity ∧
      A.id ∉ restingIds (submitProcess (runCmds cmds) o).2 := by
  obtain ⟨hB2, hI, hused⟩ := runCmds_stateOK cmds hval hnd
  have hAin : A.id ∈ submittedIds cmds := by
    rw [hdec]
    simp [submittedIds]
  have hAo : A.id ≠ o.id := fun hh => hofresh (hh ▸ hAin)
  have hvalo : ¬(o.quantity ≤ 0 ∨ (o.typ = OrderType.limit ∧ o.price ≤ 0)) := by
    intro hvalo
    rw [submitProcess_fst, if_pos hvalo] at hjt
    simp at hjt
  have hts : (submitProcess (runCmds cmds) o).1 = (matchPhase (runCmds cmds) o).1 := by
    rw [submitProcess_fst, if_neg hvalo]
  rw [hts] at hjt ⊢
  have hbs : bookSideOf (runCmds cmds) s = oppositeOf (runCmds cmds) o.side :=
    bookSideOf_ne _ (fun hh => hos hh.symm)
  rcases hlk : lookupLevel (oppositeOf (runCmds cmds) o.side) p with _ | ℓ
  · exfalso
    rw [queueAt_eq, hbs, hlk] at hA'
    simp at hA'
  · have hqeq : queueAt (runCmds cmds) s p = ℓ := by
      rw [queueAt_eq, hbs, hlk]
      rfl
    rw [hqeq] at hA' hB'
    have hqsub : List.Sublist (ℓ.map (·.id)) (submittedIds cmds) := by
      have h0 := runCmds_queue_sub cmds s p
      rw [hqeq] at h0
      exact h0
    have hpairU : List.Sublist [A.id, B.id] (submittedIds cmds) := by
      have hids : submittedIds cmds =
          submittedIds cmds₁ ++ A.id :: submittedIds cmds₂ := by
        rw [hdec]
        simp [submittedIds]
      rw [hids]
      apply pair_sublist_of_decomp
      exact List.mem_flatMap.mpr ⟨Cmd.submit B, hBsub, List.mem_singleton.mpr rfl⟩
    have hpair : List.Sublist [A.id, B.id] (ℓ.map (·.id)) :=
      pair_sublist_trans hqsub hnd hpairU
        (List.mem_map.mpr ⟨A', hA', hA'id⟩) (List.mem_map.mpr ⟨B', hB', hB'id⟩)
    have hlnod : (ℓ.map (·.id)).Nodup := level_ids_nodup hB2 hI.1 hlk
    have hdecomp : ∃ ts₁ q₁ ts₃,
        (matchPhase (runCmds cmds) o).1 = ts₁ ++ (matchQueue o p q₁ ℓ).1 ++ ts₃ ∧
        (∀ t2 ∈ ts₁, passiveOrderId o.side t2 ∉ ℓ.map (·.id)) ∧
        (∀ t2 ∈ ts₃, passiveOrderId o.side t2 ∉ ℓ.map (·.id)) ∧
        (∀ x ∈ (matchQueue o p q₁ ℓ).2.2.2,
          x ∉ restingIds (matchPhase (runCmds cmds) o).2.2) := by
      rw [matchPhase]
      by_cases htyp : o.typ = OrderType.market
      · rw [if_pos htyp, matchMarket]
        exact matchLoop_level_fifo false o p _ _ _ ℓ hB2 hI hlk
      · rw [if_neg htyp, matchLimit]
        exact matchLoop_level_fifo true o p _ _ _ ℓ hB2 hI hlk
    obtain ⟨ts₁, q₁, ts₃, hts2, hts1p, hts3p, hremp⟩ := hdecomp
    rw [hts2] at hjt ⊢
    rw [List.append_assoc] at hjt ⊢
    have hBq : B.id ∈ ℓ.map (·.id) := List.mem_map.mpr ⟨B', hB', hB'id⟩
    by_cases hj1 : j < ts₁.length
    · exfalso
      rw [List.getElem?_append, if_pos (by simpa using hj1)] at hjt
      exact hts1p t (mem_of_some_getElem hjt) (hjB ▸ hBq)
    · rw [List.getElem?_append, if_neg (by simpa using hj1)] at hjt
      by_cases hj2 : j - ts₁.length < (matchQueue o p q₁ ℓ).1.length
      · rw [List.getElem?_append, if_pos (by simpa using hj2)] at hjt
        obtain ⟨i2, t', hij2, hti2, hpt', ⟨r, hri, hrid, hquant⟩, hrm⟩ :=
          matchQueue_fifo o p q₁ ℓ hlnod A.id B.id hpair (j - ts₁.length) t hjt hjB
        have hrA : r = A' := by
          apply nodup_ids_inj hlnod r (mem_of_some_getElem hri) A' hA'
          rw [hrid, hA'id]
        refine ⟨ts₁.length + i2, t', ?_, ?_, hpt', ?_, ?_⟩
        · omega
        · rw [List.getElem?_append, if_neg (by simp)]
          rw [List.getElem?_append, if_pos ?_]
          · have hsh : ts₁.length + i2 - ts₁.length = i2 := by omega
            rw [hsh]
            exact hti2
          · have hlt : i2 < (matchQueue o p q₁ ℓ).1.length := by
              obtain ⟨hh, _⟩ := List.getElem?_eq_some_iff.mp hti2
              exact hh
            simp
            omega
        · rw [hquant, hrA]
        · intro hmem
          rw [(submitProcess_ids_eq (runCmds cmds) o).1, if_neg hvalo] at hmem
          by_cases hrest : (matchPhase (runCmds cmds) o).2.1 > 0 ∧ o.typ = OrderType.limit
          · rw [if_pos hrest] at hmem
            rcases addToBook_ids_sub _ _ hmem with h' | h'
            · exact hremp A.id hrm h'
            · exact hAo h'
          · rw [if_neg hrest] at hmem
            exact hremp A.id hrm hmem
      · exfalso
        rw [List.getElem?_append, if_neg (by simpa using hj2)] at hjt
        exact hts3p t (mem_of_some_getElem hjt) (hjB ▸ hBq)

/-- Witness for C3: sells A then B rest at 100; a Buy limit 101 for 7
fills A completely (5 at index 0) before touching B (2 at index 1), and
A is gone from the book. -/
theorem fifo_same_price_level_witness :
    ∃ i t', i < 1 ∧
      (submitProcess (runCmds [Cmd.submit ⟨"A", Side.sell, OrderType.limit, 100, 5, "a"⟩,
          Cmd.submit ⟨"B", Side.sell, OrderType.limit, 100, 5, "b"⟩])
        ⟨"C", Side.buy, OrderType.limit, 101, 7, "c"⟩).1[i]? = some t' ∧
      passiveOrderId (⟨"C", Side.buy, OrderType.limit, 101, 7, "c"⟩ : Order).side t' =
        (⟨"A", Side.sell, OrderType.limit, 100, 5, "a"⟩ : Order).id ∧
      t'.quantity = (⟨"A", Side.sell, OrderType.limit, 100, 5, "a"⟩ : Order).quantity ∧
      (⟨"A", Side.sell, OrderType.limit, 100, 5, "a"⟩ : Order).id ∉
        restingIds (submitProcess
          (runCmds [Cmd.submit ⟨"A", Side.sell, OrderType.limit, 100, 5, "a"⟩,
            Cmd.submit ⟨"B", Side.sell, OrderType.limit, 100, 5, "b"⟩])
          ⟨"C", Side.buy, OrderType.limit, 101, 7, "c"⟩).2 :=
  fifo_same_price_level
    [Cmd.submit ⟨"A", Side.sell, OrderType.limit, 100, 5, "a"⟩,
      Cmd.submit ⟨"B", Side.sell, OrderType.limit, 100, 5, "b"⟩]
    [] [Cmd.submit ⟨"B", Side.sell, OrderType.limit, 100, 5, "b"⟩]
    ⟨"A", Side.sell, OrderType.limit, 100, 5, "a"⟩
    ⟨"B", Side.sell, OrderType.limit, 100, 5, "b"⟩
    ⟨"C", Side.buy, OrderType.limit, 101, 7, "c"⟩
    ⟨"A", Side.sell, OrderType.limit, 100, 5, "a"⟩
    ⟨"B", Side.sell, OrderType.limit, 100, 5, "b"⟩
    Side.sell 100
    (by
      intro c hc
      fin_cases hc <;> simp [cmdPriceOK, maxFloat64] <;> norm_num)
    (by simp [submittedIds])
    rfl
    (by simp)
    (by simp [submittedIds])
    (by decide)
    (by
      norm_num [runCmds, stepCmd, submitProcess, matchPhase, matchMarket, matchLimit,
        matchLoop, getBestOpposite, matchAtPrice, matchQueue, mkTrade, addToBook, setLevel,
        containsKey, replaceLevel, eraseLevel, lookupLevel, lookupIdx, insertIdx, eraseIdx,
        eraseIds, cancelProcess, removeById, findBestBidNoLock, findBestAskNoLock, maxFloat64,
        OrderBook.empty, queueAt, bookSideOf, min_def, sell_eq_buy_iff, buy_eq_sell_iff,
        limit_eq_market_iff, market_eq_limit_iff, String.reduceEq] <;> decide)
    rfl
    (by
      norm_num [runCmds, stepCmd, submitProcess, matchPhase, matchMarket, matchLimit,
        matchLoop, getBestOpposite, matchAtPrice, matchQueue, mkTrade, addToBook, setLevel,
        containsKey, replaceLevel, eraseLevel, lookupLevel, lookupIdx, insertIdx, eraseIdx,
        eraseIds, cancelProcess, removeById, findBestBidNoLock, findBestAskNoLock, maxFloat64,
        OrderBook.empty, queueAt, bookSideOf, min_def, sell_eq_buy_iff, buy_eq_sell_iff,
        limit_eq_market_iff, market_eq_limit_iff, String.reduceEq] <;> decide)
    rfl
    1 ⟨100, 2, "c", "b", "C", "B"⟩
    (by
      norm_num [runCmds, stepCmd, submitProcess, matchPhase, matchMarket, matchLimit,
        matchLoop, getBestOpposite, matchAtPrice, matchQueue, mkTrade, addToBook, setLevel,
        containsKey, replaceLevel, eraseLevel, lookupLevel, lookupIdx, insertIdx, eraseIdx,
        eraseIds, cancelProcess, removeById, findBestBidNoLock, findBestAskNoLock, maxFloat64,
        OrderBook.empty, min_def, sell_eq_buy_iff, buy_eq_sell_iff,
        limit_eq_market_iff, market_eq_limit_iff, String.reduceEq] <;> decide)
    (by decide)

end CDA
